import Mathlib

/-!
# amigo: the migration runner of `cmd/cmd.go`

A shallow embedding of `cmd.go` and theorems about it.

* Go strings are modelled by `String`; the files read are text (valid UTF-8), so that
  substring search and trimming on bytes agree with the same operations on characters.
* The database is the MySQL table `amigo_migrations` (the rows `name`, `priority`; `id` and
  `created_at` are never read), the rest of the database (a state of type `W` that the
  migration scripts act on) and the list of statements sent to it.
* `log.Fatal` ends the process: operations return `Outcome.fatal` with the database state
  at exit.
-/

namespace Amigo

/-! ## Library functions used by `cmd.go` -/

/-- The cutset `" \n"` of both `strings.Trim` calls. -/
def inCutset (c : Char) : Bool := c == ' ' || c == '\n'

/-- The function `strings.Trim(s, " \n")` on the characters of `s`. -/
def trimChars (s : List Char) : List Char :=
  (s.dropWhile inCutset).rdropWhile inCutset

/-- The function `strings.Contains(s, sub)` on characters. -/
def hasInfix (sub : List Char) : List Char → Bool
  | [] => sub.isEmpty
  | c :: cs => sub.isPrefixOf (c :: cs) || hasInfix sub cs

/-- The constant `bufio.MaxScanTokenSize`. -/
def maxScanTokenSize : Nat := 64 * 1024

/-- Length in bytes of the UTF-8 encoding. -/
def byteLen (l : List Char) : Nat := (l.map Char.utf8Size).sum

/-- The helper `dropCR` of `bufio.ScanLines`: one trailing carriage return is dropped. -/
def dropCR (l : List Char) : List Char :=
  if l.getLast? = some '\r' then l.dropLast else l

/-- The segments `bufio.ScanLines` cuts a content into: the text before each newline, and the
text after the last newline when it is not empty. `cur` is the segment read so far. -/
def splitLines : List Char → List Char → List (List Char)
  | [], cur => if cur = [] then [] else [cur]
  | c :: cs, cur => if c = '\n' then cur :: splitLines cs [] else splitLines cs (cur ++ [c])

/-- A `bufio.Scanner` with the default buffer over a content: the values `scanner.Text()`
takes while `scanner.Scan()` is true, and whether `scanner.Err()` is non-nil afterwards (a
segment of `maxScanTokenSize` bytes or more stops the scan with `ErrTooLong`). -/
def scan (content : List Char) : List (List Char) × Bool :=
  let segs := splitLines content []
  ((segs.takeWhile (fun t => decide (byteLen t < maxScanTokenSize))).map dropCR,
   segs.any (fun t => decide (maxScanTokenSize ≤ byteLen t)))

/-- The loop of `strconv.ParseUint(s, 10, 64)` over the characters left, `n` being the value
read so far: `none` on a character that is no digit (syntax error); on a range error the
largest `uint64`, returned at the digit that overflows, whatever follows it. -/
def parseUint : List Char → Nat → Option Nat
  | [], n => some n
  | c :: cs, n =>
    if c.isDigit = false then none
    else if n ≥ (2 ^ 64 - 1) / 10 + 1 then some (2 ^ 64 - 1)
    else if 10 * n + (c.toNat - 48) > 2 ^ 64 - 1 then some (2 ^ 64 - 1)
    else parseUint cs (10 * n + (c.toNat - 48))

/-- The function `strconv.Atoi` with its error dropped (`steps, _ := strconv.Atoi(..)`), for a
64-bit `int`: 0 on a syntax error, the nearest bound of `int64` on a range error. -/
def Atoi (s : String) : Int :=
  let neg := s.data.head? = some '-'
  let digits := if s.data.head? = some '-' ∨ s.data.head? = some '+' then s.data.tail else s.data
  if digits = [] then 0
  else
    match parseUint digits 0 with
    | none => 0
    | some un =>
      if neg then (if un > 2 ^ 63 then -(2 ^ 63 : Int) else -(un : Int))
      else (if un ≥ 2 ^ 63 then (2 ^ 63 - 1 : Int) else (un : Int))

/-- The order `<` of Go strings (byte by byte, which on UTF-8 text is character by
character). -/
def strLt : List Char → List Char → Bool
  | _, [] => false
  | [], _ :: _ => true
  | a :: as, b :: bs => decide (a.toNat < b.toNat) || (a == b && strLt as bs)

/-- The order `<=` of Go strings. -/
def strLe (a b : String) : Prop := strLt b.data a.data = false

instance : DecidableRel strLe := fun a b => inferInstanceAs (Decidable (strLt b.data a.data = false))

/-- The function `sort.Strings`. -/
def sortStrings (l : List String) : List String := l.insertionSort strLe

/-! ## readFile -/

/-- The local variables `up`, `down` and `flg` of `readFile`. -/
structure Sections where
  up : List Char
  down : List Char
  flg : Int
deriving DecidableEq, Repr

/-- One iteration of the `for scanner.Scan()` loop of `readFile`. -/
def readLine (st : Sections) (text : List Char) : Sections :=
  let txt := trimChars text
  if hasInfix "migrate_up".data txt then { st with flg := 0 }
  else if hasInfix "migrate_down".data txt then { st with flg := 1 }
  else if st.flg = 0 then { st with up := st.up ++ txt ++ ['\n'] }
  else if st.flg = 1 then { st with down := st.down ++ txt ++ ['\n'] }
  else st

/-- The function `readFile` on the content of the opened file; `none` is `log.Fatal`. -/
def readContent (content : List Char) : Option (String × String) :=
  let st := (scan content).1.foldl readLine ⟨[], [], 0⟩
  let up := trimChars st.up
  let down := trimChars st.down
  if (scan content).2 then none else some (⟨up⟩, ⟨down⟩)

/-- The function `readFile`: `fs` gives the content of the files that `os.Open` can open;
`none` is `log.Fatal`. -/
def readFile (fs : String → Option String) (name : String) : Option (String × String) :=
  match fs name with
  | none => none
  | some content => readContent content.data

/-! ## The database -/

/-- A row of `amigo_migrations`. -/
structure Entry where
  name : String
  priority : Int
deriving DecidableEq, Repr

/-- A statement sent to the database with `db.Exec`. -/
inductive Stmt where
  | script (query : String)
  | insert (name : String) (priority : Int)
  | delete (priority : Int)
deriving DecidableEq, Repr

/-- The database: the rows of `amigo_migrations` in insertion order, the rest of the
database, and the statements sent so far (failed ones included). -/
structure DB (W : Type) where
  ledger : List Entry
  world : W
  sent : List Stmt
deriving DecidableEq, Repr

/-- What the program is run in: the directory listings of `ioutil.ReadDir` (name, `IsDir`), the
contents of the files `os.Open` can open, and the effect of a script on the rest of the
database (`none` when the database reports an error). -/
structure Env (W : Type) where
  readDir : String → Option (List (String × Bool))
  file : String → Option String
  run : String → W → Option W

/-- The `error` result of a statement: `ok` is `nil`. -/
inductive Res (σ : Type) where
  | ok (s : σ)
  | err (s : σ)
deriving DecidableEq, Repr

/-- The result of an operation: `done` when it returns, `fatal` when `log.Fatal` ends the
process; both carry the database state left behind. -/
inductive Outcome (σ : Type) where
  | done (s : σ)
  | fatal (s : σ)
deriving DecidableEq, Repr

/-- The database state an outcome carries. -/
def Outcome.state {σ : Type} : Outcome σ → σ
  | .done s => s
  | .fatal s => s

variable {W : Type}

/-- The function `exec`: the script goes to the database through the pool (`db.Exec`), outside
any transaction, so its effect is durable at once. -/
def exec (env : Env W) (query : String) (db : DB W) : Res (DB W) :=
  match env.run query db.world with
  | none => .err { db with sent := db.sent ++ [.script query] }
  | some w => .ok { db with world := w, sent := db.sent ++ [.script query] }

/-- The function `createMigrationTable`: `create table if not exists`; a missing table and
an empty one are the same ledger `[]`. -/
def createMigrationTable (db : DB W) : DB W := db

/-- The rows in the order of `order by priority` (rows of equal priority stay in insertion
order). -/
def byPriority (l : List Entry) : List Entry :=
  l.insertionSort (fun a b => a.priority ≤ b.priority)

/-- The function `retrieveMigratedList`: `select name .. order by priority`. -/
def retrieveMigratedList (db : DB W) : List String :=
  (byPriority db.ledger).map (·.name)

/-- The function `addMigration`: the insert fails on the unique constraint of `name`
(`amigo_migrations_name_uq`); `priority` has no constraint. -/
def addMigration (name : String) (priority : Int) (db : DB W) : Res (DB W) :=
  if db.ledger.any (fun e => e.name = name) then
    .err { db with sent := db.sent ++ [.insert name priority] }
  else
    .ok { db with ledger := db.ledger ++ [⟨name, priority⟩],
                  sent := db.sent ++ [.insert name priority] }

/-- The function `removeMigration`: `delete .. where priority=?` removes every row with that
priority and is no error when there is none. -/
def removeMigration (priority : Int) (db : DB W) : Res (DB W) :=
  .ok { db with ledger := db.ledger.filter (fun e => e.priority ≠ priority),
                sent := db.sent ++ [.delete priority] }

/-- A transaction handle `*sql.Tx`: the statements issued through it. -/
structure Tx where
  issued : List Stmt
deriving DecidableEq, Repr

/-- The call `db.Begin()`. -/
def Begin : Tx := ⟨[]⟩

/-- The effect of one statement on the database, its error dropped. -/
def applyStmt (env : Env W) (s : Stmt) (db : DB W) : DB W :=
  match s with
  | .script q => match exec env q db with
    | .ok d => d
    | .err d => d
  | .insert n p => match addMigration n p db with
    | .ok d => d
    | .err d => d
  | .delete p => match removeMigration p db with
    | .ok d => d
    | .err d => d

/-- The call `tx.Commit()`: the statements issued through the handle become durable. -/
def Tx.Commit (env : Env W) (tx : Tx) (db : DB W) : DB W :=
  tx.issued.foldl (fun d s => applyStmt env s d) db

/-- The call `tx.Rollback()`: the statements issued through the handle are dropped; what
was sent through the pool stays. -/
def Tx.Rollback (_tx : Tx) (db : DB W) : DB W := db

/-! ## Init -/

/-- The loop of `case "up"`, from index `i` over the remaining `names`. -/
def upLoop (env : Env W) (path : String) (saved : List String) (tx : Tx) :
    Nat → List String → DB W → Outcome (DB W)
  | _, [], db => .done db
  | i, name :: rest, db =>
    if decide (i < saved.length) && (saved[i]?.getD "" == name) then
      upLoop env path saved tx (i + 1) rest db
    else
      match readFile env.file (path ++ "/" ++ name) with
      | none => .fatal db
      | some (up, _) =>
        match exec env up db with
        | .err db1 => .fatal (tx.Rollback db1)
        | .ok db1 =>
          match addMigration name i db1 with
          | .err db2 => .fatal (tx.Rollback db2)
          | .ok db2 => upLoop env path saved tx (i + 1) rest db2

/-- The slice `names` of `case "up"`: the names of the entries that are not directories,
sorted. -/
def fileNames (files : List (String × Bool)) : List String :=
  sortStrings ((files.filter (fun f => !f.2)).map (·.1))

/-- The body of `case "up"`. -/
def up (env : Env W) (path : String) (db : DB W) : Outcome (DB W) :=
  let db := createMigrationTable db
  let saved := retrieveMigratedList db
  match env.readDir path with
  | none => .fatal db
  | some files =>
    let names := fileNames files
    let tx := Begin
    match upLoop env path saved tx 0 names db with
    | .fatal d => .fatal d
    | .done d => .done (tx.Commit env d)

/-- The loop of `case "down"`: `n` is `i + 1`, the iterations left. -/
def downLoop (env : Env W) (path : String) (saved : List String) (tx : Tx) :
    Nat → DB W → Outcome (DB W)
  | 0, db => .done db
  | i + 1, db =>
    let name := saved[i]?.getD ""
    match readFile env.file (path ++ "/" ++ name) with
    | none => .fatal db
    | some (_, down) =>
      match exec env down db with
      | .err db1 => .fatal (tx.Rollback db1)
      | .ok db1 =>
        match removeMigration i db1 with
        | .err db2 => .fatal (tx.Rollback db2)
        | .ok db2 => downLoop env path saved tx i db2

/-- The body of `case "down"`. -/
def down (env : Env W) (path : String) (db : DB W) : Outcome (DB W) :=
  let db := createMigrationTable db
  let saved := retrieveMigratedList db
  let savedLen := saved.length
  let tx := Begin
  match downLoop env path saved tx savedLen db with
  | .fatal d => .fatal d
  | .done d => .done (tx.Commit env d)

/-- The loop of `case "rollback"`: `n` is `i + 1`, the iterations left, and `k` the counter. -/
def rollbackLoop (env : Env W) (path : String) (saved : List String) (tx : Tx) (steps : Int) :
    Nat → Int → DB W → Outcome (DB W)
  | 0, _, db => .done db
  | i + 1, k, db =>
    let name := saved[i]?.getD ""
    match readFile env.file (path ++ "/" ++ name) with
    | none => .fatal db
    | some (_, down) =>
      match exec env down db with
      | .err db1 => .fatal (tx.Rollback db1)
      | .ok db1 =>
        match removeMigration i db1 with
        | .err db2 => .fatal (tx.Rollback db2)
        | .ok db2 =>
          if k + 1 = steps then .done db2
          else rollbackLoop env path saved tx steps i (k + 1) db2

/-- The body of `case "rollback"` after `steps` is set. -/
def rollback (env : Env W) (path : String) (steps : Int) (db : DB W) : Outcome (DB W) :=
  let db := createMigrationTable db
  let saved := retrieveMigratedList db
  let savedLen := saved.length
  let tx := Begin
  match rollbackLoop env path saved tx steps savedLen 0 db with
  | .fatal d => .fatal d
  | .done d => .done (tx.Commit env d)

/-- The call `flag.Arg(i)`: the `i`-th argument after the flags, `""` when there is none. -/
def flagArg (args : List String) (i : Nat) : String := args.getD i ""

/-- The function `Init` on the database: `path` is the value of the `--path` flag and `args`
the arguments left after the flags. `case "create"` writes a file and sends nothing to the
database. -/
def Init (env : Env W) (path : String) (args : List String) (db : DB W) : Outcome (DB W) :=
  let action := flagArg args 0
  let action := if action = "" then "create" else action
  if action = "create" then .done db
  else if action = "up" then up env path db
  else if action = "down" then down env path db
  else if action = "rollback" then
    let stepsArg := flagArg args 0
    let stepsArg := if stepsArg = "" then "1" else stepsArg
    let steps := Atoi stepsArg
    rollback env path steps db
  else .done db

/-! ## Notions the statements use -/

/-- The apply script `readFile` returns for the file `name` of the directory (`""` when the
file cannot be read). -/
def applyScript (env : Env W) (path name : String) : String :=
  ((readFile env.file (path ++ "/" ++ name)).map Prod.fst).getD ""

/-- The revert script `readFile` returns for the file `name` of the directory (`""` when the
file cannot be read). -/
def revertScript (env : Env W) (path name : String) : String :=
  ((readFile env.file (path ++ "/" ++ name)).map Prod.snd).getD ""

/-- The indexed files the loop of `case "up"` does not skip, from index `i` on. -/
def unskipped (saved : List String) : Nat → List String → List (Nat × String)
  | _, [] => []
  | i, name :: rest =>
    if decide (i < saved.length) && (saved[i]?.getD "" == name) then unskipped saved (i + 1) rest
    else (i, name) :: unskipped saved (i + 1) rest

/-- The ledger rows `(name, i)` of indexed files. -/
def rowsOf (ps : List (Nat × String)) : List Entry :=
  ps.map (fun p => ⟨p.2, (p.1 : Int)⟩)

/-- The statements that apply indexed files: for each, its apply script, then the insert. -/
def applyStmts (env : Env W) (path : String) (ps : List (Nat × String)) : List Stmt :=
  ps.flatMap (fun p => [.script (applyScript env path p.2), .insert p.2 (p.1 : Int)])

/-- The statements that revert ledger rows: for each, its revert script, then the delete of
its priority. -/
def revertStmts (env : Env W) (path : String) (es : List Entry) : List Stmt :=
  es.flatMap (fun e => [.script (revertScript env path e.name), .delete e.priority])

/-- The indices `n - 1, n - 2, ..` of `r` iterations of a loop that counts down from `n - 1`. -/
def countdown : Nat → Nat → List Nat
  | 0, _ => []
  | _ + 1, 0 => []
  | n + 1, r + 1 => n :: countdown n r

/-- The statements of the iterations `is` of the loops of `case "down"` and
`case "rollback"`. -/
def loopStmts (env : Env W) (path : String) (saved : List String) (is : List Nat) : List Stmt :=
  is.flatMap (fun i => [.script (revertScript env path (saved[i]?.getD "")), .delete (i : Int)])

/-- The priorities of the ledger are `0, .., N - 1`, each once, for its `N` rows. -/
def Dense (l : List Entry) : Prop :=
  (l.map (·.priority)).Perm ((List.range l.length).map Int.ofNat)

/-- The names of the ledger and the sorted file names agree at every common position. -/
def Agree (saved names : List String) : Prop :=
  ∀ i, i < saved.length → i < names.length → saved[i]?.getD "" = names[i]?.getD ""

/-- Every file of the list can be read by `readFile`. -/
def Readable (env : Env W) (path : String) (names : List String) : Prop :=
  ∀ name ∈ names, (readFile env.file (path ++ "/" ++ name)).isSome = true

/-- Every script succeeds on every state of the database. -/
def AllRun (env : Env W) : Prop := ∀ q w, (env.run q w).isSome = true

/-- The number of iterations the loop of `case "rollback"` runs, from the counter value `k`,
when `n` ledger names are left. -/
def reverted (steps : Int) (n : Nat) (k : Int) : Nat :=
  if k < steps then min n (steps - k).toNat else n

/-- The row has a priority outside `lo, .., hi - 1`. -/
def outside (lo hi : Nat) (e : Entry) : Bool :=
  decide (e.priority < (lo : Int)) || decide ((hi : Int) ≤ e.priority)

instance : IsTrans Entry (fun a b => a.priority ≤ b.priority) := ⟨fun _ _ _ h1 h2 => le_trans h1 h2⟩

instance : IsTotal Entry (fun a b => a.priority ≤ b.priority) := ⟨fun a b => le_total a.priority b.priority⟩

/-- The first file of the scenario. -/
def usersFile : String := "2024_01_01_00_00_00_create_users_table.sql"

/-- The second file of the scenario. -/
def postsFile : String := "2024_01_02_00_00_00_create_posts_table.sql"

/-- The files of the scenario, in the directory `migrations`. -/
def scenarioFile (name : String) : Option String :=
  if name = "migrations/" ++ usersFile then
    some "/* -- migrate_up -- */\ncreate table users(id int);\n/* -- migrate_down -- */\ndrop table users;"
  else if name = "migrations/" ++ postsFile then
    some "/* -- migrate_up -- */\ncreate table posts(id int);\n/* -- migrate_down -- */\ndrop table posts;"
  else none

/-- The listing of the directory `migrations` in the scenario. -/
def scenarioDir : List (String × Bool) := [(usersFile, false), (postsFile, false)]

/-- The scenario: two files, every script succeeds. -/
def scenarioEnv : Env Unit where
  readDir p := if p = "migrations" then some scenarioDir else none
  file := scenarioFile
  run _ w := some w

/-- The ledger after `up` in the scenario. -/
def scenarioLedger : List Entry := [⟨usersFile, 0⟩, ⟨postsFile, 1⟩]

/-- The database after `up` in the scenario, from the empty one. -/
def scenarioApplied : DB Unit :=
  ⟨scenarioLedger, (),
    [.script "create table users(id int);", .insert usersFile 0,
     .script "create table posts(id int);", .insert postsFile 1]⟩

/-- The database after `down` in the scenario, from the ledger of the two files. -/
def scenarioReverted : DB Unit :=
  ⟨[], (), [.script "drop table posts;", .delete 1, .script "drop table users;", .delete 0]⟩

/-- An operation with what it is run in: the body of `case "up"`, of `case "down"`, or of
`case "rollback"` with the value of `steps`. -/
inductive Op (W : Type) where
  | up (env : Env W)
  | down (env : Env W)
  | rollback (env : Env W) (steps : Int)

/-- The operation run on a database. -/
def Op.run (path : String) : Op W → DB W → Outcome (DB W)
  | .up env, db => Amigo.up env path db
  | .down env, db => Amigo.down env path db
  | .rollback env steps, db => Amigo.rollback env path steps db

/-- A sequence of operations, each run on the database the one before returned with; it stops
at the first that ends in `log.Fatal`. -/
def runOps (path : String) : List (Op W) → DB W → Outcome (DB W)
  | [], db => .done db
  | op :: ops, db =>
    match op.run path db with
    | .done d => runOps path ops d
    | .fatal d => .fatal d

/-- For `up`: the names of the ledger and the sorted names of the directory agree at every
common position. -/
def Op.agrees (path : String) : Op W → DB W → Prop
  | .up env, db => ∀ files, env.readDir path = some files →
      Agree (retrieveMigratedList db) (fileNames files)
  | .down _, _ => True
  | .rollback _ _, _ => True

/-- Every `up` of the sequence meets a ledger that agrees with its directory. -/
def Agreeing (path : String) : List (Op W) → DB W → Prop
  | [], _ => True
  | op :: ops, db => op.agrees path db ∧ ∀ d, op.run path db = .done d → Agreeing path ops d

/-- The invariant of the ledger: priorities `0, .., N - 1`, each once, and distinct names. -/
def LedgerInv (l : List Entry) : Prop := Dense l ∧ (l.map (·.name)).Nodup

/-- A third file, created after the two of the scenario. -/
def commentsFile : String := "2024_01_03_00_00_00_create_comments_table.sql"

/-- The files of the drifted directory: the file of `posts` is gone and the file of `comments`
is new. -/
def driftFile (name : String) : Option String :=
  if name = "migrations/" ++ commentsFile then
    some "/* -- migrate_up -- */\ncreate table comments(id int);\n/* -- migrate_down -- */\ndrop table comments;"
  else if name = "migrations/" ++ postsFile then none
  else scenarioFile name

/-- The drifted directory; every script succeeds. -/
def driftEnv : Env Unit where
  readDir p := if p = "migrations" then some [(usersFile, false), (commentsFile, false)] else none
  file := driftFile
  run _ w := some w

/-- The database after `up` in the scenario and then `up` on the drifted directory. -/
def driftApplied : DB Unit :=
  ⟨[⟨usersFile, 0⟩, ⟨postsFile, 1⟩, ⟨commentsFile, 1⟩], (),
    [.script "create table users(id int);", .insert usersFile 0,
     .script "create table posts(id int);", .insert postsFile 1,
     .script "create table comments(id int);", .insert commentsFile 1]⟩

/-- A ledger with a gap: the two rows of the scenario at the priorities 2 and 3. -/
def gapDB : DB Unit := ⟨[⟨usersFile, 2⟩, ⟨postsFile, 3⟩], (), []⟩

/-- The database after `up` on `gapDB` with the drifted directory. -/
def gapApplied : DB Unit :=
  ⟨[⟨usersFile, 2⟩, ⟨postsFile, 3⟩, ⟨commentsFile, 1⟩], (),
    [.script "create table comments(id int);", .insert commentsFile 1]⟩

/-- Five files `001.sql`, .., `005.sql`; the apply script of `00k.sql` creates the table `tk`. -/
def fiveFile (name : String) : Option String :=
  if name = "migrations/001.sql" then
    some "-- migrate_up\ncreate table t1(id int);\n-- migrate_down\ndrop table t1;"
  else if name = "migrations/002.sql" then
    some "-- migrate_up\ncreate table t2(id int);\n-- migrate_down\ndrop table t2;"
  else if name = "migrations/003.sql" then
    some "-- migrate_up\ncreate table t3(id int);\n-- migrate_down\ndrop table t3;"
  else if name = "migrations/004.sql" then
    some "-- migrate_up\ncreate table t4(id int);\n-- migrate_down\ndrop table t4;"
  else if name = "migrations/005.sql" then
    some "-- migrate_up\ncreate table t5(id int);\n-- migrate_down\ndrop table t5;"
  else none

/-- The five files, with a database that rejects the apply script of the third. -/
def fiveEnv : Env Unit where
  readDir p :=
    if p = "migrations" then
      some [("001.sql", false), ("002.sql", false), ("003.sql", false), ("004.sql", false),
        ("005.sql", false)]
    else none
  file := fiveFile
  run q w := if q = "create table t3(id int);" then none else some w

/-- The scenario with a database that rejects the revert script of `users`. -/
def failingRevertEnv : Env Unit where
  readDir := scenarioEnv.readDir
  file := scenarioFile
  run q w := if q = "drop table users;" then none else some w

/-- A file with a marker line and a second line of `n` characters `x`. -/
def longLineContent (n : Nat) : List Char := "migrate_up".data ++ '\n' :: List.replicate n 'x'

/-- A file with the marker `migrate_up` only. -/
def upOnlyContent : String := "/* -- migrate_up -- */\ncreate table users(id int);\n"

/-- The smallest index `j` with `j >= len(applied)` or `applied[j] != pending[j]`, counted from
index `i`; the length of `pending` when there is none. -/
def firstMismatch (applied : List String) : Nat → List String → Nat
  | i, [] => i
  | i, name :: rest =>
    if decide (i < applied.length) && (applied[i]?.getD "" == name) then
      firstMismatch applied (i + 1) rest
    else i

/-- The indexed files `pending[j], pending[j+1], ..` from the first mismatch `j` on, as the
claim words what `up` applies. -/
def fromFirstMismatch (applied pending : List String) : List (Nat × String) :=
  pending.enum.drop (firstMismatch applied 0 pending)

/-- A file that sorts between the two of the scenario's later files. -/
def tagsFile : String := "2024_01_02_00_00_00_create_tags_table.sql"

/-- A drifted directory: `users`, `tags` in the place of `posts`, and `comments`. -/
def tagsEnv : Env Unit where
  readDir p :=
    if p = "migrations" then some [(usersFile, false), (tagsFile, false), (commentsFile, false)]
    else none
  file name :=
    if name = "migrations/" ++ tagsFile then
      some "/* -- migrate_up -- */\ncreate table tags(id int);\n/* -- migrate_down -- */\ndrop table tags;"
    else driftFile name
  run _ w := some w

/-- A ledger with `users`, `posts` and `comments` applied. -/
def threeDB : DB Unit := ⟨[⟨usersFile, 0⟩, ⟨postsFile, 1⟩, ⟨commentsFile, 2⟩], (), []⟩

/-- The database after `up` on `threeDB` with the directory of `tagsEnv`. -/
def threeApplied : DB Unit :=
  ⟨[⟨usersFile, 0⟩, ⟨postsFile, 1⟩, ⟨commentsFile, 2⟩, ⟨tagsFile, 1⟩], (),
    [.script "create table tags(id int);", .insert tagsFile 1]⟩

/-- A section under assembly is empty or ends with a newline. -/
def Closed (l : List Char) : Prop := l = [] ∨ ∃ l', l = l' ++ ['\n']

/-- The lines of the section `sec` (0 apply, 1 revert): a line that contains `migrate_up` opens
an apply region, one that contains `migrate_down` (and not `migrate_up`) a revert region, and
every other line belongs to the region it falls in; `flg` is the region at the first line. -/
def regionLines (sec : Int) : Int → List (List Char) → List (List Char)
  | _, [] => []
  | flg, l :: ls =>
    if hasInfix "migrate_up".data l then regionLines sec 0 ls
    else if hasInfix "migrate_down".data l then regionLines sec 1 ls
    else if flg = sec then l :: regionLines sec flg ls
    else regionLines sec flg ls

/-- The lines of a content, each with its own line terminator. `cur` is the line read so
far. -/
def linesWithTerminator : List Char → List Char → List (List Char)
  | [], cur => if cur = [] then [] else [cur]
  | c :: cs, cur =>
    if c = '\n' then (cur ++ ['\n']) :: linesWithTerminator cs []
    else linesWithTerminator cs (cur ++ [c])

/-- A text without its leading and trailing white space (space, tab, carriage return,
newline). -/
def trimSpace (l : List Char) : List Char :=
  (l.dropWhile Char.isWhitespace).rdropWhile Char.isWhitespace

/-- The two scripts as the claim words them: every line without marker is appended unchanged,
with its own terminator, to the section of its region, and the assembled section loses its
leading and trailing white space only. -/
def verbatimSections (content : List Char) : String × String :=
  (⟨trimSpace (regionLines 0 0 (linesWithTerminator content [])).flatten⟩,
   ⟨trimSpace (regionLines 1 0 (linesWithTerminator content [])).flatten⟩)

/-- A file with an indented line. -/
def indentedContent : String := "-- migrate_up\ncreate table t(\n  id int\n);\n"

/-- The calendar fields, in UTC, of the time that `time.Now().UTC()` returns (years from 0 on).
Times are ordered as their fields are, from the year down to the second. -/
structure Time where
  year : Nat
  month : Nat
  day : Nat
  hour : Nat
  minute : Nat
  second : Nat
deriving DecidableEq, Repr

/-- The fields are those of a time in the years 0000 to 9999. -/
def Time.valid (t : Time) : Prop :=
  t.year ≤ 9999 ∧ 1 ≤ t.month ∧ t.month ≤ 12 ∧ 1 ≤ t.day ∧ t.day ≤ 31 ∧ t.hour ≤ 23 ∧
    t.minute ≤ 59 ∧ t.second ≤ 59

instance (t : Time) : Decidable t.valid := inferInstanceAs (Decidable (_ ∧ _))

/-- The time `a` is earlier than the time `b`, at the resolution of one second. -/
def Time.before (a b : Time) : Prop :=
  a.year < b.year ∨ (a.year = b.year ∧ (a.month < b.month ∨ (a.month = b.month ∧
    (a.day < b.day ∨ (a.day = b.day ∧ (a.hour < b.hour ∨ (a.hour = b.hour ∧
      (a.minute < b.minute ∨ (a.minute = b.minute ∧ a.second < b.second)))))))))

instance (a b : Time) : Decidable (a.before b) := inferInstanceAs (Decidable (_ ∨ _))

/-- The function `appendInt` of the package `time`, for `x >= 0`: the decimal form of `x`, padded
with leading zeros to `width`. -/
def appendInt (x width : Nat) : List Char :=
  List.replicate (width - (Nat.toDigits 10 x).length) '0' ++ Nat.toDigits 10 x

/-- The call `Format("2006_01_02_15_04_05")`. -/
def formatStamp (t : Time) : List Char :=
  appendInt t.year 4 ++ '_' :: (appendInt t.month 2 ++ '_' :: (appendInt t.day 2 ++ '_' ::
    (appendInt t.hour 2 ++ '_' :: (appendInt t.minute 2 ++ '_' :: appendInt t.second 2))))

/-- The name of the file that `case "create"` writes: `now` is `time.Now().UTC()` and
`propertyName` the value of `dashify(..)`. -/
def createName (now : Time) (propertyName : String) : String :=
  ⟨formatStamp now ++ "_create_".data ++ propertyName.data ++ ".sql".data⟩

/-- The first argument of `ioutil.WriteFile` in `case "create"`:
`fmt.Sprintf("%s/%s_create_%s.sql", *path, .., propertyName)`. -/
def createPath (path : String) (now : Time) (propertyName : String) : String :=
  path ++ "/" ++ createName now propertyName

/-- The effect on the rest of the database of scripts run one after the other, `none` as soon
as the database reports an error. -/
def runScripts (env : Env W) : List String → W → Option W
  | [], w => some w
  | q :: qs, w =>
    match env.run q w with
    | none => none
    | some w1 => runScripts env qs w1

/-- The apply scripts of indexed files. -/
def applyScripts (env : Env W) (path : String) (ps : List (Nat × String)) : List String :=
  ps.map (fun p => applyScript env path p.2)

/-- The revert scripts of ledger rows. -/
def revertScripts (env : Env W) (path : String) (es : List Entry) : List String :=
  es.map (fun e => revertScript env path e.name)

/-- The revert scripts of the iterations `is` of the loops of `case "down"` and
`case "rollback"`. -/
def loopScripts (env : Env W) (path : String) (saved : List String) (is : List Nat) :
    List String :=
  is.map (fun i => revertScript env path (saved[i]?.getD ""))

/-- Each of the scripts succeeds on every state of the database. -/
def ScriptsRun (env : Env W) (qs : List String) : Prop :=
  ∀ q ∈ qs, ∀ w, (env.run q w).isSome = true

/-- The outcome `o` of applying the indexed files `ps` from `db`: `j` of them were read, run
and inserted; after their statements `t` was sent; and the loop either went through all of
`ps` and returned, or ended in `log.Fatal` at `ps[j]`, which could not be read or whose apply
script the database rejected. -/
def AppliedUpTo (env : Env W) (path : String) (ps : List (Nat × String)) (db : DB W)
    (o : Outcome (DB W)) (j : Nat) (t : List Stmt) : Prop :=
  j ≤ ps.length ∧
  Readable env path ((ps.take j).map (·.2)) ∧
  o.state.ledger = db.ledger ++ rowsOf (ps.take j) ∧
  runScripts env (applyScripts env path (ps.take j)) db.world = some o.state.world ∧
  o.state.sent = db.sent ++ applyStmts env path (ps.take j) ++ t ∧
  ((j = ps.length ∧ t = [] ∧ o = .done o.state) ∨
   (∃ p, ps[j]? = some p ∧ readFile env.file (path ++ "/" ++ p.2) = none ∧ t = [] ∧
      o = .fatal o.state) ∨
   (∃ p, ps[j]? = some p ∧ t = [.script (applyScript env path p.2)] ∧
      env.run (applyScript env path p.2) o.state.world = none ∧ o = .fatal o.state))

/-- The outcome `o` of the loop of `case "rollback"` over the ledger names `saved`, from `n`
names left and the database `db`, where `r` iterations are due: `j` iterations read the file,
ran its revert script and deleted the row; after their statements `t` was sent; and the loop
either ran the `r` iterations and returned, or ended in `log.Fatal` in iteration `j`, whose
file could not be read or whose revert script the database rejected. -/
def RevertedUpTo (env : Env W) (path : String) (saved : List String) (n r : Nat) (db : DB W)
    (o : Outcome (DB W)) (j : Nat) (t : List Stmt) : Prop :=
  j ≤ r ∧
  o.state.ledger = db.ledger.filter (outside (n - j) n) ∧
  runScripts env (loopScripts env path saved (countdown n j)) db.world = some o.state.world ∧
  o.state.sent = db.sent ++ loopStmts env path saved (countdown n j) ++ t ∧
  ((j = r ∧ t = [] ∧ o = .done o.state) ∨
   (j < r ∧ readFile env.file (path ++ "/" ++ saved[n - 1 - j]?.getD "") = none ∧ t = [] ∧
      o = .fatal o.state) ∨
   (j < r ∧ t = [.script (revertScript env path (saved[n - 1 - j]?.getD ""))] ∧
      env.run (revertScript env path (saved[n - 1 - j]?.getD "")) o.state.world = none ∧
      o = .fatal o.state))

/-- The scenario on a database that keeps the names of its tables: it rejects `create table`
for a table it has, `drop table` for a table it does not have, and every other script. -/
def tableEnv : Env (List String) where
  readDir p := if p = "migrations" then some scenarioDir else none
  file := scenarioFile
  run q w :=
    if q = "create table users(id int);" then
      (if "users" ∈ w then none else some (w ++ ["users"]))
    else if q = "create table posts(id int);" then
      (if "posts" ∈ w then none else some (w ++ ["posts"]))
    else if q = "drop table users;" then
      (if "users" ∈ w then some (w.filter (fun x => x ≠ "users")) else none)
    else if q = "drop table posts;" then
      (if "posts" ∈ w then some (w.filter (fun x => x ≠ "posts")) else none)
    else none

/-- The database of tables with the first file of the scenario applied. -/
def usersApplied : DB (List String) := ⟨[⟨usersFile, 0⟩], ["users"], []⟩

/-- The database of tables after `up` from `usersApplied`. -/
def postsApplied : DB (List String) :=
  ⟨scenarioLedger, ["users", "posts"],
    [.script "create table posts(id int);", .insert postsFile 1]⟩

/-- The database of tables with both files of the scenario applied. -/
def tablesApplied : DB (List String) :=
  ⟨scenarioLedger, ["users", "posts"],
    [.script "create table users(id int);", .insert usersFile 0,
     .script "create table posts(id int);", .insert postsFile 1]⟩

/-- The database of tables after `down` from `tablesApplied`. -/
def tablesReverted : DB (List String) :=
  ⟨[], [],
    [.script "create table users(id int);", .insert usersFile 0,
     .script "create table posts(id int);", .insert postsFile 1,
     .script "drop table posts;", .delete 1, .script "drop table users;", .delete 0]⟩

/-- The database of tables with both files of the scenario recorded and nothing sent yet. -/
def tablesLedger : DB (List String) := ⟨scenarioLedger, ["users", "posts"], []⟩

/-- The database of tables after `down` from `tablesLedger`. -/
def tablesDropped : DB (List String) :=
  ⟨[], [], [.script "drop table posts;", .delete 1, .script "drop table users;", .delete 0]⟩

/-! ## Basic facts -/

@[simp] theorem commit_begin (env : Env W) (db : DB W) : Begin.Commit env db = db := rfl

@[simp] theorem rollback_eq (tx : Tx) (db : DB W) : tx.Rollback db = db := rfl

@[simp] theorem createMigrationTable_eq (db : DB W) : createMigrationTable db = db := rfl

theorem exec_ok_iff (env : Env W) (q : String) (db d : DB W) :
    exec env q db = .ok d ↔
      ∃ w, env.run q db.world = some w ∧
        d = { db with world := w, sent := db.sent ++ [.script q] } := by
  unfold exec
  cases h : env.run q db.world with
  | none => simp
  | some w => simp [eq_comm]

theorem addMigration_ok_iff (name : String) (p : Int) (db d : DB W) :
    addMigration name p db = .ok d ↔
      (∀ e ∈ db.ledger, e.name ≠ name) ∧
        d = { db with ledger := db.ledger ++ [⟨name, p⟩], sent := db.sent ++ [.insert name p] } := by
  unfold addMigration
  by_cases h : db.ledger.any (fun e => decide (e.name = name)) = true
  · simp only [h, if_true]
    constructor
    · intro h'; cases h'
    · rintro ⟨h1, -⟩
      simp only [List.any_eq_true, decide_eq_true_eq] at h
      obtain ⟨e, he, hn⟩ := h
      exact absurd hn (h1 e he)
  · simp only [h, if_false]
    simp only [List.any_eq_true, decide_eq_true_eq, not_exists, not_and] at h
    constructor
    · intro h'; injection h' with h'; exact ⟨fun e he => h e he, h'.symm⟩
    · rintro ⟨-, rfl⟩; rfl

theorem upLoop_done (env : Env W) (path : String) (saved : List String) (tx : Tx) :
    ∀ (names : List String) (i : Nat) (db d : DB W),
      upLoop env path saved tx i names db = .done d →
        d.ledger = db.ledger ++ rowsOf (unskipped saved i names) ∧
        d.sent = db.sent ++ applyStmts env path (unskipped saved i names) := by
  intro names
  induction names with
  | nil =>
    intro i db d h
    simp only [upLoop, Outcome.done.injEq] at h
    subst h
    simp [unskipped, rowsOf, applyStmts]
  | cons name rest ih =>
    intro i db d h
    unfold upLoop at h
    unfold unskipped
    by_cases hc : (decide (i < saved.length) && (saved[i]?.getD "" == name)) = true
    · simp only [hc, if_true] at h ⊢
      exact ih _ _ _ h
    · simp only [hc] at h ⊢
      cases hr : readFile env.file (path ++ "/" ++ name) with
      | none => simp [hr] at h
      | some ud =>
        obtain ⟨u, dn⟩ := ud
        simp only [hr] at h
        cases he : exec env u db with
        | err d1 => simp [he] at h
        | ok d1 =>
          simp only [he] at h
          cases ha : addMigration name i d1 with
          | err d2 => simp [ha] at h
          | ok d2 =>
            simp only [ha] at h
            obtain ⟨hl, hs⟩ := ih _ _ _ h
            obtain ⟨w, -, rfl⟩ := (exec_ok_iff _ _ _ _).1 he
            obtain ⟨-, rfl⟩ := (addMigration_ok_iff _ _ _ _).1 ha
            have hu : applyScript env path name = u := by simp [applyScript, hr]
            simp only [if_false, Bool.false_eq_true]
            constructor
            · simp [hl, rowsOf]
            · simp [hs, applyStmts, hu]

theorem removeMigration_eq (p : Int) (db : DB W) :
    removeMigration p db = .ok { db with ledger := db.ledger.filter (fun e => e.priority ≠ p),
                                         sent := db.sent ++ [.delete p] } := rfl

@[simp] theorem countdown_zero (n : Nat) : countdown n 0 = [] := by
  cases n <;> rfl

theorem reverted_succ (steps : Int) (n : Nat) (k : Int) (h : k + 1 ≠ steps) :
    reverted steps (n + 1) k = reverted steps n (k + 1) + 1 := by
  unfold reverted
  split_ifs <;> omega

theorem reverted_le (steps : Int) (n : Nat) (k : Int) : reverted steps n k ≤ n := by
  unfold reverted
  split_ifs <;> omega

theorem reverted_last (steps : Int) (n : Nat) (k : Int) (h : k + 1 = steps) :
    reverted steps (n + 1) k = 1 := by
  unfold reverted
  split_ifs <;> omega

theorem filter_outside_step (l : List Entry) (lo n : Nat) (h : lo ≤ n) :
    (l.filter (fun e => e.priority ≠ (n : Int))).filter (outside lo n)
      = l.filter (outside lo (n + 1)) := by
  rw [List.filter_filter]
  apply List.filter_congr
  intro e _
  simp only [outside, ne_eq, decide_not, Bool.and_eq_true, Bool.or_eq_true, decide_eq_true_eq,
    Bool.not_eq_true', decide_eq_false_iff_not]
  rw [Bool.eq_iff_iff]
  simp only [Bool.and_eq_true, Bool.or_eq_true, decide_eq_true_eq, Bool.not_eq_true',
    decide_eq_false_iff_not]
  push_cast
  omega

theorem rollbackLoop_done (env : Env W) (path : String) (saved : List String) (tx : Tx)
    (steps : Int) :
    ∀ (n : Nat) (k : Int) (db d : DB W),
      rollbackLoop env path saved tx steps n k db = .done d →
        d.ledger = db.ledger.filter (outside (n - reverted steps n k) n) ∧
        d.sent = db.sent ++ loopStmts env path saved (countdown n (reverted steps n k)) := by
  intro n
  induction n with
  | zero =>
    intro k db d h
    simp only [rollbackLoop, Outcome.done.injEq] at h
    subst h
    constructor
    · symm
      rw [List.filter_eq_self]
      intro e _
      simp [outside]
      omega
    · simp [countdown, loopStmts]
  | succ n ih =>
    intro k db d h
    unfold rollbackLoop at h
    simp only at h
    cases hr : readFile env.file (path ++ "/" ++ saved[n]?.getD "") with
    | none => simp [hr] at h
    | some ud =>
      obtain ⟨u, dn⟩ := ud
      simp only [hr] at h
      cases he : exec env dn db with
      | err d1 => simp [he] at h
      | ok d1 =>
        obtain ⟨w, -, rfl⟩ := (exec_ok_iff _ _ _ _).1 he
        simp only [he, removeMigration_eq] at h
        have hu : revertScript env path (saved[n]?.getD "") = dn := by simp [revertScript, hr]
        by_cases hk : k + 1 = steps
        · simp only [hk, if_true, Outcome.done.injEq] at h
          subst h
          rw [reverted_last steps n k hk]
          constructor
          · simp only [Nat.add_sub_cancel]
            apply List.filter_congr
            intro e _
            simp only [outside, ne_eq, decide_not]
            rw [Bool.eq_iff_iff]
            simp only [Bool.not_eq_true', decide_eq_false_iff_not, Bool.or_eq_true,
              decide_eq_true_eq]
            push_cast
            omega
          · simp [countdown, loopStmts, hu]
        · simp only [hk, if_false] at h
          obtain ⟨hl, hs⟩ := ih _ _ _ h
          rw [reverted_succ steps n k hk]
          have hle := reverted_le steps n (k + 1)
          constructor
          · rw [hl]
            simp only
            rw [filter_outside_step _ _ _ (Nat.sub_le _ _)]
            have he : n + 1 - (reverted steps n (k + 1) + 1) = n - reverted steps n (k + 1) := by
              omega
            rw [he]
          · rw [hs]
            simp [countdown, loopStmts, hu]

theorem rollbackLoop_eq_downLoop (env : Env W) (path : String) (saved : List String) (tx : Tx)
    (steps : Int) :
    ∀ (n : Nat) (k : Int) (db : DB W), steps ≤ k →
      rollbackLoop env path saved tx steps n k db = downLoop env path saved tx n db := by
  intro n
  induction n with
  | zero => intro k db _; rfl
  | succ n ih =>
    intro k db hk
    unfold rollbackLoop downLoop
    simp only
    cases hr : readFile env.file (path ++ "/" ++ saved[n]?.getD "") with
    | none => rfl
    | some ud =>
      obtain ⟨u, dn⟩ := ud
      simp only
      cases he : exec env dn db with
      | err d1 => rfl
      | ok d1 =>
        simp only [removeMigration_eq]
        have : k + 1 ≠ steps := by omega
        simp only [this, if_false]
        exact ih _ _ (by omega)

theorem downLoop_done (env : Env W) (path : String) (saved : List String) (tx : Tx)
    (n : Nat) (db d : DB W) (h : downLoop env path saved tx n db = .done d) :
    d.ledger = db.ledger.filter (outside 0 n) ∧
      d.sent = db.sent ++ loopStmts env path saved (countdown n n) := by
  rw [← rollbackLoop_eq_downLoop env path saved tx 0 n 0 db (le_refl _)] at h
  have := rollbackLoop_done env path saved tx 0 n 0 db d h
  have hr : reverted 0 n 0 = n := by simp [reverted]
  simpa [hr] using this

theorem orderedInsert_append {α : Type} (r : α → α → Prop) [DecidableRel r] (a : α) :
    ∀ (s m : List α), (∀ b ∈ m, r a b) →
      List.orderedInsert r a (s ++ m) = List.orderedInsert r a s ++ m := by
  intro s
  induction s with
  | nil =>
    intro m hm
    cases m with
    | nil => rfl
    | cons b m => simp [List.orderedInsert, hm b (List.mem_cons_self _ _)]
  | cons c s ih =>
    intro m hm
    by_cases h : r a c
    · simp [List.orderedInsert, h]
    · simp [List.orderedInsert, h, ih m hm]

theorem insertionSort_append {α : Type} (r : α → α → Prop) [DecidableRel r] :
    ∀ (l m : List α), m.Sorted r → (∀ a ∈ l, ∀ b ∈ m, r a b) →
      List.insertionSort r (l ++ m) = List.insertionSort r l ++ m := by
  intro l
  induction l with
  | nil => intro m hm _; simpa using hm.insertionSort_eq
  | cons a l ih =>
    intro m hm h
    show List.orderedInsert r a (List.insertionSort r (l ++ m)) = _
    rw [ih m hm (fun x hx => h x (List.mem_cons_of_mem _ hx))]
    exact orderedInsert_append r a _ m (h a (List.mem_cons_self _ _))

theorem orderedInsert_of_forall {α : Type} (r : α → α → Prop) [DecidableRel r] (a : α)
    (l : List α) (h : ∀ b ∈ l, r a b) : List.orderedInsert r a l = a :: l := by
  cases l with
  | nil => rfl
  | cons b l => simp [List.orderedInsert, h b (List.mem_cons_self _ _)]

theorem filter_orderedInsert {α : Type} (r : α → α → Prop) [DecidableRel r] [IsTrans α r]
    (p : α → Bool) (a : α) :
    ∀ (s : List α), s.Sorted r →
      (List.orderedInsert r a s).filter p
        = if p a then List.orderedInsert r a (s.filter p) else s.filter p := by
  intro s
  induction s with
  | nil => intro _; by_cases hp : p a <;> simp [hp]
  | cons b s ih =>
    intro hs
    have hs' := hs.of_cons
    have hb := List.rel_of_sorted_cons hs
    by_cases h : r a b
    · simp only [List.orderedInsert, h, if_true]
      by_cases hp : p a
      · simp only [List.filter_cons, hp, if_true]
        rw [orderedInsert_of_forall]
        intro c hc
        split at hc
        · rcases List.mem_cons.1 hc with rfl | hc
          · exact h
          · exact IsTrans.trans _ _ _ h (hb c (List.mem_of_mem_filter hc))
        · exact IsTrans.trans _ _ _ h (hb c (List.mem_of_mem_filter hc))
      · simp [List.filter_cons, hp]
    · simp only [List.orderedInsert, h, if_false]
      by_cases hq : p b
      · simp only [List.filter_cons, hq, if_true, ih hs']
        by_cases hp : p a
        · simp [hp, List.orderedInsert, h]
        · simp [hp]
      · simp only [List.filter_cons, hq, ih hs']
        simp

theorem insertionSort_filter {α : Type} (r : α → α → Prop) [DecidableRel r] [IsTrans α r]
    [IsTotal α r] (p : α → Bool) :
    ∀ (l : List α), List.insertionSort r (l.filter p) = (List.insertionSort r l).filter p := by
  intro l
  induction l with
  | nil => rfl
  | cons a l ih =>
    simp only [List.insertionSort]
    rw [filter_orderedInsert r p a _ (List.sorted_insertionSort r l)]
    by_cases hp : p a
    · simp [List.filter_cons, hp, ih]
    · simp [List.filter_cons, hp, ih]

theorem byPriority_filter (p : Entry → Bool) (l : List Entry) :
    byPriority (l.filter p) = (byPriority l).filter p :=
  insertionSort_filter _ p l

theorem length_byPriority (l : List Entry) : (byPriority l).length = l.length :=
  List.length_insertionSort _ l

theorem perm_byPriority (l : List Entry) : (byPriority l).Perm l :=
  List.perm_insertionSort _ l

theorem mem_byPriority {l : List Entry} {e : Entry} : e ∈ byPriority l ↔ e ∈ l :=
  (perm_byPriority l).mem_iff

theorem sorted_byPriority (l : List Entry) :
    (byPriority l).Sorted (fun a b => a.priority ≤ b.priority) :=
  List.sorted_insertionSort _ l

theorem Dense.priorities {l : List Entry} (h : Dense l) :
    (byPriority l).map (·.priority) = (List.range l.length).map Int.ofNat := by
  apply List.eq_of_perm_of_sorted (r := (· ≤ ·))
  · exact ((perm_byPriority l).map _).trans h
  · have := sorted_byPriority l
    exact List.pairwise_map.2 this
  · apply List.pairwise_map.2
    exact (List.sorted_le_range l.length).imp (fun h => Int.ofNat_le.2 h)

theorem Dense.lt {l : List Entry} (h : Dense l) {e : Entry} (he : e ∈ l) :
    0 ≤ e.priority ∧ e.priority < (l.length : Int) := by
  have : e.priority ∈ l.map (·.priority) := List.mem_map_of_mem _ he
  rw [h.mem_iff] at this
  simp only [List.mem_map, List.mem_range] at this
  obtain ⟨i, hi, hie⟩ := this
  rw [← hie]
  constructor
  · exact Int.ofNat_nonneg i
  · exact Int.ofNat_lt.2 hi

theorem char_trichotomy (a b : Char) : a.toNat < b.toNat ∨ a = b ∨ b.toNat < a.toNat := by
  rcases Nat.lt_trichotomy a.toNat b.toNat with h | h | h
  · exact Or.inl h
  · right; left
    rw [← Char.ofNat_toNat a, ← Char.ofNat_toNat b, h]
  · exact Or.inr (Or.inr h)

theorem strLt_asymm : ∀ (a b : List Char), strLt a b = true → strLt b a = false := by
  intro a
  induction a with
  | nil => intro b _; cases b <;> rfl
  | cons x as ih =>
    intro b h
    cases b with
    | nil => simp [strLt] at h
    | cons y bs =>
      simp only [strLt, Bool.or_eq_true, decide_eq_true_eq, Bool.and_eq_true, beq_iff_eq] at h
      simp only [strLt, Bool.or_eq_false_iff, decide_eq_false_iff_not, Bool.and_eq_false_imp,
        beq_iff_eq, not_lt]
      rcases h with h | ⟨rfl, h⟩
      · exact ⟨by omega, fun e => by subst e; omega⟩
      · exact ⟨le_refl _, fun _ => ih _ h⟩

theorem strLt_cotrans : ∀ (c a b : List Char), strLt c a = true →
    strLt b a = true ∨ strLt c b = true := by
  intro c
  induction c with
  | nil =>
    intro a b h
    cases a with
    | nil => simp [strLt] at h
    | cons x as =>
      cases b with
      | nil => left; rfl
      | cons y bs => right; rfl
  | cons z cs ih =>
    intro a b h
    cases a with
    | nil => simp [strLt] at h
    | cons x as =>
      cases b with
      | nil => left; rfl
      | cons y bs =>
        simp only [strLt, Bool.or_eq_true, decide_eq_true_eq, Bool.and_eq_true, beq_iff_eq] at h ⊢
        rcases char_trichotomy y x with hyx | rfl | hyx
        · exact Or.inl (Or.inl hyx)
        · rcases h with h | ⟨rfl, h⟩
          · exact Or.inr (Or.inl h)
          · rcases ih _ bs h with h' | h'
            · exact Or.inl (Or.inr ⟨rfl, h'⟩)
            · exact Or.inr (Or.inr ⟨rfl, h'⟩)
        · rcases h with h | ⟨rfl, h⟩
          · exact Or.inr (Or.inl (by omega))
          · exact Or.inr (Or.inl hyx)

theorem strLe_total (a b : String) : strLe a b ∨ strLe b a := by
  unfold strLe
  cases h : strLt b.data a.data with
  | false => exact Or.inl rfl
  | true => exact Or.inr (strLt_asymm _ _ h)

theorem strLe_trans (a b c : String) (hab : strLe a b) (hbc : strLe b c) : strLe a c := by
  unfold strLe at *
  cases h : strLt c.data a.data with
  | false => rfl
  | true =>
    rcases strLt_cotrans _ _ b.data h with h' | h'
    · rw [hab] at h'; cases h'
    · rw [hbc] at h'; cases h'

theorem sorted_fileNames (files : List (String × Bool)) : (fileNames files).Sorted strLe := by
  haveI : IsTotal String strLe := ⟨strLe_total⟩
  haveI : IsTrans String strLe := ⟨strLe_trans⟩
  exact List.sorted_insertionSort _ _

theorem enumFrom_drop {α : Type} : ∀ (l : List α) (i d : Nat),
    (l.enumFrom i).drop d = (l.drop d).enumFrom (i + d) := by
  intro l
  induction l with
  | nil => intro i d; simp
  | cons a l ih =>
    intro i d
    cases d with
    | zero => simp
    | succ d =>
      simp only [List.enumFrom_cons, List.drop_succ_cons]
      rw [ih]
      congr 1
      omega

theorem unskipped_agree (saved : List String) : ∀ (names : List String) (i : Nat),
    (∀ j, i + j < saved.length → j < names.length →
        saved[i + j]?.getD "" = names[j]?.getD "") →
      unskipped saved i names = (names.enumFrom i).drop (saved.length - i) := by
  intro names
  induction names with
  | nil => intro i _; simp [unskipped]
  | cons name rest ih =>
    intro i h
    have hrest : ∀ j, i + 1 + j < saved.length → j < rest.length →
        saved[i + 1 + j]?.getD "" = rest[j]?.getD "" := by
      intro j h1 h2
      have := h (j + 1) (by omega) (by simp; omega)
      simpa [show i + (j + 1) = i + 1 + j by omega] using this
    unfold unskipped
    by_cases hi : i < saved.length
    · have h0 := h 0 (by simpa using hi) (by simp)
      simp only [Nat.add_zero, List.getElem?_cons_zero, Option.getD_some] at h0
      simp only [hi, decide_True, h0, beq_self_eq_true, Bool.and_self, if_true]
      rw [ih _ hrest]
      have : saved.length - i = (saved.length - (i + 1)) + 1 := by omega
      rw [this, List.enumFrom_cons, List.drop_succ_cons]
    · simp only [hi, decide_False, Bool.false_and, Bool.false_eq_true, if_false]
      rw [ih _ hrest]
      have h1 : saved.length - i = 0 := by omega
      have h2 : saved.length - (i + 1) = 0 := by omega
      rw [h1, h2]
      simp

theorem unskipped_of_agree (saved names : List String) (h : Agree saved names) :
    unskipped saved 0 names = (names.drop saved.length).enumFrom saved.length := by
  rw [unskipped_agree saved names 0]
  · simpa using enumFrom_drop names 0 saved.length
  · intro j h1 h2
    simpa using h j (by simpa using h1) h2

theorem mem_rowsOf_enumFrom {names : List String} {i : Nat} {e : Entry}
    (h : e ∈ rowsOf (names.enumFrom i)) :
    (i : Int) ≤ e.priority ∧ e.priority < (i : Int) + names.length := by
  simp only [rowsOf, List.mem_map] at h
  obtain ⟨p, hp, rfl⟩ := h
  have h1 := List.le_fst_of_mem_enumFrom hp
  have h2 := List.fst_lt_add_of_mem_enumFrom hp
  constructor
  · exact Int.ofNat_le.2 h1
  · simp only
    omega

theorem sorted_rowsOf_enumFrom : ∀ (names : List String) (i : Nat),
    (rowsOf (names.enumFrom i)).Sorted (fun a b => a.priority ≤ b.priority) := by
  intro names
  induction names with
  | nil => intro i; simp [rowsOf]
  | cons a l ih =>
    intro i
    simp only [List.enumFrom_cons, rowsOf, List.map_cons]
    apply List.sorted_cons.2
    constructor
    · intro b hb
      have := (mem_rowsOf_enumFrom (e := b) hb).1
      simp only at this ⊢
      push_cast at this
      omega
    · exact ih (i + 1)

theorem byPriority_rowsOf_enumFrom (names : List String) (i : Nat) :
    byPriority (rowsOf (names.enumFrom i)) = rowsOf (names.enumFrom i) :=
  (sorted_rowsOf_enumFrom names i).insertionSort_eq

theorem rowsOf_map_name (names : List String) (i : Nat) :
    (rowsOf (names.enumFrom i)).map (·.name) = names := by
  induction names generalizing i with
  | nil => rfl
  | cons a l ih =>
    simp only [List.enumFrom_cons, rowsOf, List.map_cons, List.cons.injEq, true_and]
    exact ih (i + 1)

theorem up_done_iff (env : Env W) (path : String) (files : List (String × Bool)) (db d : DB W)
    (hdir : env.readDir path = some files) :
    up env path db = .done d ↔
      upLoop env path (retrieveMigratedList db) Begin 0 (fileNames files) db = .done d := by
  unfold up
  simp only [createMigrationTable_eq, hdir]
  cases upLoop env path (retrieveMigratedList db) Begin 0 (fileNames files) db <;> simp

theorem rowsOf_append (a b : List (Nat × String)) : rowsOf (a ++ b) = rowsOf a ++ rowsOf b := by
  simp [rowsOf]

theorem rowsOf_take_drop (names : List String) (n : Nat) (h : n ≤ names.length) :
    rowsOf ((names.take n).enumFrom 0) ++ rowsOf ((names.drop n).enumFrom n) = rowsOf names.enum := by
  rw [← rowsOf_append]
  congr 1
  conv_rhs => rw [← List.take_append_drop n names]
  rw [List.enum, List.enumFrom_append]
  simp [List.length_take, Nat.min_eq_left h]

theorem retrieve_of_rows (db : DB W) (names : List String)
    (h : byPriority db.ledger = rowsOf ((names.take db.ledger.length).enum)) :
    retrieveMigratedList db = names.take db.ledger.length ∧ db.ledger.length ≤ names.length := by
  constructor
  · rw [retrieveMigratedList, h, List.enum, rowsOf_map_name]
  · have := congrArg List.length h
    rw [length_byPriority] at this
    simp only [rowsOf, List.enum, List.length_map, List.enumFrom_length, List.length_take] at this
    omega

theorem agree_take (names : List String) (n : Nat) : Agree (names.take n) names := by
  intro i hi _
  simp only [List.length_take] at hi
  rw [List.getElem?_take_of_lt (by omega)]

theorem byPriority_append_rows (l : List Entry) (rest : List String) (n : Nat)
    (h : ∀ e ∈ l, e.priority < (n : Int)) :
    byPriority (l ++ rowsOf (rest.enumFrom n)) = byPriority l ++ rowsOf (rest.enumFrom n) := by
  apply insertionSort_append _ _ _ (sorted_rowsOf_enumFrom rest n)
  intro a ha b hb
  have := (mem_rowsOf_enumFrom hb).1
  have := h a ha
  omega

theorem exec_total (env : Env W) (hrun : AllRun env) (q : String) (db : DB W) :
    ∃ w, exec env q db = .ok { db with world := w, sent := db.sent ++ [.script q] } := by
  have h := hrun q db.world
  cases hw : env.run q db.world with
  | none => simp [hw] at h
  | some w => exact ⟨w, by simp [exec, hw]⟩

theorem rollbackLoop_total (env : Env W) (path : String) (saved : List String) (tx : Tx)
    (steps : Int) (hrun : AllRun env) (hread : Readable env path saved) :
    ∀ (n : Nat) (k : Int) (db : DB W), n ≤ saved.length →
      ∃ d, rollbackLoop env path saved tx steps n k db = .done d := by
  intro n
  induction n with
  | zero => intro k db _; exact ⟨db, rfl⟩
  | succ n ih =>
    intro k db hn
    unfold rollbackLoop
    simp only
    have hmem : saved[n]?.getD "" ∈ saved := by
      rw [List.getElem?_eq_getElem (by omega)]
      exact List.getElem_mem _
    have hr := hread _ hmem
    cases hf : readFile env.file (path ++ "/" ++ saved[n]?.getD "") with
    | none => simp [hf] at hr
    | some ud =>
      obtain ⟨u, dn⟩ := ud
      obtain ⟨w, he⟩ := exec_total env hrun dn db
      simp only [he, removeMigration_eq]
      by_cases hk : k + 1 = steps
      · simp only [hk, if_true]
        exact ⟨_, rfl⟩
      · simp only [hk, if_false]
        exact ih _ _ (by omega)

theorem downLoop_total (env : Env W) (path : String) (saved : List String) (tx : Tx)
    (hrun : AllRun env) (hread : Readable env path saved) (n : Nat) (db : DB W)
    (hn : n ≤ saved.length) : ∃ d, downLoop env path saved tx n db = .done d := by
  rw [← rollbackLoop_eq_downLoop env path saved tx 0 n 0 db (le_refl _)]
  exact rollbackLoop_total env path saved tx 0 hrun hread n 0 db hn

theorem countdown_eq : ∀ (n r : Nat), countdown n r = (List.range n).reverse.take r := by
  intro n
  induction n with
  | zero => intro r; simp [countdown]
  | succ n ih =>
    intro r
    cases r with
    | zero => simp
    | succ r => simp [countdown, ih, List.range_succ]

theorem dense_sorted_eq (s : List Entry)
    (h : s.map (·.priority) = (List.range s.length).map Int.ofNat) :
    (List.range s.length).map
      (fun (i : Nat) => (⟨(s.map (·.name))[i]?.getD "", (i : Int)⟩ : Entry)) = s := by
  apply List.ext_getElem
  · simp
  · intro i h1 h2
    have hp : (s.map (·.priority))[i]? = ((List.range s.length).map Int.ofNat)[i]? := by rw [h]
    simp only [List.getElem?_map, List.getElem?_eq_getElem h2, Option.map_some', Option.some.injEq,
      List.getElem?_range h2] at hp
    simp only [List.getElem_map, List.getElem_range, List.getElem?_map, List.getElem?_eq_getElem h2,
      Option.map_some', Option.getD_some]
    cases hs : s[i] with
    | mk nm pr =>
      rw [hs] at hp
      simp only at hp
      simp [hp]

theorem loopStmts_eq_revertStmts (env : Env W) (path : String) (s : List Entry)
    (h : s.map (·.priority) = (List.range s.length).map Int.ofNat) (r : Nat) :
    loopStmts env path (s.map (·.name)) (countdown s.length r)
      = revertStmts env path (s.reverse.take r) := by
  have hs := dense_sorted_eq s h
  rw [countdown_eq]
  conv_rhs => rw [← hs]
  rw [← List.map_reverse, ← List.map_take]
  simp only [loopStmts, revertStmts, List.flatMap_map]

theorem down_done_iff (env : Env W) (path : String) (db d : DB W) :
    down env path db = .done d ↔
      downLoop env path (retrieveMigratedList db) Begin (retrieveMigratedList db).length db
        = .done d := by
  unfold down
  simp only [createMigrationTable_eq]
  cases downLoop env path (retrieveMigratedList db) Begin (retrieveMigratedList db).length db <;>
    simp

theorem rollback_done_iff (env : Env W) (path : String) (steps : Int) (db d : DB W) :
    rollback env path steps db = .done d ↔
      rollbackLoop env path (retrieveMigratedList db) Begin steps
        (retrieveMigratedList db).length 0 db = .done d := by
  unfold rollback
  simp only [createMigrationTable_eq]
  cases rollbackLoop env path (retrieveMigratedList db) Begin steps
    (retrieveMigratedList db).length 0 db <;> simp

theorem length_retrieve (db : DB W) : (retrieveMigratedList db).length = db.ledger.length := by
  simp [retrieveMigratedList, length_byPriority]

theorem filter_outside_dense {l : List Entry} (h : Dense l) (lo : Nat) :
    l.filter (outside lo l.length) = l.filter (fun e => decide (e.priority < (lo : Int))) := by
  apply List.filter_congr
  intro e he
  have := (h.lt he).2
  simp only [outside]
  rw [Bool.eq_iff_iff]
  simp only [Bool.or_eq_true, decide_eq_true_eq]
  omega

theorem filter_outside_zero {l : List Entry} (h : Dense l) :
    l.filter (outside 0 l.length) = [] := by
  rw [filter_outside_dense h, List.filter_eq_nil_iff]
  intro e he
  have := (h.lt he).1
  simp only [decide_eq_true_eq]
  push_cast
  omega

theorem down_done_dense (env : Env W) (path : String) (db d : DB W)
    (hdense : Dense db.ledger) (hok : down env path db = .done d) :
    (byPriority db.ledger).map (·.priority) = (List.range db.ledger.length).map Int.ofNat ∧
    d.sent = db.sent ++ revertStmts env path (byPriority db.ledger).reverse ∧
    d.ledger = [] := by
  have hp := hdense.priorities
  rw [down_done_iff] at hok
  obtain ⟨hl, hs⟩ := downLoop_done _ _ _ _ _ _ _ hok
  rw [length_retrieve] at hl hs
  refine ⟨hp, ?_, ?_⟩
  · rw [hs, retrieveMigratedList]
    have h := loopStmts_eq_revertStmts env path (byPriority db.ledger)
      (by rw [length_byPriority]; exact hp) db.ledger.length
    rw [length_byPriority] at h
    rw [h, List.take_of_length_le (by simp [length_byPriority])]
  · rw [hl, filter_outside_zero hdense]

theorem perm_fileNames (files : List (String × Bool)) :
    (fileNames files).Perm ((files.filter (fun f => !f.2)).map (·.1)) :=
  List.perm_insertionSort _ _

theorem retrieve_rows (db : DB W) (names : List String)
    (h : db.ledger = rowsOf names.enum) : retrieveMigratedList db = names := by
  rw [retrieveMigratedList, h, List.enum, byPriority_rowsOf_enumFrom, rowsOf_map_name]

theorem dense_rows (names : List String) : Dense (rowsOf names.enum) := by
  unfold Dense
  have : (rowsOf names.enum).map (·.priority) = (List.range names.length).map Int.ofNat := by
    simp only [rowsOf, List.map_map, List.enum]
    rw [List.range_eq_range']
    generalize 0 = i
    induction names generalizing i with
    | nil => rfl
    | cons a l ih =>
      simp only [List.enumFrom_cons, List.map_cons, List.length_cons, List.range'_succ,
        Function.comp_apply]
      rw [ih (i + 1)]
      rfl
  rw [this]
  simp [rowsOf]

theorem rollbackLoop_eq_downLoop_of_le (env : Env W) (path : String) (saved : List String)
    (tx : Tx) (steps : Int) :
    ∀ (n : Nat) (k : Int) (db : DB W), steps ≤ k ∨ k + n ≤ steps →
      rollbackLoop env path saved tx steps n k db = downLoop env path saved tx n db := by
  intro n
  induction n with
  | zero => intro k db _; rfl
  | succ n ih =>
    intro k db hk
    unfold rollbackLoop downLoop
    simp only
    cases hr : readFile env.file (path ++ "/" ++ saved[n]?.getD "") with
    | none => rfl
    | some ud =>
      obtain ⟨u, dn⟩ := ud
      simp only
      cases he : exec env dn db with
      | err d1 => rfl
      | ok d1 =>
        simp only [removeMigration_eq]
        by_cases hs : k + 1 = steps
        · have hn : n = 0 := by
            push_cast at hk
            omega
          subst hn
          simp [hs, downLoop]
        · simp only [hs, if_false]
          apply ih
          push_cast at hk
          omega

theorem downLoop_split (env : Env W) (path : String) (saved : List String) (tx : Tx)
    (steps : Int) :
    ∀ (n : Nat) (k : Int) (db d1 : DB W), k < steps → (steps - k).toNat ≤ n →
      rollbackLoop env path saved tx steps n k db = .done d1 →
      downLoop env path saved tx n db
        = downLoop env path saved tx (n - (steps - k).toNat) d1 := by
  intro n
  induction n with
  | zero => intro k db d1 h1 h2 _; omega
  | succ n ih =>
    intro k db d1 h1 h2 h
    unfold rollbackLoop at h
    conv_lhs => unfold downLoop
    simp only at h ⊢
    cases hr : readFile env.file (path ++ "/" ++ saved[n]?.getD "") with
    | none => simp [hr] at h
    | some ud =>
      obtain ⟨u, dn⟩ := ud
      simp only [hr] at h ⊢
      cases he : exec env dn db with
      | err d => simp [he] at h
      | ok d =>
        simp only [he, removeMigration_eq] at h ⊢
        by_cases hs : k + 1 = steps
        · simp only [hs, if_true, Outcome.done.injEq] at h
          subst h
          have : n + 1 - (steps - k).toNat = n := by omega
          rw [this]
        · simp only [hs, if_false] at h
          have hi := ih (k + 1) _ d1 (by omega) (by omega) h
          have e : n + 1 - (steps - k).toNat = n - (steps - (k + 1)).toNat := by omega
          rw [e]
          exact hi

theorem downLoop_congr (env : Env W) (path : String) (saved saved' : List String) (tx : Tx) :
    ∀ (n : Nat) (db : DB W), (∀ i, i < n → saved[i]?.getD "" = saved'[i]?.getD "") →
      downLoop env path saved tx n db = downLoop env path saved' tx n db := by
  intro n
  induction n with
  | zero => intro db _; rfl
  | succ n ih =>
    intro db h
    unfold downLoop
    simp only [h n (Nat.lt_succ_self n)]
    cases readFile env.file (path ++ "/" ++ saved'[n]?.getD "") with
    | none => rfl
    | some ud =>
      obtain ⟨u, dn⟩ := ud
      simp only
      cases exec env dn db with
      | err d => rfl
      | ok d =>
        simp only [removeMigration_eq]
        exact ih _ (fun i hi => h i (by omega))

theorem filter_lt_of_range' (lo : Nat) : ∀ (s : List Entry) (start : Nat),
    s.map (·.priority) = (List.range' start s.length).map Int.ofNat →
      s.filter (fun e => decide (e.priority < (lo : Int))) = s.take (lo - start) := by
  intro s
  induction s with
  | nil => intro start _; simp
  | cons e s ih =>
    intro start h
    simp only [List.map_cons, List.length_cons, List.range'_succ, List.cons.injEq] at h
    obtain ⟨he, hs⟩ := h
    have := ih (start + 1) hs
    by_cases hlt : start < lo
    · have h1 : lo - start = (lo - (start + 1)) + 1 := by omega
      have h2 : e.priority < (lo : Int) := by rw [he]; exact Int.ofNat_lt.2 hlt
      rw [h1, List.take_succ_cons, ← this]
      simp [List.filter_cons, h2]
    · have h1 : lo - start = 0 := by omega
      have h3 : lo - (start + 1) = 0 := by omega
      have h2 : ¬ e.priority < (lo : Int) := by
        rw [he]
        intro hc
        exact hlt (Int.ofNat_lt.1 hc)
      rw [h3] at this
      rw [h1]
      simp [List.filter_cons, h2, this]

theorem byPriority_filter_lt {l : List Entry} (h : Dense l) (lo : Nat) :
    byPriority (l.filter (fun e => decide (e.priority < (lo : Int)))) = (byPriority l).take lo := by
  rw [byPriority_filter]
  have hp := h.priorities
  rw [List.range_eq_range', ← length_byPriority l] at hp
  simpa using filter_lt_of_range' lo (byPriority l) 0 hp

theorem dense_filter_lt {l : List Entry} (h : Dense l) (lo : Nat) (hlo : lo ≤ l.length) :
    Dense (l.filter (fun e => decide (e.priority < (lo : Int)))) := by
  have hlen : (l.filter (fun e => decide (e.priority < (lo : Int)))).length = lo := by
    rw [← length_byPriority, byPriority_filter_lt h, List.length_take, length_byPriority]
    omega
  unfold Dense
  rw [hlen]
  have h1 := (perm_byPriority (l.filter (fun e => decide (e.priority < (lo : Int))))).map
    (·.priority)
  refine h1.symm.trans ?_
  rw [byPriority_filter_lt h, List.map_take, h.priorities, ← List.map_take, List.take_range,
    Nat.min_eq_left hlo]

theorem Init_rollback (env : Env W) (path : String) (rest : List String) (db : DB W) :
    Init env path ("rollback" :: rest) db = rollback env path 0 db := by
  have h : Atoi "rollback" = 0 := by decide
  simp [Init, flagArg, h]

theorem rollback_done_dense (env : Env W) (path : String) (steps : Int) (db d : DB W)
    (hdense : Dense db.ledger) (hok : rollback env path steps db = .done d) :
    d.ledger = db.ledger.filter
      (fun e => decide (e.priority < ((db.ledger.length - reverted steps db.ledger.length 0 : Nat) : Int))) ∧
    d.sent = db.sent ++ revertStmts env path
      ((byPriority db.ledger).reverse.take (reverted steps db.ledger.length 0)) := by
  rw [rollback_done_iff] at hok
  obtain ⟨hl, hs⟩ := rollbackLoop_done _ _ _ _ _ _ _ _ _ hok
  rw [length_retrieve] at hl hs
  constructor
  · rw [hl, filter_outside_dense hdense]
  · rw [hs, retrieveMigratedList]
    have h := loopStmts_eq_revertStmts env path (byPriority db.ledger)
      (by rw [length_byPriority]; exact hdense.priorities) (reverted steps db.ledger.length 0)
    rw [length_byPriority] at h
    rw [h]

theorem retrieve_filter_lt (db d : DB W) (hdense : Dense db.ledger) (lo : Nat)
    (h : d.ledger = db.ledger.filter (fun e => decide (e.priority < (lo : Int)))) :
    retrieveMigratedList d = (retrieveMigratedList db).take lo := by
  rw [retrieveMigratedList, h, byPriority_filter_lt hdense, retrieveMigratedList, List.map_take]

theorem rollback_zero_eq_down (env : Env W) (path : String) (db : DB W) :
    rollback env path 0 db = down env path db := by
  unfold rollback down
  simp only [createMigrationTable_eq]
  rw [rollbackLoop_eq_downLoop env path _ Begin 0 _ 0 db (le_refl _)]

theorem rollback_empty (env : Env W) (path : String) (steps : Int) (db : DB W)
    (h : db.ledger = []) : rollback env path steps db = .done db := by
  have hr : retrieveMigratedList db = [] := by simp [retrieveMigratedList, h, byPriority]
  rw [rollback_done_iff, hr]
  rfl

theorem scenario_dense : Dense scenarioLedger := List.Perm.refl _

theorem upLoop_nodup (env : Env W) (path : String) (saved : List String) (tx : Tx) :
    ∀ (names : List String) (i : Nat) (db d : DB W),
      upLoop env path saved tx i names db = .done d →
      (db.ledger.map (·.name)).Nodup → (d.ledger.map (·.name)).Nodup := by
  intro names
  induction names with
  | nil =>
    intro i db d h hn
    simp only [upLoop, Outcome.done.injEq] at h
    subst h
    exact hn
  | cons name rest ih =>
    intro i db d h hn
    unfold upLoop at h
    by_cases hc : (decide (i < saved.length) && (saved[i]?.getD "" == name)) = true
    · simp only [hc, if_true] at h
      exact ih _ _ _ h hn
    · simp only [hc] at h
      cases hr : readFile env.file (path ++ "/" ++ name) with
      | none => simp [hr] at h
      | some ud =>
        obtain ⟨u, dn⟩ := ud
        simp only [hr] at h
        cases he : exec env u db with
        | err d1 => simp [he] at h
        | ok d1 =>
          simp only [he] at h
          cases ha : addMigration name i d1 with
          | err d2 => simp [ha] at h
          | ok d2 =>
            simp only [ha] at h
            obtain ⟨w, -, rfl⟩ := (exec_ok_iff _ _ _ _).1 he
            obtain ⟨hfresh, rfl⟩ := (addMigration_ok_iff _ _ _ _).1 ha
            simp only [if_false, Bool.false_eq_true] at h
            apply ih _ _ _ h
            simp only [List.map_append, List.map_cons, List.map_nil]
            apply List.Nodup.append hn (List.nodup_singleton _)
            intro x hx hx'
            simp only [List.mem_singleton] at hx'
            subst hx'
            obtain ⟨e, he1, he2⟩ := List.mem_map.1 hx
            exact hfresh e he1 he2

theorem rowsOf_enumFrom_priorities : ∀ (names : List String) (i : Nat),
    (rowsOf (names.enumFrom i)).map (·.priority) = (List.range' i names.length).map Int.ofNat := by
  intro names
  induction names with
  | nil => intro i; rfl
  | cons a l ih =>
    intro i
    have := ih (i + 1)
    simp only [rowsOf, List.map_map] at this
    simp only [rowsOf, List.enumFrom_cons, List.map_cons, List.length_cons, List.range'_succ,
      List.map_map, this]
    rfl

theorem dense_append_rows {l : List Entry} (h : Dense l) (rest : List String) :
    Dense (l ++ rowsOf (rest.enumFrom l.length)) := by
  unfold Dense at h ⊢
  have hlen : (l ++ rowsOf (rest.enumFrom l.length)).length = l.length + rest.length := by
    simp [rowsOf]
  rw [hlen, List.map_append, rowsOf_enumFrom_priorities]
  have hr : List.range (l.length + rest.length)
      = List.range l.length ++ List.range' l.length rest.length := by
    rw [List.range_eq_range', List.range_eq_range']
    have := List.range'_append 0 l.length rest.length 1
    simp only [Nat.zero_add, Nat.one_mul] at this
    rw [this, Nat.add_comm]
  rw [hr, List.map_append]
  exact h.append_right _

theorem up_ledger_of_agree (env : Env W) (path : String) (files : List (String × Bool))
    (db d : DB W) (hdir : env.readDir path = some files)
    (hagree : Agree (retrieveMigratedList db) (fileNames files))
    (hok : up env path db = .done d) :
    d.ledger = db.ledger ++
        rowsOf (((fileNames files).drop db.ledger.length).enumFrom db.ledger.length) ∧
    d.sent = db.sent ++ applyStmts env path
        (((fileNames files).drop db.ledger.length).enumFrom db.ledger.length) := by
  rw [up_done_iff env path files db d hdir] at hok
  obtain ⟨hl, hs⟩ := upLoop_done _ _ _ _ _ _ _ _ hok
  rw [unskipped_of_agree _ _ hagree, length_retrieve] at hl hs
  exact ⟨hl, hs⟩

theorem up_preserves_inv (env : Env W) (path : String) (db d : DB W)
    (hinv : LedgerInv db.ledger) (hagree : (Op.up env).agrees path db)
    (hok : up env path db = .done d) : LedgerInv d.ledger := by
  cases hdir : env.readDir path with
  | none => simp [up, hdir] at hok
  | some files =>
    have hl := (up_ledger_of_agree env path files db d hdir (hagree files hdir) hok).1
    constructor
    · rw [hl]; exact dense_append_rows hinv.1 _
    · rw [up_done_iff env path files db d hdir] at hok
      exact upLoop_nodup _ _ _ _ _ _ _ _ hok hinv.2

theorem rollback_preserves_inv (env : Env W) (path : String) (steps : Int) (db d : DB W)
    (hinv : LedgerInv db.ledger) (hok : rollback env path steps db = .done d) :
    LedgerInv d.ledger := by
  have hl := (rollback_done_dense env path steps db d hinv.1 hok).1
  constructor
  · rw [hl]
    exact dense_filter_lt hinv.1 _ (Nat.sub_le _ _)
  · rw [hl]
    exact hinv.2.sublist ((List.filter_sublist _).map _)

theorem op_preserves_inv (path : String) (op : Op W) (db d : DB W)
    (hinv : LedgerInv db.ledger) (hagree : op.agrees path db)
    (hok : op.run path db = .done d) : LedgerInv d.ledger := by
  cases op with
  | up env => exact up_preserves_inv env path db d hinv hagree hok
  | down env =>
    simp only [Op.run] at hok
    rw [← rollback_zero_eq_down] at hok
    exact rollback_preserves_inv env path 0 db d hinv hok
  | rollback env steps => exact rollback_preserves_inv env path steps db d hinv hok

theorem runOps_append_done (path : String) : ∀ (pre suf : List (Op W)) (db d : DB W),
    runOps path (pre ++ suf) db = .done d →
      ∃ d', runOps path pre db = .done d' ∧ runOps path suf d' = .done d := by
  intro pre
  induction pre with
  | nil => intro suf db d h; exact ⟨db, rfl, h⟩
  | cons op pre ih =>
    intro suf db d h
    simp only [List.cons_append, runOps] at h ⊢
    cases ho : op.run path db with
    | fatal d1 => simp [ho] at h
    | done d1 =>
      simp only [ho] at h ⊢
      exact ih suf d1 d h

theorem runOps_preserves_inv (path : String) : ∀ (ops : List (Op W)) (db d : DB W),
    LedgerInv db.ledger → Agreeing path ops db → runOps path ops db = .done d →
      LedgerInv d.ledger := by
  intro ops
  induction ops with
  | nil =>
    intro db d hinv _ h
    simp only [runOps, Outcome.done.injEq] at h
    subst h
    exact hinv
  | cons op ops ih =>
    intro db d hinv hag h
    simp only [runOps] at h
    cases ho : op.run path db with
    | fatal d1 => simp [ho] at h
    | done d1 =>
      simp only [ho] at h
      exact ih d1 d (op_preserves_inv path op db d1 hinv hag.1 ho) (hag.2 d1 ho) h

theorem agreeing_initial (path : String) : ∀ (pre suf : List (Op W)) (db : DB W),
    Agreeing path (pre ++ suf) db → Agreeing path pre db := by
  intro pre
  induction pre with
  | nil => intro _ _ _; trivial
  | cons op pre ih =>
    intro suf db h
    exact ⟨h.1, fun d hd => ih suf d (h.2 d hd)⟩

theorem ledgerInv_nil : LedgerInv [] := ⟨List.Perm.refl _, List.nodup_nil⟩

/-- Claim C4 (amended): from the empty ledger, after each operation of a sequence of successful
`up`, `down` and `rollback` operations in which every `up` meets a ledger whose names agree with
the sorted file names at every common position (the files may differ otherwise from one
operation to the next), the priorities in the ledger are `0, .., N - 1`, each once, and the
names are distinct. -/
theorem ledger_dense_after_agreeing_ops (path : String) (ops : List (Op W)) (db d : DB W)
    (hempty : db.ledger = []) (hagree : Agreeing path ops db)
    (hok : runOps path ops db = .done d) :
    ∀ pre suf, ops = pre ++ suf →
      ∃ d', runOps path pre db = .done d' ∧ LedgerInv d'.ledger := by
  intro pre suf hsplit
  subst hsplit
  obtain ⟨d', h1, -⟩ := runOps_append_done path pre suf db d hok
  refine ⟨d', h1, ?_⟩
  apply runOps_preserves_inv path pre db d' _ (agreeing_initial path pre suf db hagree) h1
  rw [hempty]
  exact ledgerInv_nil

theorem scenario_up_down_agreeing :
    Agreeing "migrations" [Op.up scenarioEnv, Op.down scenarioEnv] ⟨[], (), []⟩ := by
  refine ⟨?_, fun d _ => ⟨trivial, fun _ _ => trivial⟩⟩
  intro files _ i hi
  simp [retrieveMigratedList, byPriority] at hi

/-- Claim C4, witness: `up` and then `down` in the scenario. -/
theorem ledger_dense_after_agreeing_ops_witness :
    Agreeing "migrations" [Op.up scenarioEnv, Op.down scenarioEnv] ⟨[], (), []⟩ ∧
    runOps "migrations" [Op.up scenarioEnv, Op.down scenarioEnv] ⟨[], (), []⟩
      = .done ⟨[], (), scenarioApplied.sent ++ scenarioReverted.sent⟩ ∧
    ∃ d', runOps "migrations" [Op.up scenarioEnv] ⟨[], (), []⟩ = .done d' ∧
      LedgerInv d'.ledger :=
  ⟨scenario_up_down_agreeing, by decide,
    ledger_dense_after_agreeing_ops "migrations" [Op.up scenarioEnv, Op.down scenarioEnv]
      ⟨[], (), []⟩ ⟨[], (), scenarioApplied.sent ++ scenarioReverted.sent⟩ rfl
      scenario_up_down_agreeing (by decide) [Op.up scenarioEnv] [Op.down scenarioEnv] rfl⟩

/-- Claim C4, counterexample: `up` on the two files of the scenario and then `up` on a directory
where the file of `posts` is replaced by a later file; both return, and the priorities in the
ledger are 0, 1, 1. -/
theorem ledger_not_dense_after_drift :
    runOps "migrations" [Op.up scenarioEnv, Op.up driftEnv] ⟨[], (), []⟩ = .done driftApplied ∧
    driftApplied.ledger.map (·.priority) = [0, 1, 1] ∧
    ¬ Dense driftApplied.ledger := by
  refine ⟨by decide, by decide, ?_⟩
  intro h
  have h2 : (2 : Int) ∈ driftApplied.ledger.map (·.priority) := by
    rw [h.mem_iff]
    decide
  revert h2
  decide

theorem upLoop_skip_all (env : Env W) (path : String) (saved : List String) (tx : Tx) :
    ∀ (names : List String) (i : Nat) (db : DB W), unskipped saved i names = [] →
      upLoop env path saved tx i names db = .done db := by
  intro names
  induction names with
  | nil => intro i db _; rfl
  | cons name rest ih =>
    intro i db h
    unfold unskipped at h
    unfold upLoop
    by_cases hc : (decide (i < saved.length) && (saved[i]?.getD "" == name)) = true
    · simp only [hc, if_true] at h ⊢
      exact ih _ _ h
    · simp [hc] at h

theorem up_up_of_agree (env : Env W) (path : String) (files : List (String × Bool))
    (db d : DB W) (hdir : env.readDir path = some files) (hdense : Dense db.ledger)
    (hagree : Agree (retrieveMigratedList db) (fileNames files))
    (hok : up env path db = .done d) : up env path d = .done d := by
  have hl := (up_ledger_of_agree env path files db d hdir hagree hok).1
  have hret : retrieveMigratedList d
      = retrieveMigratedList db ++ (fileNames files).drop db.ledger.length := by
    rw [retrieveMigratedList, hl, byPriority_append_rows, List.map_append, rowsOf_map_name]
    · rfl
    · intro e he
      exact (hdense.lt he).2
  have hlen := length_retrieve db
  have hag : Agree (retrieveMigratedList d) (fileNames files) := by
    intro i h1 h2
    rw [hret]
    by_cases hi : i < (retrieveMigratedList db).length
    · rw [List.getElem?_append_left hi]
      exact hagree i hi h2
    · rw [List.getElem?_append_right (by omega), List.getElem?_drop, hlen]
      congr 2
      omega
  rw [up_done_iff env path files d d hdir]
  apply upLoop_skip_all
  rw [unskipped_of_agree _ _ hag, List.drop_eq_nil_of_le]
  · rfl
  · rw [hret, List.length_append, List.length_drop, hlen]
    omega

/-- Claim C5 (amended): on a ledger with the priorities `0, .., N - 1` whose names agree with the
sorted file names at every common position, when `up` returns, an immediately following `up`
over the same files returns with the same database: it sends no statement and leaves the
ledger as the first call left it. -/
theorem up_idempotent_of_agree (env : Env W) (path : String) (files : List (String × Bool))
    (db d : DB W) (hdir : env.readDir path = some files) (hdense : Dense db.ledger)
    (hagree : Agree (retrieveMigratedList db) (fileNames files))
    (hok : up env path db = .done d) :
    up env path d = .done d :=
  up_up_of_agree env path files db d hdir hdense hagree hok

/-- Claim C5, witness: `up` twice in the scenario. -/
theorem up_idempotent_of_agree_witness :
    up scenarioEnv "migrations" ⟨[], (), []⟩ = .done scenarioApplied ∧
    up scenarioEnv "migrations" scenarioApplied = .done scenarioApplied :=
  ⟨by decide,
    up_idempotent_of_agree scenarioEnv "migrations" scenarioDir ⟨[], (), []⟩ scenarioApplied
      (by decide) (List.Perm.refl _)
      (fun i hi _ => by simp [retrieveMigratedList, byPriority] at hi) (by decide)⟩

/-- Claim C5, counterexample: on the ledger `(users, 2), (posts, 3)` with the files of `users`
and `comments`, the first `up` returns (it inserts `(comments, 1)`); the second reads the names
`comments, users, posts`, sends the apply script of `users` again and ends in `log.Fatal` on the
insert of the duplicate name. -/
theorem up_twice_not_idempotent :
    up driftEnv "migrations" gapDB = .done gapApplied ∧
    up driftEnv "migrations" gapApplied
      = .fatal ⟨gapApplied.ledger, (),
          gapApplied.sent ++ [.script "create table users(id int);", .insert usersFile 0]⟩ := by
  decide

/-- Claim C1: evaluation at the failing input. With five pending files and a database that rejects
the third apply script, `up` ends in `log.Fatal` and the ledger holds the first two files: the
inserts went through `db.Exec`, not through the transaction that is rolled back. -/
theorem up_abort_keeps_earlier_inserts :
    up fiveEnv "migrations" ⟨[], (), []⟩
      = .fatal ⟨[⟨"001.sql", 0⟩, ⟨"002.sql", 1⟩], (),
          [.script "create table t1(id int);", .insert "001.sql" 0,
           .script "create table t2(id int);", .insert "002.sql" 1,
           .script "create table t3(id int);"]⟩ := by
  decide

/-- Claim C3: evaluation at the failing input. With the ledger of the scenario, the arguments
`rollback 1` revert both rows and leave the empty ledger: `steps` is read from `flag.Arg(0)`,
which is the action `rollback`, and `Atoi` gives 0 for it. -/
theorem rollback_one_reverts_all :
    Atoi (flagArg ["rollback", "1"] 0) = 0 ∧
    Init scenarioEnv "migrations" ["rollback", "1"] ⟨scenarioLedger, (), []⟩
      = .done ⟨[], (), [.script "drop table posts;", .delete 1,
                        .script "drop table users;", .delete 0]⟩ := by
  decide

/-- Claim C9: evaluation at the failing input. With the ledger of the scenario and a database that
rejects the revert script of `users`, `down` and `rollback` end in `log.Fatal` and the row of
`posts`, removed earlier in the call, stays removed. -/
theorem down_abort_keeps_earlier_deletes :
    down failingRevertEnv "migrations" ⟨scenarioLedger, (), []⟩
      = .fatal ⟨[⟨usersFile, 0⟩], (),
          [.script "drop table posts;", .delete 1, .script "drop table users;"]⟩ ∧
    rollback failingRevertEnv "migrations" 2 ⟨scenarioLedger, (), []⟩
      = .fatal ⟨[⟨usersFile, 0⟩], (),
          [.script "drop table posts;", .delete 1, .script "drop table users;"]⟩ := by
  decide

theorem hasInfix_iff (sub : List Char) : ∀ (l : List Char), hasInfix sub l = true ↔ sub <:+: l := by
  intro l
  induction l with
  | nil => simp [hasInfix, List.isEmpty_iff]
  | cons c cs ih =>
    rw [hasInfix, Bool.or_eq_true, ih, List.infix_cons_iff, List.isPrefixOf_iff_prefix]

theorem trimChars_within (l : List Char) : trimChars l <:+: l :=
  (( List.rdropWhile_prefix inCutset _).isInfix).trans (List.dropWhile_suffix inCutset).isInfix

theorem dropCR_initial (l : List Char) : dropCR l <+: l := by
  unfold dropCR
  split
  · exact List.dropLast_prefix l
  · exact List.prefix_refl l

theorem hasInfix_text_false (m l : List Char) (h : hasInfix m l = false) :
    hasInfix m (trimChars (dropCR l)) = false := by
  cases h' : hasInfix m (trimChars (dropCR l)) with
  | false => rfl
  | true =>
    have h1 := (hasInfix_iff m _).1 h'
    have h2 := (h1.trans (trimChars_within _)).trans (dropCR_initial l).isInfix
    rw [(hasInfix_iff m l).2 h2] at h
    cases h

theorem mem_dropWhile_of_not {p : Char → Bool} {c : Char} (hc : p c = false) :
    ∀ (l : List Char), c ∈ l → c ∈ l.dropWhile p := by
  intro l
  induction l with
  | nil => intro h; cases h
  | cons a l ih =>
    intro h
    by_cases ha : p a = true
    · rw [List.dropWhile_cons_of_pos ha]
      rcases List.mem_cons.1 h with rfl | h
      · rw [hc] at ha; cases ha
      · exact ih h
    · rw [List.dropWhile_cons_of_neg ha]
      exact h

theorem mem_trimChars {c : Char} {l : List Char} (h : c ∈ l) (hc : inCutset c = false) :
    c ∈ trimChars l := by
  unfold trimChars List.rdropWhile
  rw [List.mem_reverse]
  apply mem_dropWhile_of_not hc
  rw [List.mem_reverse]
  exact mem_dropWhile_of_not hc l h

theorem mem_dropCR {c : Char} {l : List Char} (h : c ∈ l) (hc : c ≠ '\r') : c ∈ dropCR l := by
  unfold dropCR
  split
  · rename_i hl
    have hne : l ≠ [] := by rintro rfl; cases h
    have := List.dropLast_append_getLast hne
    rw [← this] at h
    rcases List.mem_append.1 h with h | h
    · exact h
    · simp only [List.mem_singleton] at h
      rw [List.getLast?_eq_getLast _ hne] at hl
      injection hl with hl
      rw [hl] at h
      exact absurd h hc
  · exact h

theorem readLine_up_section (st : Sections) (t : List Char)
    (ht : hasInfix "migrate_down".data (trimChars t) = false) (hf : st.flg = 0)
    (hd : st.down = []) :
    (readLine st t).flg = 0 ∧ (readLine st t).down = [] ∧
      (∀ c ∈ st.up, c ∈ (readLine st t).up) ∧
      (hasInfix "migrate_up".data (trimChars t) = false →
        ∀ c ∈ trimChars t, c ∈ (readLine st t).up) := by
  unfold readLine
  simp only [ht, Bool.false_eq_true, if_false, hf, if_true]
  cases hu : hasInfix "migrate_up".data (trimChars t) with
  | true => simp [hf, hd]
  | false =>
    simp only [Bool.false_eq_true, if_false, hf, hd, true_and, forall_const]
    constructor
    · intro c hc; simp [hc]
    · intro c hc; simp [hc]

theorem foldl_up_section : ∀ (toks : List (List Char)) (st : Sections),
    (∀ t ∈ toks, hasInfix "migrate_down".data (trimChars t) = false) → st.flg = 0 →
    st.down = [] →
      (toks.foldl readLine st).flg = 0 ∧ (toks.foldl readLine st).down = [] ∧
      (∀ c ∈ st.up, c ∈ (toks.foldl readLine st).up) ∧
      (∀ t ∈ toks, hasInfix "migrate_up".data (trimChars t) = false →
        ∀ c ∈ trimChars t, c ∈ (toks.foldl readLine st).up) := by
  intro toks
  induction toks with
  | nil => intro st _ hf hd; exact ⟨hf, hd, fun _ h => h, fun _ h => by cases h⟩
  | cons t toks ih =>
    intro st ht hf hd
    obtain ⟨h1, h2, h3, h4⟩ := readLine_up_section st t (ht t (List.mem_cons_self _ _)) hf hd
    obtain ⟨i1, i2, i3, i4⟩ := ih (readLine st t)
      (fun x hx => ht x (List.mem_cons_of_mem _ hx)) h1 h2
    simp only [List.foldl_cons]
    refine ⟨i1, i2, fun c hc => i3 c (h3 c hc), ?_⟩
    intro x hx hux c hc
    rcases List.mem_cons.1 hx with rfl | hx
    · exact i3 c (h4 hux c hc)
    · exact i4 x hx hux c hc

theorem scan_of_short (content : List Char)
    (h : ∀ l ∈ splitLines content [], byteLen l < maxScanTokenSize) :
    scan content = ((splitLines content []).map dropCR, false) := by
  unfold scan
  simp only [Prod.mk.injEq]
  constructor
  · congr 1
    rw [List.takeWhile_eq_self_iff]
    intro l hl
    simpa using h l hl
  · rw [List.any_eq_false]
    intro l hl
    have := h l hl
    simp only [decide_eq_true_eq]
    omega

theorem readContent_up_only (content : List Char)
    (hshort : ∀ l ∈ splitLines content [], byteLen l < maxScanTokenSize)
    (hdown : ∀ l ∈ splitLines content [], hasInfix "migrate_down".data l = false)
    (hline : ∃ l ∈ splitLines content [], hasInfix "migrate_up".data l = false ∧
      ∃ c ∈ l, c.isWhitespace = false) :
    ∃ up, readContent content = some (up, "") ∧ up ≠ "" := by
  obtain ⟨l, hl, hlu, c, hc, hcw⟩ := hline
  have hc1 : c ≠ '\r' := by rintro rfl; revert hcw; decide
  have hc2 : inCutset c = false := by
    unfold inCutset
    cases h1 : (c == ' ')
    · cases h2 : (c == '\n')
      · rfl
      · rw [beq_iff_eq] at h2; subst h2; revert hcw; decide
    · rw [beq_iff_eq] at h1; subst h1; revert hcw; decide
  obtain ⟨i1, i2, -, i4⟩ := foldl_up_section ((splitLines content []).map dropCR) ⟨[], [], 0⟩
    (by
      intro t ht
      obtain ⟨x, hx, rfl⟩ := List.mem_map.1 ht
      exact hasInfix_text_false _ x (hdown x hx)) rfl rfl
  have hmem := i4 (dropCR l) (List.mem_map_of_mem _ hl) (hasInfix_text_false _ l hlu) c
    (mem_trimChars (mem_dropCR hc hc1) hc2)
  unfold readContent
  rw [scan_of_short content hshort]
  simp only [Bool.false_eq_true, if_false]
  rw [i2]
  refine ⟨⟨trimChars _⟩, rfl, ?_⟩
  intro h
  have h' := congrArg String.data h
  simp only at h'
  have := mem_trimChars hmem hc2
  rw [h'] at this
  cases this

theorem splitLines_append_newline (b : List Char) : ∀ (a cur : List Char),
    (∀ c ∈ a, c ≠ '\n') → splitLines (a ++ '\n' :: b) cur = (cur ++ a) :: splitLines b [] := by
  intro a
  induction a with
  | nil => intro cur _; simp [splitLines]
  | cons x a ih =>
    intro cur h
    have hx : x ≠ '\n' := h x (List.mem_cons_self _ _)
    show splitLines (x :: (a ++ '\n' :: b)) cur = _
    rw [splitLines, if_neg hx, ih _ (fun c hc => h c (List.mem_cons_of_mem _ hc))]
    simp

theorem splitLines_no_newline : ∀ (l cur : List Char), (∀ c ∈ l, c ≠ '\n') → cur ++ l ≠ [] →
    splitLines l cur = [cur ++ l] := by
  intro l
  induction l with
  | nil => intro cur _ h; simp at h; simp [splitLines, h]
  | cons x l ih =>
    intro cur h _
    have hx : x ≠ '\n' := h x (List.mem_cons_self _ _)
    simp only [splitLines, hx, if_false]
    rw [ih _ (fun c hc => h c (List.mem_cons_of_mem _ hc)) (by simp)]
    simp

theorem splitLines_longLine (n : Nat) (hn : 0 < n) :
    splitLines (longLineContent n) [] = ["migrate_up".data, List.replicate n 'x'] := by
  unfold longLineContent
  rw [splitLines_append_newline _ _ _ (by decide)]
  rw [splitLines_no_newline]
  · rfl
  · intro c hc
    rw [List.eq_of_mem_replicate hc]
    decide
  · intro h
    have := congrArg List.length h
    simp at this
    omega

theorem byteLen_replicate_x (n : Nat) : byteLen (List.replicate n 'x') = n := by
  induction n with
  | zero => rfl
  | succ n ih =>
    unfold byteLen at ih ⊢
    rw [List.replicate_succ, List.map_cons, List.sum_cons, ih]
    have : Char.utf8Size 'x' = 1 := by decide
    omega

theorem hasInfix_of_head_not_mem (a : Char) (s : List Char) :
    ∀ (l : List Char), a ∉ l → hasInfix (a :: s) l = false := by
  intro l
  induction l with
  | nil => intro _; rfl
  | cons c cs ih =>
    intro h
    have hac : a ≠ c := fun e => h (e ▸ List.mem_cons_self _ _)
    have hcs : a ∉ cs := fun e => h (List.mem_cons_of_mem _ e)
    simp [hasInfix, List.isPrefixOf, hac, ih hcs]

theorem hasInfix_replicate_x (a : Char) (s : List Char) (ha : a ≠ 'x') (n : Nat) :
    hasInfix (a :: s) (List.replicate n 'x') = false :=
  hasInfix_of_head_not_mem a s _ (fun h => ha (List.eq_of_mem_replicate h))

theorem readContent_longLine (n : Nat) (hn : maxScanTokenSize ≤ n) :
    readContent (longLineContent n) = none := by
  have hpos : 0 < n := Nat.lt_of_lt_of_le (by decide) hn
  have h : (scan (longLineContent n)).2 = true := by
    unfold scan
    simp only [splitLines_longLine n hpos, List.any_cons, byteLen_replicate_x, hn, decide_True,
      Bool.true_or, Bool.or_true]
  unfold readContent
  simp only [h, if_true]

theorem longLine_refutes (n : Nat) (hn : maxScanTokenSize ≤ n) :
    (∃ l ∈ splitLines (longLineContent n) [], hasInfix "migrate_up".data l = true) ∧
    (∀ l ∈ splitLines (longLineContent n) [], hasInfix "migrate_down".data l = false) ∧
    (∃ l ∈ splitLines (longLineContent n) [], hasInfix "migrate_up".data l = false ∧
      ∃ c ∈ l, c.isWhitespace = false) ∧
    readFile (fun _ => some ⟨longLineContent n⟩) "migrations/long.sql" = none := by
  have hpos : 0 < n := Nat.lt_of_lt_of_le (by decide) hn
  have hx : 'x' ∈ List.replicate n 'x' := List.mem_replicate.2 ⟨by omega, rfl⟩
  rw [splitLines_longLine n hpos]
  refine ⟨⟨_, List.mem_cons_self _ _, by decide⟩, ?_, ?_, ?_⟩
  · intro l hl
    simp only [List.mem_cons, List.mem_singleton, List.not_mem_nil, or_false] at hl
    rcases hl with rfl | rfl
    · decide
    · exact hasInfix_replicate_x 'm' _ (by decide) n
  · refine ⟨List.replicate n 'x', by simp, hasInfix_replicate_x 'm' _ (by decide) n, 'x', hx,
      by decide⟩
  · exact readContent_longLine n hn

/-- Claim C10 (amended): for a file whose lines are each shorter than 65536 bytes, in which a line
contains `migrate_up`, no line contains `migrate_down`, and a line without marker has a
character that is not white space, `readFile` returns a non-empty apply script and the empty
revert script. -/
theorem readFile_up_only (fs : String → Option String) (name content : String)
    (hfile : fs name = some content)
    (hshort : ∀ l ∈ splitLines content.data [], byteLen l < maxScanTokenSize)
    (_hup : ∃ l ∈ splitLines content.data [], hasInfix "migrate_up".data l = true)
    (hdown : ∀ l ∈ splitLines content.data [], hasInfix "migrate_down".data l = false)
    (hline : ∃ l ∈ splitLines content.data [], hasInfix "migrate_up".data l = false ∧
      ∃ c ∈ l, c.isWhitespace = false) :
    ∃ up, readFile fs name = some (up, "") ∧ up ≠ "" := by
  unfold readFile
  rw [hfile]
  exact readContent_up_only content.data hshort hdown hline

/-- Claim C10, witness: a file with the marker `migrate_up` and one statement. -/
theorem readFile_up_only_witness :
    readFile (fun _ => some upOnlyContent) "migrations/users.sql"
      = some ("create table users(id int);", "") ∧
    ∃ up, readFile (fun _ => some upOnlyContent) "migrations/users.sql" = some (up, "") ∧
      up ≠ "" :=
  ⟨by decide,
    readFile_up_only (fun _ => some upOnlyContent) "migrations/users.sql" upOnlyContent rfl
      (by decide) (by decide) (by decide) (by decide)⟩

/-- Claim C10, counterexample: a file that meets the claim and has a line of 65536 bytes: the scanner stops with
`ErrTooLong` and `readFile` ends in `log.Fatal`. -/
theorem readFile_fatal_on_long_line :
    (∃ l ∈ splitLines (longLineContent 65536) [], hasInfix "migrate_up".data l = true) ∧
    (∀ l ∈ splitLines (longLineContent 65536) [], hasInfix "migrate_down".data l = false) ∧
    (∃ l ∈ splitLines (longLineContent 65536) [], hasInfix "migrate_up".data l = false ∧
      ∃ c ∈ l, c.isWhitespace = false) ∧
    readFile (fun _ => some ⟨longLineContent 65536⟩) "migrations/long.sql" = none :=
  longLine_refutes 65536 (by decide)

theorem rollbackLoop_done_of_downLoop (env : Env W) (path : String) (saved : List String)
    (tx : Tx) (steps : Int) :
    ∀ (n : Nat) (k : Int) (db d : DB W), downLoop env path saved tx n db = .done d →
      ∃ d1, rollbackLoop env path saved tx steps n k db = .done d1 := by
  intro n
  induction n with
  | zero => intro k db d _; exact ⟨db, rfl⟩
  | succ n ih =>
    intro k db d h
    unfold downLoop at h
    unfold rollbackLoop
    simp only at h ⊢
    cases hr : readFile env.file (path ++ "/" ++ saved[n]?.getD "") with
    | none => simp [hr] at h
    | some ud =>
      obtain ⟨u, dn⟩ := ud
      simp only [hr] at h ⊢
      cases he : exec env dn db with
      | err d0 => simp [he] at h
      | ok d0 =>
        simp only [he, removeMigration_eq] at h ⊢
        by_cases hs : k + 1 = steps
        · simp only [hs, if_true]
          exact ⟨_, rfl⟩
        · simp only [hs, if_false]
          exact ih _ _ _ h

theorem rollback_rest_eq_down (env : Env W) (path : String) (db d1 : DB W) (k : Nat)
    (hdense : Dense db.ledger) (hk1 : 1 ≤ k) (hk : k ≤ db.ledger.length)
    (hroll : rollback env path (k : Int) db = .done d1) :
    rollback env path ((db.ledger.length - k : Nat) : Int) d1 = down env path db := by
  have hlen := length_retrieve db
  have h1 := (rollback_done_iff _ _ _ _ _).1 hroll
  have hkpos : (0 : Int) < (k : Int) := by omega
  have htn : ((k : Int) - 0).toNat = k := by simp
  have hsplit := downLoop_split env path (retrieveMigratedList db) Begin (k : Int)
    (retrieveMigratedList db).length 0 db d1 hkpos (by rw [htn, hlen]; exact hk) h1
  rw [htn, hlen] at hsplit
  have hrev : reverted (k : Int) db.ledger.length 0 = k := by
    simp only [reverted, hkpos, if_true, htn]
    exact Nat.min_eq_right hk
  have hl1 := (rollback_done_dense env path k db d1 hdense hroll).1
  rw [hrev] at hl1
  have hr1 := retrieve_filter_lt db d1 hdense _ hl1
  have hlt : ((retrieveMigratedList db).take (db.ledger.length - k)).length
      = db.ledger.length - k := by
    rw [List.length_take, hlen]; omega
  unfold rollback down
  simp only [createMigrationTable_eq]
  rw [hr1, hlt, rollbackLoop_eq_downLoop_of_le _ _ _ _ _ _ _ _ (Or.inr (by omega)),
    downLoop_congr env path _ (retrieveMigratedList db) Begin _ d1, ← hsplit, ← hlen]
  intro i hi
  rw [List.getElem?_take_of_lt hi]

theorem down_iff_rollback_rollback (env : Env W) (path : String) (db : DB W) (k : Nat)
    (hdense : Dense db.ledger) (hk : k ≤ db.ledger.length) (d : DB W) :
    down env path db = .done d ↔
      ∃ d1, rollback env path (k : Int) db = .done d1 ∧
        rollback env path ((db.ledger.length - k : Nat) : Int) d1 = .done d := by
  by_cases hk0 : k = 0
  · subst hk0
    simp only [Nat.cast_zero, rollback_zero_eq_down]
    constructor
    · intro h
      have hl := (down_done_dense env path db d hdense h).2.2
      exact ⟨d, h, rollback_empty env path _ d hl⟩
    · rintro ⟨d1, h1, h2⟩
      have hl := (down_done_dense env path db d1 hdense h1).2.2
      rw [rollback_empty env path _ d1 hl] at h2
      injection h2 with h2
      rw [← h2]
      exact h1
  · constructor
    · intro h
      obtain ⟨d1, h1⟩ := rollbackLoop_done_of_downLoop env path (retrieveMigratedList db) Begin
        (k : Int) _ 0 db d ((down_done_iff env path db d).1 h)
      have hroll : rollback env path (k : Int) db = .done d1 :=
        (rollback_done_iff _ _ _ _ _).2 h1
      refine ⟨d1, hroll, ?_⟩
      rw [rollback_rest_eq_down env path db d1 k hdense (by omega) hk hroll]
      exact h
    · rintro ⟨d1, h1, h2⟩
      rw [← rollback_rest_eq_down env path db d1 k hdense (by omega) hk h1]
      exact h2

theorem down_total (env : Env W) (path : String) (db : DB W) (hrun : AllRun env)
    (hread : Readable env path (retrieveMigratedList db)) : ∃ d, down env path db = .done d := by
  obtain ⟨d, hd⟩ := downLoop_total env path (retrieveMigratedList db) Begin hrun hread
    (retrieveMigratedList db).length db (le_refl _)
  exact ⟨d, (down_done_iff env path db d).2 hd⟩

/-- Claim C7: on a ledger with the priorities `0, .., N - 1` and for `0 <= k <= N`, the loop of
`rollback` with `steps = k` and then with `steps = N - k` returns with a database exactly when a
single `down` returns with it (same ledger, same statements sent); so do two `rollback`
invocations on the command line, whatever their arguments; and `down` returns when every script
succeeds and the files of the ledger can be read. -/
theorem rollback_split_eq_down (env : Env W) (path : String) (db : DB W) (k : Nat)
    (hdense : Dense db.ledger) (hk : k ≤ db.ledger.length) :
    (∀ d, down env path db = .done d ↔
      ∃ d1, rollback env path (k : Int) db = .done d1 ∧
        rollback env path ((db.ledger.length - k : Nat) : Int) d1 = .done d) ∧
    (∀ (a b : String) (d : DB W), down env path db = .done d ↔
      ∃ c1, Init env path ["rollback", a] db = .done c1 ∧
        Init env path ["rollback", b] c1 = .done d) ∧
    (AllRun env → Readable env path (retrieveMigratedList db) →
      ∃ d, down env path db = .done d) := by
  refine ⟨down_iff_rollback_rollback env path db k hdense hk, ?_,
    fun hrun hread => down_total env path db hrun hread⟩
  intro a b d
  have h0 := down_iff_rollback_rollback env path db 0 hdense (Nat.zero_le _) d
  simp only [Init_rollback]
  rw [h0]
  constructor
  · rintro ⟨d1, h1, h2⟩
    have hl : d1.ledger = [] := by
      rw [Nat.cast_zero, rollback_zero_eq_down] at h1
      exact (down_done_dense env path db d1 hdense h1).2.2
    rw [rollback_empty env path _ d1 hl] at h2
    exact ⟨d1, h1, by rw [rollback_empty env path _ d1 hl]; exact h2⟩
  · rintro ⟨d1, h1, h2⟩
    have hl : d1.ledger = [] := by
      rw [rollback_zero_eq_down] at h1
      exact (down_done_dense env path db d1 hdense h1).2.2
    rw [rollback_empty env path _ d1 hl] at h2
    exact ⟨d1, h1, by rw [rollback_empty env path _ d1 hl]; exact h2⟩

/-- Claim C7, witness: on the ledger of the scenario, `steps = 1` and then `steps = 1` give what
`down` gives. -/
theorem rollback_split_eq_down_witness :
    Dense scenarioLedger ∧ 1 ≤ scenarioLedger.length ∧
    rollback scenarioEnv "migrations" ((1 : Nat) : Int) ⟨scenarioLedger, (), []⟩
      = .done ⟨[⟨usersFile, 0⟩], (), [.script "drop table posts;", .delete 1]⟩ ∧
    rollback scenarioEnv "migrations" ((scenarioLedger.length - 1 : Nat) : Int)
        ⟨[⟨usersFile, 0⟩], (), [.script "drop table posts;", .delete 1]⟩
      = .done scenarioReverted ∧
    down scenarioEnv "migrations" ⟨scenarioLedger, (), []⟩ = .done scenarioReverted :=
  ⟨scenario_dense, by decide, by decide, by decide,
    ((rollback_split_eq_down scenarioEnv "migrations" ⟨scenarioLedger, (), []⟩ 1 scenario_dense
      (by decide)).1 scenarioReverted).2
      ⟨⟨[⟨usersFile, 0⟩], (), [.script "drop table posts;", .delete 1]⟩, by decide, by decide⟩⟩

theorem up_state (env : Env W) (path : String) (files : List (String × Bool)) (db : DB W)
    (hdir : env.readDir path = some files) :
    (up env path db).state
      = (upLoop env path (retrieveMigratedList db) Begin 0 (fileNames files) db).state := by
  unfold up
  simp only [createMigrationTable_eq, hdir]
  cases upLoop env path (retrieveMigratedList db) Begin 0 (fileNames files) db <;> rfl

theorem length_filter_lt {l : List Entry} (h : Dense l) (lo : Nat) (hlo : lo ≤ l.length) :
    (l.filter (fun e => decide (e.priority < (lo : Int)))).length = lo := by
  rw [← length_byPriority, byPriority_filter_lt h, List.length_take, length_byPriority]
  omega

theorem reverted_of_pos (steps : Int) (n : Nat) (h : 1 ≤ steps) :
    reverted steps n 0 = min steps.toNat n := by
  unfold reverted
  have h0 : (0 : Int) < steps := by omega
  simp only [h0, if_true, Int.sub_zero]
  exact Nat.min_comm _ _

theorem rollback_eq_down_of_le (env : Env W) (path : String) (steps : Int) (db : DB W)
    (h : steps ≤ 0 ∨ (db.ledger.length : Int) ≤ steps) :
    rollback env path steps db = down env path db := by
  unfold rollback down
  simp only [createMigrationTable_eq]
  rw [rollbackLoop_eq_downLoop_of_le env path _ Begin steps _ 0 db]
  rw [length_retrieve]
  rcases h with h | h
  · exact Or.inl h
  · exact Or.inr (by omega)

theorem rollback_total (env : Env W) (path : String) (steps : Int) (db : DB W)
    (hrun : AllRun env) (hread : Readable env path (retrieveMigratedList db)) :
    ∃ d, rollback env path steps db = .done d := by
  obtain ⟨d, hd⟩ := rollbackLoop_total env path (retrieveMigratedList db) Begin steps hrun hread
    (retrieveMigratedList db).length 0 db (le_refl _)
  exact ⟨d, (rollback_done_iff env path steps db d).2 hd⟩

/-- Claim C14: taking `steps` as given, on a ledger with the priorities `0, .., N - 1` and for
`steps >= 1`, when the loop of `rollback` returns it has sent, for the `min(steps, N)` rows of
highest priority in descending order, the revert script and then the delete, and has left the
`N - min(steps, N)` other rows as they were; for `steps >= N` it does exactly what `down` does;
and it returns when every script succeeds and the files of the ledger can be read. -/
theorem rollback_reverts_min_steps (env : Env W) (path : String) (steps : Int) (db : DB W)
    (hdense : Dense db.ledger) (hsteps : 1 ≤ steps) :
    (∀ d, rollback env path steps db = .done d →
      d.sent = db.sent ++ revertStmts env path
        ((byPriority db.ledger).reverse.take (min steps.toNat db.ledger.length)) ∧
      d.ledger = db.ledger.filter (fun e =>
        decide (e.priority < ((db.ledger.length - min steps.toNat db.ledger.length : Nat) : Int))) ∧
      d.ledger.length = db.ledger.length - min steps.toNat db.ledger.length) ∧
    ((db.ledger.length : Int) ≤ steps → rollback env path steps db = down env path db) ∧
    (AllRun env → Readable env path (retrieveMigratedList db) →
      ∃ d, rollback env path steps db = .done d) := by
  refine ⟨?_, fun h => rollback_eq_down_of_le env path steps db (Or.inr h),
    fun hrun hread => rollback_total env path steps db hrun hread⟩
  intro d hd
  obtain ⟨hl, hs⟩ := rollback_done_dense env path steps db d hdense hd
  rw [reverted_of_pos steps _ hsteps] at hl hs
  refine ⟨hs, hl, ?_⟩
  rw [hl, length_filter_lt hdense _ (Nat.sub_le _ _)]

/-- Claim C14, witness: the loop with `steps = 1` on the ledger of the scenario reverts `posts`
and leaves `(users, 0)`. -/
theorem rollback_reverts_min_steps_witness :
    Dense scenarioLedger ∧
    rollback scenarioEnv "migrations" 1 ⟨scenarioLedger, (), []⟩
      = .done ⟨[⟨usersFile, 0⟩], (), [.script "drop table posts;", .delete 1]⟩ ∧
    (⟨[⟨usersFile, 0⟩], (), [.script "drop table posts;", .delete 1]⟩ : DB Unit).ledger.length
      = scenarioLedger.length - min (1 : Int).toNat scenarioLedger.length :=
  ⟨scenario_dense, by decide,
    ((rollback_reverts_min_steps scenarioEnv "migrations" 1 ⟨scenarioLedger, (), []⟩
      scenario_dense (by decide)).1 _ (by decide)).2.2⟩

/-- Claim C20: taking `steps` as given, for `steps <= 0` the loop of `rollback` does exactly what
`down` does (the counter `k` is at least 1 when it is compared with `steps`); on a ledger with
the priorities `0, .., N - 1`, when it returns it has reverted every row, in descending order
of priority, and the ledger is empty; and it returns when every script succeeds and the files
of the ledger can be read. -/
theorem rollback_nonpositive_reverts_all (env : Env W) (path : String) (steps : Int)
    (db : DB W) (hdense : Dense db.ledger) (hsteps : steps ≤ 0) :
    rollback env path steps db = down env path db ∧
    (∀ d, rollback env path steps db = .done d →
      d.sent = db.sent ++ revertStmts env path (byPriority db.ledger).reverse ∧
      d.ledger = []) ∧
    (AllRun env → Readable env path (retrieveMigratedList db) →
      ∃ d, rollback env path steps db = .done d) := by
  have heq := rollback_eq_down_of_le env path steps db (Or.inl hsteps)
  refine ⟨heq, ?_, fun hrun hread => rollback_total env path steps db hrun hread⟩
  intro d hd
  rw [heq] at hd
  exact (down_done_dense env path db d hdense hd).2

/-- Claim C20, witness: the loop with `steps = 0` on the ledger of the scenario reverts both
rows. -/
theorem rollback_nonpositive_reverts_all_witness :
    Dense scenarioLedger ∧
    rollback scenarioEnv "migrations" 0 ⟨scenarioLedger, (), []⟩ = .done scenarioReverted ∧
    scenarioReverted.ledger = [] :=
  ⟨scenario_dense, by decide,
    ((rollback_nonpositive_reverts_all scenarioEnv "migrations" 0 ⟨scenarioLedger, (), []⟩
      scenario_dense (by decide)).2.1 scenarioReverted (by decide)).2⟩

/-- Claim C13: evaluation at the failing input. With the ledger of the scenario, `rollback`
without a steps argument reverts both rows: `stepsArg` is `flag.Arg(0)`, the action `rollback`,
never empty, so the default `"1"` is never taken and `Atoi` gives 0; a non-numeric steps
argument gives 0 as well. -/
theorem rollback_default_reverts_all :
    Atoi (flagArg ["rollback"] 0) = 0 ∧
    Init scenarioEnv "migrations" ["rollback"] ⟨scenarioLedger, (), []⟩
      = .done ⟨[], (), [.script "drop table posts;", .delete 1,
                        .script "drop table users;", .delete 0]⟩ ∧
    Atoi (flagArg ["rollback", "two"] 0) = 0 ∧ Atoi "two" = 0 := by
  decide

theorem addMigration_err_iff (name : String) (p : Int) (db d : DB W) :
    addMigration name p db = .err d ↔
      (∃ e ∈ db.ledger, e.name = name) ∧
        d = { db with sent := db.sent ++ [.insert name p] } := by
  unfold addMigration
  by_cases h : db.ledger.any (fun e => decide (e.name = name)) = true
  · simp only [h, if_true]
    simp only [List.any_eq_true, decide_eq_true_eq] at h
    constructor
    · intro h'; injection h' with h'; exact ⟨h, h'.symm⟩
    · rintro ⟨-, rfl⟩; rfl
  · simp only [h, if_false]
    simp only [List.any_eq_true, decide_eq_true_eq] at h
    constructor
    · intro h'; cases h'
    · rintro ⟨h1, -⟩; exact absurd h1 h

/-- Claim C16 (amended): `addMigration(name, priority)` returns an error and leaves the ledger as
it is whenever the ledger holds a row with the same name; otherwise, also when a row has the
same priority, it returns no error and adds exactly the row `(name, priority)`. -/
theorem addMigration_fails_on_name_only (name : String) (p : Int) (db : DB W) :
    ((∃ e ∈ db.ledger, e.name = name) →
      addMigration name p db = .err { db with sent := db.sent ++ [.insert name p] }) ∧
    ((∀ e ∈ db.ledger, e.name ≠ name) →
      addMigration name p db = .ok { db with ledger := db.ledger ++ [⟨name, p⟩],
                                             sent := db.sent ++ [.insert name p] }) :=
  ⟨fun h => (addMigration_err_iff name p db _).2 ⟨h, rfl⟩,
    fun h => (addMigration_ok_iff name p db _).2 ⟨h, rfl⟩⟩

/-- Claim C16, witness: a second insert of `users` fails, an insert of `posts` succeeds. -/
theorem addMigration_fails_on_name_only_witness :
    addMigration usersFile 1 (⟨[⟨usersFile, 0⟩], (), []⟩ : DB Unit)
      = .err ⟨[⟨usersFile, 0⟩], (), [.insert usersFile 1]⟩ ∧
    addMigration postsFile 1 (⟨[⟨usersFile, 0⟩], (), []⟩ : DB Unit)
      = .ok ⟨[⟨usersFile, 0⟩, ⟨postsFile, 1⟩], (), [.insert postsFile 1]⟩ :=
  ⟨(addMigration_fails_on_name_only usersFile 1 (⟨[⟨usersFile, 0⟩], (), []⟩ : DB Unit)).1
      ⟨_, List.mem_cons_self _ _, rfl⟩,
    (addMigration_fails_on_name_only postsFile 1 (⟨[⟨usersFile, 0⟩], (), []⟩ : DB Unit)).2
      (by decide)⟩

/-- Claim C16, counterexample: the ledger holds `(users, 0)`; the insert of `(posts, 0)`, with the
same priority, returns no error and the ledger holds two rows of priority 0. -/
theorem addMigration_same_priority_ok :
    addMigration postsFile 0 (⟨[⟨usersFile, 0⟩], (), []⟩ : DB Unit)
      = .ok ⟨[⟨usersFile, 0⟩, ⟨postsFile, 0⟩], (), [.insert postsFile 0]⟩ := by
  decide

/-- Claim C17 (amended): `removeMigration(priority)` returns no error, also when no row has that
priority; it removes every row of that priority and nothing else, so that the ledger is
unchanged when no row has it. -/
theorem removeMigration_never_fails (p : Int) (db : DB W) :
    removeMigration p db = .ok { db with ledger := db.ledger.filter (fun e => e.priority ≠ p),
                                         sent := db.sent ++ [.delete p] } ∧
    (∀ e, e ∈ db.ledger.filter (fun e => e.priority ≠ p) ↔ e ∈ db.ledger ∧ e.priority ≠ p) ∧
    ((∀ e ∈ db.ledger, e.priority ≠ p) → db.ledger.filter (fun e => e.priority ≠ p) = db.ledger) := by
  refine ⟨rfl, ?_, ?_⟩
  · intro e
    simp
  · intro h
    rw [List.filter_eq_self]
    intro e he
    simpa using h e he

/-- Claim C17, witness: on the ledger of the scenario, the delete of priority 1 removes `posts`
only. -/
theorem removeMigration_never_fails_witness :
    removeMigration 1 (⟨scenarioLedger, (), []⟩ : DB Unit)
      = .ok ⟨[⟨usersFile, 0⟩], (), [.delete 1]⟩ :=
  (removeMigration_never_fails 1 (⟨scenarioLedger, (), []⟩ : DB Unit)).1.trans (by decide)

/-- Claim C17, counterexample: no row of the ledger has the priority 5; `removeMigration(5)`
returns no error and leaves the ledger as it is. -/
theorem removeMigration_absent_ok :
    (∀ e ∈ scenarioLedger, e.priority ≠ 5) ∧
    removeMigration 5 (⟨scenarioLedger, (), []⟩ : DB Unit)
      = .ok ⟨scenarioLedger, (), [.delete 5]⟩ := by
  decide

theorem upLoop_sent_initial (env : Env W) (path : String) (saved : List String) (tx : Tx) :
    ∀ (names : List String) (i : Nat) (db : DB W),
      ∃ t, (upLoop env path saved tx i names db).state.sent = db.sent ++ t ∧
        t <+: applyStmts env path (unskipped saved i names) := by
  intro names
  induction names with
  | nil => intro i db; exact ⟨[], by simp [upLoop, Outcome.state], List.nil_prefix⟩
  | cons name rest ih =>
    intro i db
    unfold upLoop
    unfold unskipped
    by_cases hc : (decide (i < saved.length) && (saved[i]?.getD "" == name)) = true
    · simp only [hc, if_true]
      exact ih _ _
    · simp only [hc, if_false, Bool.false_eq_true]
      cases hr : readFile env.file (path ++ "/" ++ name) with
      | none => exact ⟨[], by simp [Outcome.state], List.nil_prefix⟩
      | some ud =>
        obtain ⟨u, dn⟩ := ud
        have hu : applyScript env path name = u := by simp [applyScript, hr]
        simp only
        cases he : exec env u db with
        | err d1 =>
          have hs : d1.sent = db.sent ++ [.script u] := by
            unfold exec at he
            cases hw : env.run u db.world with
            | none => simp only [hw] at he; injection he with he; rw [← he]
            | some w => simp [hw] at he
          refine ⟨[.script u], by simp [Outcome.state, hs], ?_⟩
          simp only [applyStmts, List.flatMap_cons, hu]
          exact ⟨_, rfl⟩
        | ok d1 =>
          obtain ⟨w, -, rfl⟩ := (exec_ok_iff _ _ _ _).1 he
          simp only
          cases ha : addMigration name i
              { db with world := w, sent := db.sent ++ [.script u] } with
          | err d2 =>
            obtain ⟨-, rfl⟩ := (addMigration_err_iff _ _ _ _).1 ha
            refine ⟨[.script u, .insert name (i : Int)], by simp [Outcome.state], ?_⟩
            simp only [applyStmts, List.flatMap_cons, hu]
            exact ⟨_, rfl⟩
          | ok d2 =>
            obtain ⟨-, rfl⟩ := (addMigration_ok_iff _ _ _ _).1 ha
            simp only
            obtain ⟨t, ht, hp⟩ := ih (i + 1)
              { ledger := db.ledger ++ [⟨name, (i : Int)⟩], world := w,
                sent := db.sent ++ [.script u] ++ [.insert name (i : Int)] }
            refine ⟨[.script u, .insert name (i : Int)] ++ t, by rw [ht]; simp, ?_⟩
            simp only [applyStmts, List.flatMap_cons, hu]
            exact (List.prefix_append_right_inj _).2 hp

theorem unskipped_eq_filter (saved : List String) : ∀ (names : List String) (i : Nat),
    unskipped saved i names = (names.enumFrom i).filter
      (fun p => !(decide (p.1 < saved.length) && (saved[p.1]?.getD "" == p.2))) := by
  intro names
  induction names with
  | nil => intro i; rfl
  | cons name rest ih =>
    intro i
    unfold unskipped
    by_cases hc : (decide (i < saved.length) && (saved[i]?.getD "" == name)) = true
    · simp only [hc, if_true, List.enumFrom_cons, List.filter_cons, Bool.not_true,
        Bool.false_eq_true, if_false]
      exact ih _
    · simp only [hc, if_false, Bool.false_eq_true, List.enumFrom_cons, List.filter_cons]
      simp only [Bool.not_eq_true] at hc
      simp only [hc, Bool.not_false, if_true]
      rw [ih]

theorem up_sent_unskipped (env : Env W) (path : String) (files : List (String × Bool))
    (db : DB W) (hdir : env.readDir path = some files) :
    (∃ t, (up env path db).state.sent = db.sent ++ t ∧
      t <+: applyStmts env path (unskipped (retrieveMigratedList db) 0 (fileNames files))) ∧
    (∀ d, up env path db = .done d →
      d.sent = db.sent ++
        applyStmts env path (unskipped (retrieveMigratedList db) 0 (fileNames files)) ∧
      d.ledger = db.ledger ++
        rowsOf (unskipped (retrieveMigratedList db) 0 (fileNames files))) := by
  constructor
  · rw [up_state env path files db hdir]
    exact upLoop_sent_initial env path _ Begin _ 0 db
  · intro d hd
    rw [up_done_iff env path files db d hdir] at hd
    obtain ⟨hl, hs⟩ := upLoop_done _ _ _ _ _ _ _ _ hd
    exact ⟨hs, hl⟩

/-- Claim C15 (amended): for every ledger and every directory, drifted ones included, the
change-sets that `up` attempts to apply are, in ascending order of `i`, those `pending[i]` with
`i >= len(applied)` or `applied[i] != pending[i]`: the statements `up` sends are an initial
part of their apply scripts and inserts, all of them when `up` returns; a file at a later
index whose name equals the ledger entry at that index is skipped. -/
theorem up_applies_each_mismatch (env : Env W) (path : String) (files : List (String × Bool))
    (db : DB W) (hdir : env.readDir path = some files) :
    unskipped (retrieveMigratedList db) 0 (fileNames files)
      = (fileNames files).enum.filter (fun p =>
          !(decide (p.1 < (retrieveMigratedList db).length) &&
            ((retrieveMigratedList db)[p.1]?.getD "" == p.2))) ∧
    (∃ t, (up env path db).state.sent = db.sent ++ t ∧
      t <+: applyStmts env path (unskipped (retrieveMigratedList db) 0 (fileNames files))) ∧
    (∀ d, up env path db = .done d →
      d.sent = db.sent ++
        applyStmts env path (unskipped (retrieveMigratedList db) 0 (fileNames files)) ∧
      d.ledger = db.ledger ++
        rowsOf (unskipped (retrieveMigratedList db) 0 (fileNames files))) :=
  ⟨unskipped_eq_filter _ _ 0, up_sent_unskipped env path files db hdir⟩

/-- Claim C15, witness: with the ledger `users, posts, comments` and the files
`users, tags, comments`, `up` applies `tags` only. -/
theorem up_applies_each_mismatch_witness :
    unskipped (retrieveMigratedList threeDB) 0
        (fileNames [(usersFile, false), (tagsFile, false), (commentsFile, false)])
      = [(1, tagsFile)] ∧
    up tagsEnv "migrations" threeDB = .done threeApplied ∧
    threeApplied.sent = threeDB.sent ++ applyStmts tagsEnv "migrations"
      (unskipped (retrieveMigratedList threeDB) 0
        (fileNames [(usersFile, false), (tagsFile, false), (commentsFile, false)])) :=
  ⟨by decide, by decide,
    ((up_applies_each_mismatch tagsEnv "migrations"
      [(usersFile, false), (tagsFile, false), (commentsFile, false)] threeDB (by decide)).2.2
        threeApplied (by decide)).1⟩

/-- Claim C15, counterexample: with the ledger `users, posts, comments` and the sorted files
`users, tags, comments` the first mismatch is at index 1; the claim has `tags` and `comments`
applied, and `up` returns having applied `tags` only: `comments`, at index 2, equals the ledger
entry at index 2 and is skipped. -/
theorem up_skips_later_match :
    firstMismatch (retrieveMigratedList threeDB) 0
      (fileNames [(usersFile, false), (tagsFile, false), (commentsFile, false)]) = 1 ∧
    fromFirstMismatch (retrieveMigratedList threeDB)
      (fileNames [(usersFile, false), (tagsFile, false), (commentsFile, false)])
      = [(1, tagsFile), (2, commentsFile)] ∧
    up tagsEnv "migrations" threeDB = .done threeApplied ∧
    threeApplied.sent = [.script "create table tags(id int);", .insert tagsFile 1] ∧
    threeApplied.sent ≠ threeDB.sent ++ applyStmts tagsEnv "migrations"
      (fromFirstMismatch (retrieveMigratedList threeDB)
        (fileNames [(usersFile, false), (tagsFile, false), (commentsFile, false)])) := by
  decide

theorem trimChars_head (l : List Char) (c : Char) (h : (trimChars l).head? = some c) :
    inCutset c = false := by
  have hne : trimChars l ≠ [] := by
    intro e; rw [e] at h; cases h
  have hp : trimChars l <+: l.dropWhile inCutset := List.rdropWhile_prefix inCutset _
  have hh := hp.head hne
  have hd := List.head_dropWhile_not inCutset l (hp.ne_nil hne)
  rw [List.head?_eq_head hne] at h
  injection h with h
  rw [← h, hh]
  exact hd

theorem trimChars_last (l : List Char) (c : Char) (h : (trimChars l).getLast? = some c) :
    inCutset c = false := by
  have hne : trimChars l ≠ [] := by
    intro e; rw [e] at h; cases h
  have hn := List.rdropWhile_last_not (p := inCutset) (l := l.dropWhile inCutset) hne
  rw [List.getLast?_eq_getLast _ hne] at h
  injection h with h
  rw [← h]
  simpa using hn

theorem inCutset_false_iff (c : Char) : inCutset c = false ↔ c ≠ ' ' ∧ c ≠ '\n' := by
  unfold inCutset
  simp

theorem readContent_some (content : List Char) (u d : String)
    (h : readContent content = some (u, d)) :
    (scan content).2 = false ∧
    u = ⟨trimChars ((scan content).1.foldl readLine ⟨[], [], 0⟩).up⟩ ∧
    d = ⟨trimChars ((scan content).1.foldl readLine ⟨[], [], 0⟩).down⟩ := by
  unfold readContent at h
  cases hs : (scan content).2 with
  | true => simp [hs] at h
  | false =>
    simp only [hs, Bool.false_eq_true, if_false, Option.some.injEq, Prod.mk.injEq] at h
    exact ⟨rfl, h.1.symm, h.2.symm⟩

theorem readFile_some (fs : String → Option String) (name : String) (u d : String)
    (h : readFile fs name = some (u, d)) :
    ∃ content, fs name = some content ∧ readContent content.data = some (u, d) := by
  unfold readFile at h
  cases hf : fs name with
  | none => simp [hf] at h
  | some content =>
    simp only [hf] at h
    exact ⟨content, rfl, h⟩

theorem readContent_trimmed (content : List Char) (u d : String)
    (h : readContent content = some (u, d)) :
    (∀ c, u.data.head? = some c → c ≠ ' ' ∧ c ≠ '\n') ∧
    (∀ c, u.data.getLast? = some c → c ≠ ' ' ∧ c ≠ '\n') ∧
    (∀ c, d.data.head? = some c → c ≠ ' ' ∧ c ≠ '\n') ∧
    (∀ c, d.data.getLast? = some c → c ≠ ' ' ∧ c ≠ '\n') := by
  obtain ⟨-, rfl, rfl⟩ := readContent_some content u d h
  exact ⟨fun c hc => (inCutset_false_iff c).1 (trimChars_head _ c hc),
    fun c hc => (inCutset_false_iff c).1 (trimChars_last _ c hc),
    fun c hc => (inCutset_false_iff c).1 (trimChars_head _ c hc),
    fun c hc => (inCutset_false_iff c).1 (trimChars_last _ c hc)⟩

/-- Claim C12 (amended): for every file content, neither the apply script nor the revert script
returned by `readFile` begins or ends with a space or a newline (the cutset of
`strings.Trim` is `" \n"`; a tab or a carriage return stays). -/
theorem readFile_scripts_trimmed (fs : String → Option String) (name u d : String)
    (h : readFile fs name = some (u, d)) :
    (∀ c, u.data.head? = some c → c ≠ ' ' ∧ c ≠ '\n') ∧
    (∀ c, u.data.getLast? = some c → c ≠ ' ' ∧ c ≠ '\n') ∧
    (∀ c, d.data.head? = some c → c ≠ ' ' ∧ c ≠ '\n') ∧
    (∀ c, d.data.getLast? = some c → c ≠ ' ' ∧ c ≠ '\n') := by
  obtain ⟨content, -, hc⟩ := readFile_some fs name u d h
  exact readContent_trimmed content.data u d hc

/-- Claim C12, witness: the first file of the scenario. -/
theorem readFile_scripts_trimmed_witness :
    readFile scenarioFile ("migrations/" ++ usersFile)
      = some ("create table users(id int);", "drop table users;") ∧
    (∀ c, "create table users(id int);".data.head? = some c → c ≠ ' ' ∧ c ≠ '\n') :=
  ⟨by decide,
    (readFile_scripts_trimmed scenarioFile ("migrations/" ++ usersFile)
      "create table users(id int);" "drop table users;" (by decide)).1⟩

/-- Claim C12, counterexample: a statement line that begins with a tab and ends with two carriage
returns; the apply script begins with the tab and ends with a carriage return. -/
theorem readFile_keeps_tab_and_cr :
    readFile (fun _ => some "-- migrate_up\n\tselect 1;\r\r\n") "migrations/tab.sql"
      = some ("\tselect 1;\r", "") ∧
    "\tselect 1;\r".data.head? = some '\t' ∧ "\tselect 1;\r".data.getLast? = some '\r' := by
  decide

theorem infix_of_append_sep {m x y : List Char} (hm : '\n' ∉ m)
    (h : m <:+: x ++ '\n' :: y) : m <:+: x ∨ m <:+: y := by
  obtain ⟨s, t, hst⟩ := h
  rw [List.append_assoc] at hst
  rcases List.append_eq_append_iff.1 hst with ⟨a, ha, hb⟩ | ⟨c, hc, hd⟩
  · -- x = s ++ a, m ++ t = a ++ '\n' :: y
    rcases List.append_eq_append_iff.1 hb with ⟨b, hb1, hb2⟩ | ⟨e, he1, he2⟩
    · -- a = m ++ b
      left
      exact ⟨s, b, by rw [ha, hb1, List.append_assoc]⟩
    · -- m = a ++ e, '\n' :: y = e ++ t
      cases e with
      | nil =>
        left
        refine ⟨s, [], ?_⟩
        rw [ha, he1]
        simp
      | cons z e =>
        simp only [List.cons_append, List.cons.injEq] at he2
        exfalso
        apply hm
        rw [he1, ← he2.1]
        simp
  · -- s = x ++ c, '\n' :: y = c ++ (m ++ t)
    cases c with
    | nil =>
      simp only [List.nil_append] at hd
      cases m with
      | nil => left; exact List.nil_infix
      | cons z m =>
        simp only [List.cons_append, List.cons.injEq] at hd
        exfalso
        apply hm
        rw [← hd.1]
        simp
    | cons z c =>
      simp only [List.cons_append, List.cons.injEq] at hd
      right
      exact ⟨c, t, by rw [hd.2, List.append_assoc]⟩

theorem not_infix_append_line {m up txt : List Char} (hm : '\n' ∉ m) (hne : m ≠ [])
    (hup : ¬ m <:+: up) (hc : Closed up) (htxt : ¬ m <:+: txt) :
    ¬ m <:+: up ++ txt ++ ['\n'] := by
  intro h
  rcases infix_of_append_sep hm h with h1 | h1
  · rcases hc with rfl | ⟨l', rfl⟩
    · exact htxt (by simpa using h1)
    · rw [List.append_assoc] at h1
      rcases infix_of_append_sep hm h1 with h2 | h2
      · exact hup (h2.trans ⟨[], ['\n'], by simp⟩)
      · exact htxt h2
  · exact hne (List.infix_nil.1 h1)

theorem readLine_no_marker (m : List Char) (hm : '\n' ∉ m) (hne : m ≠ [])
    (hmark : m = "migrate_up".data ∨ m = "migrate_down".data) (st : Sections) (t : List Char)
    (h : ¬ m <:+: st.up ∧ ¬ m <:+: st.down ∧ Closed st.up ∧ Closed st.down) :
    ¬ m <:+: (readLine st t).up ∧ ¬ m <:+: (readLine st t).down ∧
      Closed (readLine st t).up ∧ Closed (readLine st t).down := by
  obtain ⟨h1, h2, h3, h4⟩ := h
  unfold readLine
  simp only
  by_cases hu : hasInfix "migrate_up".data (trimChars t) = true
  · simp only [hu, if_true]
    exact ⟨h1, h2, h3, h4⟩
  · by_cases hd : hasInfix "migrate_down".data (trimChars t) = true
    · simp only [hu, hd, if_true, if_false]
      exact ⟨h1, h2, h3, h4⟩
    · have htxt : ¬ m <:+: trimChars t := by
        rcases hmark with rfl | rfl
        · rw [← hasInfix_iff]; exact hu
        · rw [← hasInfix_iff]; exact hd
      simp only [hu, hd, if_false]
      by_cases h0 : st.flg = 0
      · simp only [h0, if_true]
        exact ⟨not_infix_append_line hm hne h1 h3 htxt, h2, Or.inr ⟨_, rfl⟩, h4⟩
      · by_cases hf1 : st.flg = 1
        · simp only [h0, hf1, if_true, if_false]
          exact ⟨h1, not_infix_append_line hm hne h2 h4 htxt, h3, Or.inr ⟨_, rfl⟩⟩
        · simp only [h0, hf1, if_false]
          exact ⟨h1, h2, h3, h4⟩

theorem foldl_no_marker (m : List Char) (hm : '\n' ∉ m) (hne : m ≠ [])
    (hmark : m = "migrate_up".data ∨ m = "migrate_down".data) :
    ∀ (toks : List (List Char)) (st : Sections),
      (¬ m <:+: st.up ∧ ¬ m <:+: st.down ∧ Closed st.up ∧ Closed st.down) →
      ¬ m <:+: (toks.foldl readLine st).up ∧ ¬ m <:+: (toks.foldl readLine st).down := by
  intro toks
  induction toks with
  | nil => intro st h; exact ⟨h.1, h.2.1⟩
  | cons t toks ih =>
    intro st h
    exact ih _ (readLine_no_marker m hm hne hmark st t h)

theorem readContent_no_marker (m : List Char) (hm : '\n' ∉ m) (hne : m ≠ [])
    (hmark : m = "migrate_up".data ∨ m = "migrate_down".data) (content : List Char)
    (u d : String) (h : readContent content = some (u, d)) :
    hasInfix m u.data = false ∧ hasInfix m d.data = false := by
  obtain ⟨-, rfl, rfl⟩ := readContent_some content u d h
  obtain ⟨h1, h2⟩ := foldl_no_marker m hm hne hmark (scan content).1 ⟨[], [], 0⟩
    ⟨fun hi => hne (List.infix_nil.1 hi), fun hi => hne (List.infix_nil.1 hi),
      Or.inl rfl, Or.inl rfl⟩
  constructor
  · cases hx : hasInfix m (trimChars ((scan content).1.foldl readLine ⟨[], [], 0⟩).up) with
    | false => rfl
    | true => exact absurd (((hasInfix_iff m _).1 hx).trans (trimChars_within _)) h1
  · cases hx : hasInfix m (trimChars ((scan content).1.foldl readLine ⟨[], [], 0⟩).down) with
    | false => rfl
    | true => exact absurd (((hasInfix_iff m _).1 hx).trans (trimChars_within _)) h2

theorem readLine_both_markers (st : Sections) (t : List Char)
    (h : hasInfix "migrate_up".data (trimChars t) = true) :
    readLine st t = { st with flg := 0 } := by
  unfold readLine
  simp only [h, if_true]

/-- Claim C19: for every file content, neither script returned by `readFile` contains
`migrate_up` or `migrate_down`; a line that contains `migrate_up`, also one that contains both
markers, is dropped and selects the apply section. -/
theorem readFile_scripts_hold_no_marker (fs : String → Option String) (name u d : String)
    (h : readFile fs name = some (u, d)) :
    hasInfix "migrate_up".data u.data = false ∧ hasInfix "migrate_down".data u.data = false ∧
    hasInfix "migrate_up".data d.data = false ∧ hasInfix "migrate_down".data d.data = false ∧
    (∀ (st : Sections) (t : List Char), hasInfix "migrate_up".data (trimChars t) = true →
      readLine st t = { st with flg := 0 }) := by
  obtain ⟨content, -, hc⟩ := readFile_some fs name u d h
  have h1 := readContent_no_marker "migrate_up".data (by decide) (by decide) (Or.inl rfl)
    content.data u d hc
  have h2 := readContent_no_marker "migrate_down".data (by decide) (by decide) (Or.inr rfl)
    content.data u d hc
  exact ⟨h1.1, h2.1, h1.2, h2.2, readLine_both_markers⟩

/-- Claim C19, witness: a file with a line that holds both markers after the revert marker: the
line is dropped and the lines after it go to the apply script. -/
theorem readFile_scripts_hold_no_marker_witness :
    readFile (fun _ => some "-- migrate_down\ndrop a;\n-- migrate_down migrate_up\ncreate a;")
        "migrations/both.sql" = some ("create a;", "drop a;") ∧
    hasInfix "migrate_up".data "create a;".data = false :=
  ⟨by decide,
    (readFile_scripts_hold_no_marker
      (fun _ => some "-- migrate_down\ndrop a;\n-- migrate_down migrate_up\ncreate a;")
      "migrations/both.sql" "create a;" "drop a;" (by decide)).1⟩

theorem infix_dropWhile {p : Char → Bool} {m : List Char} (hm : ∀ c ∈ m, p c = false)
    (hne : m ≠ []) : ∀ (l : List Char), m <:+: l → m <:+: l.dropWhile p := by
  intro l
  induction l with
  | nil => intro h; exact h
  | cons a l ih =>
    intro h
    by_cases ha : p a = true
    · rw [List.dropWhile_cons_of_pos ha]
      rcases List.infix_cons_iff.1 h with h1 | h1
      · exfalso
        cases m with
        | nil => exact hne rfl
        | cons z m =>
          obtain ⟨t, ht⟩ := h1
          simp only [List.cons_append, List.cons.injEq] at ht
          have := hm z (List.mem_cons_self _ _)
          rw [ht.1, ha] at this
          cases this
      · exact ih h1
    · rw [List.dropWhile_cons_of_neg ha]
      exact h

theorem infix_trimChars {m : List Char} (hm : ∀ c ∈ m, inCutset c = false) (hne : m ≠ [])
    (l : List Char) (h : m <:+: l) : m <:+: trimChars l := by
  unfold trimChars List.rdropWhile
  rw [← List.reverse_infix, List.reverse_reverse]
  apply infix_dropWhile (fun c hc => hm c (List.mem_reverse.1 hc)) (by simpa using hne)
  rw [List.reverse_infix]
  exact infix_dropWhile hm hne l h

theorem infix_dropCR {m : List Char} (hm : '\r' ∉ m) (hne : m ≠ []) (l : List Char)
    (h : m <:+: l) : m <:+: dropCR l := by
  unfold dropCR
  split
  · rename_i hl
    obtain ⟨ys, rfl⟩ := List.getLast?_eq_some_iff.1 hl
    rw [List.dropLast_concat]
    rw [← List.reverse_infix] at h ⊢
    rw [List.reverse_append, List.reverse_singleton, List.singleton_append] at h
    rcases List.infix_cons_iff.1 h with h1 | h1
    · exfalso
      cases hr : m.reverse with
      | nil => exact hne (List.reverse_eq_nil_iff.1 hr)
      | cons z r =>
        rw [hr] at h1
        obtain ⟨t, ht⟩ := h1
        simp only [List.cons_append, List.cons.injEq] at ht
        apply hm
        rw [← List.mem_reverse, hr, ht.1]
        exact List.mem_cons_self _ _
    · exact h1
  · exact h

theorem hasInfix_text (m : List Char) (hm : ∀ c ∈ m, inCutset c = false) (hr : '\r' ∉ m)
    (hne : m ≠ []) (l : List Char) : hasInfix m (trimChars (dropCR l)) = hasInfix m l := by
  rw [Bool.eq_iff_iff, hasInfix_iff, hasInfix_iff]
  constructor
  · intro h
    exact (h.trans (trimChars_within _)).trans (dropCR_initial l).isInfix
  · intro h
    exact infix_trimChars hm hne _ (infix_dropCR hr hne l h)

theorem readLine_dropCR (st : Sections) (l : List Char) :
    readLine st (dropCR l) =
      if hasInfix "migrate_up".data l = true then { st with flg := 0 }
      else if hasInfix "migrate_down".data l = true then { st with flg := 1 }
      else if st.flg = 0 then { st with up := st.up ++ trimChars (dropCR l) ++ ['\n'] }
      else if st.flg = 1 then { st with down := st.down ++ trimChars (dropCR l) ++ ['\n'] }
      else st := by
  have hu := hasInfix_text "migrate_up".data (by decide) (by decide) (by decide) l
  have hd := hasInfix_text "migrate_down".data (by decide) (by decide) (by decide) l
  unfold readLine
  simp only [hu, hd]

theorem foldl_readLine_regions : ∀ (segs : List (List Char)) (st : Sections),
    (st.flg = 0 ∨ st.flg = 1) →
      ((segs.map dropCR).foldl readLine st).up = st.up ++
        (regionLines 0 st.flg segs).flatMap (fun l => trimChars (dropCR l) ++ ['\n']) ∧
      ((segs.map dropCR).foldl readLine st).down = st.down ++
        (regionLines 1 st.flg segs).flatMap (fun l => trimChars (dropCR l) ++ ['\n']) := by
  intro segs
  induction segs with
  | nil => intro st _; simp [regionLines]
  | cons l segs ih =>
    intro st hf
    simp only [List.map_cons, List.foldl_cons, regionLines]
    rw [readLine_dropCR]
    by_cases h1 : hasInfix "migrate_up".data l = true
    · simp only [h1, if_true]
      exact ih { st with flg := 0 } (Or.inl rfl)
    · by_cases h2 : hasInfix "migrate_down".data l = true
      · simp only [h1, h2, if_true, if_false, Bool.false_eq_true]
        exact ih { st with flg := 1 } (Or.inr rfl)
      · simp only [h1, h2, if_false, Bool.false_eq_true]
        rcases hf with hf | hf
        · simp only [hf, if_true, show ¬ ((0 : Int) = 1) by decide, if_false]
          obtain ⟨i1, i2⟩ := ih { st with up := st.up ++ trimChars (dropCR l) ++ ['\n'] }
            (Or.inl hf)
          simp only [hf] at i1 i2
          rw [i1, i2]
          simp
        · simp only [hf, if_true, show ¬ ((1 : Int) = 0) by decide, if_false]
          obtain ⟨i1, i2⟩ := ih { st with down := st.down ++ trimChars (dropCR l) ++ ['\n'] }
            (Or.inr hf)
          simp only [hf] at i1 i2
          rw [i1, i2]
          simp

theorem scan_of_no_error (content : List Char) (h : (scan content).2 = false) :
    scan content = ((splitLines content []).map dropCR, false) := by
  apply scan_of_short
  intro l hl
  unfold scan at h
  simp only at h
  rw [List.any_eq_false] at h
  have := h l hl
  simp only [decide_eq_true_eq] at this
  omega

theorem readContent_regions (content : List Char) (u d : String)
    (h : readContent content = some (u, d)) :
    u = ⟨trimChars ((regionLines 0 0 (splitLines content [])).flatMap
          (fun l => trimChars (dropCR l) ++ ['\n']))⟩ ∧
    d = ⟨trimChars ((regionLines 1 0 (splitLines content [])).flatMap
          (fun l => trimChars (dropCR l) ++ ['\n']))⟩ := by
  obtain ⟨he, rfl, rfl⟩ := readContent_some content u d h
  rw [scan_of_no_error content he]
  obtain ⟨h1, h2⟩ := foldl_readLine_regions (splitLines content []) ⟨[], [], 0⟩ (Or.inl rfl)
  simp only at h1 h2 ⊢
  rw [h1, h2]
  simp

/-- Claim C11 (amended): for every file content, `readFile` appends every line without marker,
less one trailing carriage return and less its leading and trailing spaces, followed by a
newline, to the active section: the apply (resp. revert) script is the in-order concatenation
of these texts for the lines of the apply (resp. revert) regions, less the leading and
trailing spaces and newlines of the assembled section. -/
theorem readFile_sections (fs : String → Option String) (name u d : String)
    (h : readFile fs name = some (u, d)) :
    ∃ content, fs name = some content ∧
      u = ⟨trimChars ((regionLines 0 0 (splitLines content.data [])).flatMap
            (fun l => trimChars (dropCR l) ++ ['\n']))⟩ ∧
      d = ⟨trimChars ((regionLines 1 0 (splitLines content.data [])).flatMap
            (fun l => trimChars (dropCR l) ++ ['\n']))⟩ := by
  obtain ⟨content, hf, hc⟩ := readFile_some fs name u d h
  exact ⟨content, hf, readContent_regions content.data u d hc⟩

/-- Claim C11, witness: the file with an indented line. -/
theorem readFile_sections_witness :
    readFile (fun _ => some indentedContent) "migrations/t.sql"
      = some ("create table t(\nid int\n);", "") ∧
    ∃ content, (fun _ : String => some indentedContent) "migrations/t.sql" = some content ∧
      "create table t(\nid int\n);" = (⟨trimChars ((regionLines 0 0
          (splitLines content.data [])).flatMap (fun l => trimChars (dropCR l) ++ ['\n']))⟩ : String) ∧
      "" = (⟨trimChars ((regionLines 1 0
          (splitLines content.data [])).flatMap (fun l => trimChars (dropCR l) ++ ['\n']))⟩ : String) :=
  ⟨by decide,
    readFile_sections (fun _ => some indentedContent) "migrations/t.sql"
      "create table t(\nid int\n);" "" (by decide)⟩

/-- Claim C11, counterexample: in a file with the line `  id int`, the claim has the line in the
apply script with its two leading spaces; `readFile` returns the script without them. -/
theorem readFile_strips_each_line :
    readFile (fun _ => some indentedContent) "migrations/t.sql"
      = some ("create table t(\nid int\n);", "") ∧
    verbatimSections indentedContent.data = ("create table t(\n  id int\n);", "") ∧
    readFile (fun _ => some indentedContent) "migrations/t.sql"
      ≠ some (verbatimSections indentedContent.data) := by
  decide

theorem toDigitsCore_succ (f n : Nat) (ds : List Char) :
    Nat.toDigitsCore 10 (f + 1) n ds =
      if n / 10 = 0 then Nat.digitChar (n % 10) :: ds
      else Nat.toDigitsCore 10 f (n / 10) (Nat.digitChar (n % 10) :: ds) := rfl

theorem toDigitsCore_acc : ∀ (fuel n : Nat) (ds : List Char),
    Nat.toDigitsCore 10 fuel n ds = Nat.toDigitsCore 10 fuel n [] ++ ds := by
  intro fuel
  induction fuel with
  | zero => intro n ds; simp [Nat.toDigitsCore]
  | succ f ih =>
    intro n ds
    rw [toDigitsCore_succ, toDigitsCore_succ]
    by_cases h : n / 10 = 0
    · simp [h]
    · simp only [h, if_false]
      rw [ih _ (_ :: ds), ih _ [_]]
      simp

theorem toDigitsCore_fuel : ∀ (fuel g n : Nat), g ≤ fuel → n < g →
    Nat.toDigitsCore 10 g n [] = Nat.toDigitsCore 10 (n + 1) n [] := by
  intro fuel
  induction fuel with
  | zero => intro g n h1 h2; omega
  | succ f ih =>
    intro g n hg hn
    obtain ⟨g', rfl⟩ : ∃ g', g = g' + 1 := ⟨g - 1, by omega⟩
    rw [toDigitsCore_succ, toDigitsCore_succ]
    by_cases h0 : n / 10 = 0
    · simp [h0]
    · simp only [h0, if_false]
      rw [toDigitsCore_acc g', toDigitsCore_acc n, ih g' _ (by omega) (by omega),
        ih n _ (by omega) (by omega)]

theorem toDigits_of_lt (n : Nat) (h : n < 10) : Nat.toDigits 10 n = [Nat.digitChar n] := by
  have h0 : n / 10 = 0 := by omega
  have h1 : n % 10 = n := by omega
  unfold Nat.toDigits
  rw [toDigitsCore_succ, if_pos h0, h1]

theorem toDigits_of_ge (n : Nat) (h : 10 ≤ n) :
    Nat.toDigits 10 n = Nat.toDigits 10 (n / 10) ++ [Nat.digitChar (n % 10)] := by
  have h0 : n / 10 ≠ 0 := by omega
  unfold Nat.toDigits
  rw [toDigitsCore_succ, if_neg h0, toDigitsCore_acc,
    toDigitsCore_fuel n n (n / 10) (le_refl _) (by omega)]

theorem appendInt_two (n : Nat) (h : n < 100) :
    appendInt n 2 = [Nat.digitChar (n / 10), Nat.digitChar (n % 10)] := by
  unfold appendInt
  by_cases h1 : n < 10
  · have h0 : n / 10 = 0 := by omega
    have h2 : n % 10 = n := by omega
    rw [toDigits_of_lt n h1, h0, h2]
    rfl
  · rw [toDigits_of_ge n (by omega), toDigits_of_lt (n / 10) (by omega)]
    rfl

theorem appendInt_four (n : Nat) (h : n < 10000) :
    appendInt n 4 = [Nat.digitChar (n / 1000), Nat.digitChar (n / 100 % 10),
      Nat.digitChar (n / 10 % 10), Nat.digitChar (n % 10)] := by
  unfold appendInt
  by_cases h1 : n < 10
  · have e1 : n / 1000 = 0 := by omega
    have e2 : n / 100 % 10 = 0 := by omega
    have e3 : n / 10 % 10 = 0 := by omega
    have e4 : n % 10 = n := by omega
    rw [toDigits_of_lt n h1, e1, e2, e3, e4]
    rfl
  · by_cases h2 : n < 100
    · have e1 : n / 1000 = 0 := by omega
      have e2 : n / 100 % 10 = 0 := by omega
      have e3 : n / 10 % 10 = n / 10 := by omega
      rw [toDigits_of_ge n (by omega), toDigits_of_lt (n / 10) (by omega), e1, e2, e3]
      rfl
    · by_cases h3 : n < 1000
      · have e1 : n / 1000 = 0 := by omega
        have e2 : n / 100 % 10 = n / 10 / 10 := by omega
        rw [toDigits_of_ge n (by omega), toDigits_of_ge (n / 10) (by omega),
          toDigits_of_lt (n / 10 / 10) (by omega), e1, e2]
        rfl
      · have e1 : n / 1000 = n / 10 / 10 / 10 := by omega
        have e2 : n / 100 % 10 = n / 10 / 10 % 10 := by omega
        rw [toDigits_of_ge n (by omega), toDigits_of_ge (n / 10) (by omega),
          toDigits_of_ge (n / 10 / 10) (by omega),
          toDigits_of_lt (n / 10 / 10 / 10) (by omega), e1, e2]
        rfl

theorem digitChar_toNat (d : Nat) (h : d < 10) : (Nat.digitChar d).toNat = 48 + d := by
  interval_cases d <;> rfl

theorem strLt_cons_same (c : Char) (a b : List Char) :
    strLt (c :: a) (c :: b) = strLt a b := by
  simp [strLt]

theorem strLt_append_same (x a b : List Char) : strLt (x ++ a) (x ++ b) = strLt a b := by
  induction x with
  | nil => rfl
  | cons c x ih => rw [List.cons_append, List.cons_append, strLt_cons_same, ih]

theorem strLt_append_of_lt : ∀ (a b x y : List Char), a.length = b.length →
    strLt a b = true → strLt (a ++ x) (b ++ y) = true := by
  intro a
  induction a with
  | nil =>
    intro b x y hl h
    cases b with
    | nil => simp [strLt] at h
    | cons c b => simp at hl
  | cons c a ih =>
    intro b x y hl h
    cases b with
    | nil => simp at hl
    | cons e b =>
      simp only [List.length_cons, Nat.add_right_cancel_iff] at hl
      simp only [strLt, Bool.or_eq_true, decide_eq_true_eq, Bool.and_eq_true, beq_iff_eq,
        List.cons_append] at h ⊢
      rcases h with h | ⟨h1, h2⟩
      · exact Or.inl h
      · exact Or.inr ⟨h1, ih b x y hl h2⟩

theorem strLt_two_digits (a b : Nat) (h : a < b) (hb : b < 100) :
    strLt (appendInt a 2) (appendInt b 2) = true := by
  rw [appendInt_two a (by omega), appendInt_two b hb]
  simp only [strLt, Bool.or_eq_true, decide_eq_true_eq, Bool.and_eq_true, beq_iff_eq,
    digitChar_toNat (a / 10) (by omega), digitChar_toNat (b / 10) (by omega),
    digitChar_toNat (a % 10) (by omega), digitChar_toNat (b % 10) (by omega)]
  by_cases h1 : a / 10 < b / 10
  · exact Or.inl (by omega)
  · have e : a / 10 = b / 10 := by omega
    right
    exact ⟨by rw [e], by simp; omega⟩

theorem strLt_four_digits (a b : Nat) (h : a < b) (hb : b < 10000) :
    strLt (appendInt a 4) (appendInt b 4) = true := by
  rw [appendInt_four a (by omega), appendInt_four b hb]
  simp only [strLt, Bool.or_eq_true, decide_eq_true_eq, Bool.and_eq_true, beq_iff_eq,
    digitChar_toNat (a / 1000) (by omega), digitChar_toNat (b / 1000) (by omega),
    digitChar_toNat (a / 100 % 10) (by omega), digitChar_toNat (b / 100 % 10) (by omega),
    digitChar_toNat (a / 10 % 10) (by omega), digitChar_toNat (b / 10 % 10) (by omega),
    digitChar_toNat (a % 10) (by omega), digitChar_toNat (b % 10) (by omega)]
  by_cases h1 : a / 1000 < b / 1000
  · exact Or.inl (by omega)
  · have e1 : a / 1000 = b / 1000 := by omega
    right
    refine ⟨by rw [e1], ?_⟩
    by_cases h2 : a / 100 % 10 < b / 100 % 10
    · exact Or.inl (by omega)
    · have e2 : a / 100 % 10 = b / 100 % 10 := by omega
      right
      refine ⟨by rw [e2], ?_⟩
      by_cases h3 : a / 10 % 10 < b / 10 % 10
      · exact Or.inl (by omega)
      · have e3 : a / 10 % 10 = b / 10 % 10 := by omega
        right
        exact ⟨by rw [e3], by simp; omega⟩

theorem length_appendInt_two (n : Nat) (h : n < 100) : (appendInt n 2).length = 2 := by
  rw [appendInt_two n h]; rfl

theorem length_appendInt_four (n : Nat) (h : n < 10000) : (appendInt n 4).length = 4 := by
  rw [appendInt_four n h]; rfl

theorem length_formatStamp (t : Time) (h : t.valid) : (formatStamp t).length = 19 := by
  obtain ⟨h1, h2, h3, h4, h5, h6, h7, h8⟩ := h
  unfold formatStamp
  simp only [List.length_append, List.length_cons, length_appendInt_four t.year (by omega),
    length_appendInt_two t.month (by omega), length_appendInt_two t.day (by omega),
    length_appendInt_two t.hour (by omega), length_appendInt_two t.minute (by omega),
    length_appendInt_two t.second (by omega)]

theorem strLt_formatStamp (t1 t2 : Time) (h1 : t1.valid) (h2 : t2.valid)
    (hlt : t1.before t2) : strLt (formatStamp t1) (formatStamp t2) = true := by
  obtain ⟨a1, a2, a3, a4, a5, a6, a7, a8⟩ := h1
  obtain ⟨b1, b2, b3, b4, b5, b6, b7, b8⟩ := h2
  have l2 : ∀ a b : Nat, a < 100 → b < 100 → (appendInt a 2).length = (appendInt b 2).length :=
    fun a b ha hb => by rw [length_appendInt_two a ha, length_appendInt_two b hb]
  unfold formatStamp
  rcases hlt with h | ⟨e, h⟩
  · exact strLt_append_of_lt _ _ _ _
      (by rw [length_appendInt_four _ (by omega), length_appendInt_four _ (by omega)])
      (strLt_four_digits _ _ h (by omega))
  rw [e, strLt_append_same, strLt_cons_same]
  rcases h with h | ⟨e, h⟩
  · exact strLt_append_of_lt _ _ _ _ (l2 _ _ (by omega) (by omega))
      (strLt_two_digits _ _ h (by omega))
  rw [e, strLt_append_same, strLt_cons_same]
  rcases h with h | ⟨e, h⟩
  · exact strLt_append_of_lt _ _ _ _ (l2 _ _ (by omega) (by omega))
      (strLt_two_digits _ _ h (by omega))
  rw [e, strLt_append_same, strLt_cons_same]
  rcases h with h | ⟨e, h⟩
  · exact strLt_append_of_lt _ _ _ _ (l2 _ _ (by omega) (by omega))
      (strLt_two_digits _ _ h (by omega))
  rw [e, strLt_append_same, strLt_cons_same]
  rcases h with h | ⟨e, h⟩
  · exact strLt_append_of_lt _ _ _ _ (l2 _ _ (by omega) (by omega))
      (strLt_two_digits _ _ h (by omega))
  rw [e, strLt_append_same, strLt_cons_same]
  exact strLt_two_digits _ _ h (by omega)

theorem strLt_createName (t1 t2 : Time) (n1 n2 : String) (h1 : t1.valid) (h2 : t2.valid)
    (hlt : t1.before t2) : strLt (createName t1 n1).data (createName t2 n2).data = true := by
  unfold createName
  simp only [List.append_assoc]
  exact strLt_append_of_lt _ _ _ _
    (by rw [length_formatStamp t1 h1, length_formatStamp t2 h2])
    (strLt_formatStamp t1 t2 h1 h2 hlt)

theorem sortStrings_pair (a b : String) (h : strLt a.data b.data = true) :
    sortStrings [a, b] = [a, b] ∧ sortStrings [b, a] = [a, b] := by
  have hab : strLe a b := by
    unfold strLe
    exact strLt_asymm _ _ h
  have hba : ¬ strLe b a := by
    unfold strLe
    rw [h]
    simp
  unfold sortStrings
  simp [List.insertionSort, List.orderedInsert, hab, hba]

/-- Claim C18: for two times `t1 < t2` in the years 0000 to 9999 that differ at the resolution
of one second, and any two names, the file name `create` generates at `t1` is smaller, in the
order of Go strings, than the one it generates at `t2` (the timestamp has 19 characters, every
field zero-padded); so `up`, which sorts the names, has the two files in the order of their
creation. -/
theorem create_names_in_time_order (t1 t2 : Time) (n1 n2 : String) (h1 : t1.valid)
    (h2 : t2.valid) (hlt : t1.before t2) :
    (formatStamp t1).length = 19 ∧ (formatStamp t2).length = 19 ∧
    strLt (createName t1 n1).data (createName t2 n2).data = true ∧
    (∀ path : String,
      strLt (createPath path t1 n1).data (createPath path t2 n2).data = true) ∧
    fileNames [(createName t1 n1, false), (createName t2 n2, false)]
      = [createName t1 n1, createName t2 n2] ∧
    fileNames [(createName t2 n2, false), (createName t1 n1, false)]
      = [createName t1 n1, createName t2 n2] := by
  have h := strLt_createName t1 t2 n1 n2 h1 h2 hlt
  refine ⟨length_formatStamp t1 h1, length_formatStamp t2 h2, h, ?_, ?_, ?_⟩
  · intro path
    unfold createPath
    simp only [String.data_append]
    rw [strLt_append_same]
    exact h
  · exact (sortStrings_pair _ _ h).1
  · exact (sortStrings_pair _ _ h).2

/-- Claim C18, witness: the two files of the scenario, created one day apart. -/
theorem create_names_in_time_order_witness :
    createName ⟨2024, 1, 1, 0, 0, 0⟩ "users_table" = usersFile ∧
    createName ⟨2024, 1, 2, 0, 0, 0⟩ "posts_table" = postsFile ∧
    strLt (createName ⟨2024, 1, 1, 0, 0, 0⟩ "users_table").data
      (createName ⟨2024, 1, 2, 0, 0, 0⟩ "posts_table").data = true :=
  ⟨by decide, by decide,
    (create_names_in_time_order ⟨2024, 1, 1, 0, 0, 0⟩ ⟨2024, 1, 2, 0, 0, 0⟩ "users_table"
      "posts_table" (by decide) (by decide) (by decide)).2.2.1⟩

theorem runScripts_cons (env : Env W) (q : String) (qs : List String) (w w1 : W)
    (h : env.run q w = some w1) : runScripts env (q :: qs) w = runScripts env qs w1 := by
  simp [runScripts, h]

theorem upLoop_world (env : Env W) (path : String) (saved : List String) (tx : Tx) :
    ∀ (names : List String) (i : Nat) (db d : DB W),
      upLoop env path saved tx i names db = .done d →
        runScripts env (applyScripts env path (unskipped saved i names)) db.world
          = some d.world := by
  intro names
  induction names with
  | nil =>
    intro i db d h
    simp only [upLoop, Outcome.done.injEq] at h
    subst h
    simp [unskipped, applyScripts, runScripts]
  | cons name rest ih =>
    intro i db d h
    unfold upLoop at h
    unfold unskipped
    by_cases hc : (decide (i < saved.length) && (saved[i]?.getD "" == name)) = true
    · simp only [hc, if_true] at h ⊢
      exact ih _ _ _ h
    · simp only [hc] at h ⊢
      cases hr : readFile env.file (path ++ "/" ++ name) with
      | none => simp [hr] at h
      | some ud =>
        obtain ⟨u, dn⟩ := ud
        simp only [hr] at h
        cases he : exec env u db with
        | err d1 => simp [he] at h
        | ok d1 =>
          simp only [he] at h
          cases ha : addMigration name i d1 with
          | err d2 => simp [ha] at h
          | ok d2 =>
            simp only [ha] at h
            have hw := ih _ _ _ h
            obtain ⟨w, hrun, rfl⟩ := (exec_ok_iff _ _ _ _).1 he
            obtain ⟨-, rfl⟩ := (addMigration_ok_iff _ _ _ _).1 ha
            have hu : applyScript env path name = u := by simp [applyScript, hr]
            simp only [if_false, Bool.false_eq_true, applyScripts, List.map_cons, hu]
            rw [runScripts_cons env u _ _ w hrun]
            exact hw

theorem upLoop_outcome (env : Env W) (path : String) (saved : List String) (tx : Tx) :
    ∀ (names : List String) (i : Nat) (db : DB W),
      (∀ p ∈ unskipped saved i names, ∀ e ∈ db.ledger, e.name ≠ p.2) →
      ((unskipped saved i names).map (·.2)).Nodup →
      ∃ j t, AppliedUpTo env path (unskipped saved i names) db
        (upLoop env path saved tx i names db) j t := by
  intro names
  induction names with
  | nil =>
    intro i db _ _
    refine ⟨0, [], ?_⟩
    simp [AppliedUpTo, unskipped, upLoop, Outcome.state, rowsOf, applyScripts, applyStmts,
      runScripts, Readable]
  | cons name rest ih =>
    intro i db hfresh hnodup
    unfold upLoop
    unfold unskipped at hfresh hnodup ⊢
    by_cases hc : (decide (i < saved.length) && (saved[i]?.getD "" == name)) = true
    · simp only [hc, if_true] at hfresh hnodup ⊢
      exact ih _ _ hfresh hnodup
    · simp only [hc, if_false, Bool.false_eq_true] at hfresh hnodup ⊢
      cases hf : readFile env.file (path ++ "/" ++ name) with
      | none =>
        refine ⟨0, [], ?_⟩
        simp [AppliedUpTo, Outcome.state, rowsOf, applyScripts, applyStmts, runScripts, Readable,
          hf]
      | some ud =>
        obtain ⟨u, dn⟩ := ud
        have hu : applyScript env path name = u := by simp [applyScript, hf]
        cases hw : env.run u db.world with
        | none =>
          refine ⟨0, [.script u], ?_⟩
          simp [AppliedUpTo, exec, hw, Outcome.state, rowsOf, applyScripts, applyStmts,
            runScripts, Readable, hu]
        | some w =>
          have he : exec env u db
              = .ok { db with world := w, sent := db.sent ++ [.script u] } := by
            simp [exec, hw]
          simp only [he]
          have hnew : ∀ e ∈ db.ledger, e.name ≠ name :=
            fun e he => hfresh (i, name) (List.mem_cons_self _ _) e he
          have ha := (addMigration_ok_iff name (i : Int)
            { db with world := w, sent := db.sent ++ [.script u] } _).2 ⟨hnew, rfl⟩
          simp only [ha]
          simp only [List.map_cons, List.nodup_cons] at hnodup
          obtain ⟨j, t, hj, hread, hl, hwd, hs, hcase⟩ := ih (i + 1)
            { ledger := db.ledger ++ [⟨name, (i : Int)⟩], world := w,
              sent := db.sent ++ [.script u] ++ [.insert name (i : Int)] }
            (by
              intro p hp e he
              simp only [List.mem_append, List.mem_singleton] at he
              rcases he with he | rfl
              · exact hfresh p (List.mem_cons_of_mem _ hp) e he
              · intro h
                have hnp : name = p.2 := h
                exact hnodup.1 (by rw [hnp]; exact List.mem_map_of_mem (·.2) hp))
            hnodup.2
          refine ⟨j + 1, t, by simp; omega, ?_, ?_, ?_, ?_, ?_⟩
          · intro n hn
            simp only [List.take_succ_cons, List.map_cons, List.mem_cons] at hn
            rcases hn with rfl | hn
            · simp [hf]
            · exact hread n hn
          · rw [hl]
            simp [rowsOf]
          · simp only [List.take_succ_cons, applyScripts, List.map_cons, hu]
            rw [runScripts_cons env u _ _ w hw]
            exact hwd
          · rw [hs]
            simp [applyStmts, hu]
          · simpa using hcase

theorem reverted_pos (steps : Int) (n : Nat) (k : Int) : 0 < reverted steps (n + 1) k := by
  unfold reverted
  split_ifs <;> omega

theorem filter_outside_self (l : List Entry) (n : Nat) : l.filter (outside n n) = l := by
  rw [List.filter_eq_self]
  intro e _
  simp only [outside, Bool.or_eq_true, decide_eq_true_eq]
  omega

theorem filter_outside_last (l : List Entry) (n : Nat) :
    l.filter (fun e => decide (e.priority ≠ (n : Int))) = l.filter (outside n (n + 1)) := by
  apply List.filter_congr
  intro e _
  simp only [outside, ne_eq, decide_not]
  rw [Bool.eq_iff_iff]
  simp only [Bool.not_eq_true', decide_eq_false_iff_not, Bool.or_eq_true, decide_eq_true_eq]
  push_cast
  omega

theorem rollbackLoop_outcome (env : Env W) (path : String) (saved : List String) (tx : Tx)
    (steps : Int) :
    ∀ (n : Nat) (k : Int) (db : DB W),
      ∃ j t, RevertedUpTo env path saved n (reverted steps n k) db
        (rollbackLoop env path saved tx steps n k db) j t := by
  intro n
  induction n with
  | zero =>
    intro k db
    refine ⟨0, [], ?_⟩
    have h0 : reverted steps 0 k = 0 := Nat.le_zero.1 (reverted_le steps 0 k)
    simp [RevertedUpTo, rollbackLoop, Outcome.state, h0, filter_outside_self, loopScripts,
      loopStmts, runScripts]
  | succ n ih =>
    intro k db
    unfold rollbackLoop
    simp only
    have hpos := reverted_pos steps n k
    cases hf : readFile env.file (path ++ "/" ++ saved[n]?.getD "") with
    | none =>
      refine ⟨0, [], ?_⟩
      simp [RevertedUpTo, Outcome.state, filter_outside_self, loopScripts, loopStmts,
        runScripts, hf, hpos]
    | some ud =>
      obtain ⟨u, dn⟩ := ud
      have hu : revertScript env path (saved[n]?.getD "") = dn := by simp [revertScript, hf]
      cases hw : env.run dn db.world with
      | none =>
        refine ⟨0, [.script dn], ?_⟩
        simp [RevertedUpTo, exec, hw, Outcome.state, filter_outside_self, loopScripts,
          loopStmts, runScripts, hu, hpos]
      | some w =>
        have he : exec env dn db
            = .ok { db with world := w, sent := db.sent ++ [.script dn] } := by
          simp [exec, hw]
        simp only [he, removeMigration_eq]
        by_cases hk : k + 1 = steps
        · simp only [hk, if_true]
          refine ⟨1, [], ?_⟩
          have h1 : reverted steps (n + 1) k = 1 := reverted_last steps n k hk
          rw [h1]
          refine ⟨le_refl _, ?_, ?_, ?_, Or.inl ⟨rfl, rfl, rfl⟩⟩
          · simp only [Outcome.state, Nat.add_sub_cancel]
            exact filter_outside_last _ _
          · simp only [countdown, countdown_zero, loopScripts, List.map_cons, List.map_nil, hu,
              Outcome.state]
            rw [runScripts_cons env dn _ _ w hw]
            rfl
          · simp [Outcome.state, countdown, loopStmts, hu]
        · simp only [hk, if_false]
          obtain ⟨j, t, hj, hl, hwd, hs, hcase⟩ := ih (k + 1)
            { ledger := db.ledger.filter (fun e => decide (e.priority ≠ (n : Int))), world := w,
              sent := db.sent ++ [.script dn] ++ [.delete (n : Int)] }
          have hr := reverted_succ steps n k hk
          have hle := reverted_le steps n (k + 1)
          refine ⟨j + 1, t, by omega, ?_, ?_, ?_, ?_⟩
          · rw [hl]
            simp only
            rw [filter_outside_step _ _ _ (Nat.sub_le _ _)]
            have he : n + 1 - (j + 1) = n - j := by omega
            rw [he]
          · simp only [countdown, loopScripts, List.map_cons, hu]
            rw [runScripts_cons env dn _ _ w hw]
            exact hwd
          · rw [hs]
            simp [countdown, loopStmts, hu]
          · have hi : n + 1 - 1 - (j + 1) = n - 1 - j := by omega
            rw [hi, hr]
            rcases hcase with ⟨h1, h2, h3⟩ | ⟨h1, h2⟩ | ⟨h1, h2⟩
            · exact Or.inl ⟨by omega, h2, h3⟩
            · exact Or.inr (Or.inl ⟨by omega, h2⟩)
            · exact Or.inr (Or.inr ⟨by omega, h2⟩)

theorem up_eq_upLoop (env : Env W) (path : String) (files : List (String × Bool)) (db : DB W)
    (hdir : env.readDir path = some files) :
    up env path db = upLoop env path (retrieveMigratedList db) Begin 0 (fileNames files) db := by
  unfold up
  simp only [createMigrationTable_eq, hdir]
  cases upLoop env path (retrieveMigratedList db) Begin 0 (fileNames files) db <;>
    simp [Tx.Commit, Begin]

theorem down_eq_rollbackLoop (env : Env W) (path : String) (db : DB W) :
    down env path db = rollbackLoop env path (retrieveMigratedList db) Begin 0
      db.ledger.length 0 db := by
  rw [rollbackLoop_eq_downLoop env path _ Begin 0 _ 0 db (le_refl _)]
  unfold down
  simp only [createMigrationTable_eq, length_retrieve]
  cases downLoop env path (retrieveMigratedList db) Begin db.ledger.length db <;>
    simp [Tx.Commit, Begin]

theorem loopScripts_eq_revertScripts (env : Env W) (path : String) (s : List Entry)
    (h : s.map (·.priority) = (List.range s.length).map Int.ofNat) (r : Nat) :
    loopScripts env path (s.map (·.name)) (countdown s.length r)
      = revertScripts env path (s.reverse.take r) := by
  have hs := dense_sorted_eq s h
  rw [countdown_eq]
  conv_rhs => rw [← hs]
  rw [← List.map_reverse, ← List.map_take]
  simp only [loopScripts, revertScripts, List.map_map]
  rfl

theorem reverse_getElem?_name (s : List Entry) (j : Nat) (hj : j < s.length) :
    ∃ e, s.reverse[j]? = some e ∧ (s.map (·.name))[s.length - 1 - j]?.getD "" = e.name := by
  refine ⟨s[s.length - 1 - j], ?_, ?_⟩
  · rw [List.getElem?_reverse hj, List.getElem?_eq_getElem (by omega)]
  · rw [List.getElem?_map, List.getElem?_eq_getElem (by omega)]
    rfl

theorem down_outcome_dense (env : Env W) (path : String) (db : DB W)
    (hdense : Dense db.ledger) :
    ∃ o j t, down env path db = o ∧ j ≤ db.ledger.length ∧
      o.state.ledger
        = db.ledger.filter (fun e => decide (e.priority < ((db.ledger.length - j : Nat) : Int))) ∧
      runScripts env (revertScripts env path ((byPriority db.ledger).reverse.take j)) db.world
        = some o.state.world ∧
      o.state.sent
        = db.sent ++ revertStmts env path ((byPriority db.ledger).reverse.take j) ++ t ∧
      ((j = db.ledger.length ∧ t = [] ∧ o = .done o.state) ∨
       (∃ e, (byPriority db.ledger).reverse[j]? = some e ∧
          readFile env.file (path ++ "/" ++ e.name) = none ∧ t = [] ∧ o = .fatal o.state) ∨
       (∃ e, (byPriority db.ledger).reverse[j]? = some e ∧
          t = [.script (revertScript env path e.name)] ∧
          env.run (revertScript env path e.name) o.state.world = none ∧
          o = .fatal o.state)) := by
  have hp : (byPriority db.ledger).map (·.priority)
      = (List.range (byPriority db.ledger).length).map Int.ofNat := by
    rw [length_byPriority]
    exact hdense.priorities
  obtain ⟨j, t, hj, hl, hw, hs, hcase⟩ := rollbackLoop_outcome env path
    (retrieveMigratedList db) Begin 0 db.ledger.length 0 db
  have hr : reverted 0 db.ledger.length 0 = db.ledger.length := by simp [reverted]
  rw [hr] at hj hcase
  rw [← down_eq_rollbackLoop] at hl hw hs hcase
  have hsc := loopScripts_eq_revertScripts env path (byPriority db.ledger) hp j
  have hst := loopStmts_eq_revertStmts env path (byPriority db.ledger) hp j
  rw [length_byPriority] at hsc hst
  rw [retrieveMigratedList, hsc] at hw
  rw [retrieveMigratedList, hst] at hs
  rw [filter_outside_dense hdense] at hl
  refine ⟨down env path db, j, t, rfl, hj, hl, hw, hs, ?_⟩
  rcases hcase with h | ⟨h1, h2, h3⟩ | ⟨h1, h2, h3⟩
  · exact Or.inl h
  · obtain ⟨e, he, hn⟩ := reverse_getElem?_name (byPriority db.ledger) j
      (by rw [length_byPriority]; exact h1)
    rw [length_byPriority] at hn
    rw [retrieveMigratedList, hn] at h2
    exact Or.inr (Or.inl ⟨e, he, h2, h3⟩)
  · obtain ⟨e, he, hn⟩ := reverse_getElem?_name (byPriority db.ledger) j
      (by rw [length_byPriority]; exact h1)
    rw [length_byPriority] at hn
    rw [retrieveMigratedList, hn] at h2 h3
    exact Or.inr (Or.inr ⟨e, he, h2, h3⟩)

theorem down_world_dense (env : Env W) (path : String) (db d : DB W)
    (hdense : Dense db.ledger) (hok : down env path db = .done d) :
    runScripts env (revertScripts env path (byPriority db.ledger).reverse) db.world
      = some d.world := by
  obtain ⟨o, j, t, ho, hj, -, hw, -, hcase⟩ := down_outcome_dense env path db hdense
  rw [hok] at ho
  subst ho
  rcases hcase with ⟨h1, -, -⟩ | ⟨e, -, -, -, h⟩ | ⟨e, -, -, -, h⟩
  · rw [h1, List.take_of_length_le (by simp [length_byPriority])] at hw
    exact hw
  · cases h
  · cases h

theorem take_enumFrom {α : Type} : ∀ (l : List α) (i j : Nat),
    (l.enumFrom i).take j = (l.take j).enumFrom i := by
  intro l
  induction l with
  | nil => intro i j; simp
  | cons a l ih =>
    intro i j
    cases j with
    | zero => simp
    | succ j => simp [List.enumFrom_cons, ih]

theorem fresh_of_rows (db : DB W) (names : List String) (hnd : names.Nodup)
    (hrows : byPriority db.ledger = rowsOf ((names.take db.ledger.length).enum)) :
    ∀ p ∈ (names.drop db.ledger.length).enumFrom db.ledger.length,
      ∀ e ∈ db.ledger, e.name ≠ p.2 := by
  intro p hp e he hn
  have h1 : e.name ∈ names.take db.ledger.length := by
    have he' : e ∈ byPriority db.ledger := mem_byPriority.2 he
    rw [hrows] at he'
    have := List.mem_map_of_mem (·.name) he'
    rwa [List.enum, rowsOf_map_name] at this
  have h2 : p.2 ∈ names.drop db.ledger.length := List.snd_mem_of_mem_enumFrom hp
  rw [← List.take_append_drop db.ledger.length names, List.nodup_append] at hnd
  exact hnd.2.2 h1 (hn ▸ h2)

theorem appliedUpTo_done (env : Env W) (path : String) (ps : List (Nat × String)) (db : DB W)
    (o : Outcome (DB W)) (j : Nat) (t : List Stmt) (h : AppliedUpTo env path ps db o j t)
    (hread : Readable env path (ps.map (·.2)))
    (hrun : ScriptsRun env (applyScripts env path ps)) :
    j = ps.length ∧ t = [] ∧ o = .done o.state := by
  obtain ⟨-, -, -, -, -, hcase⟩ := h
  rcases hcase with h | ⟨p, hp, hf, -⟩ | ⟨p, hp, -, hf, -⟩
  · exact h
  · have := hread p.2 (List.mem_map_of_mem (·.2) (List.getElem?_mem hp))
    simp [hf] at this
  · have := hrun (applyScript env path p.2)
      (List.mem_map_of_mem (fun p => applyScript env path p.2) (List.getElem?_mem hp)) o.state.world
    simp [hf] at this

theorem up_outcome_of_rows (env : Env W) (path : String) (files : List (String × Bool))
    (db : DB W) (hdir : env.readDir path = some files)
    (hrows : byPriority db.ledger = rowsOf (((fileNames files).take db.ledger.length).enum))
    (hnd : (fileNames files).Nodup) :
    ∃ j t, AppliedUpTo env path
      (((fileNames files).drop db.ledger.length).enumFrom db.ledger.length) db
      (up env path db) j t := by
  obtain ⟨hsaved, hlen⟩ := retrieve_of_rows db _ hrows
  have hu := unskipped_of_agree _ _ (agree_take (fileNames files) db.ledger.length)
  simp only [List.length_take, Nat.min_eq_left hlen] at hu
  have h := upLoop_outcome env path ((fileNames files).take db.ledger.length) Begin
    (fileNames files) 0 db
  rw [hu] at h
  rw [up_eq_upLoop env path files db hdir, hsaved]
  apply h (fresh_of_rows db _ hnd hrows)
  rw [List.enumFrom_map_snd]
  exact hnd.sublist (List.drop_sublist _ _)

theorem down_returns_dense (env : Env W) (path : String) (db : DB W)
    (hdense : Dense db.ledger) (hread : Readable env path (retrieveMigratedList db))
    (hrun : ScriptsRun env (revertScripts env path db.ledger)) :
    ∃ d, down env path db = .done d := by
  obtain ⟨o, j, t, ho, -, -, -, -, hcase⟩ := down_outcome_dense env path db hdense
  have hmem : ∀ e, (byPriority db.ledger).reverse[j]? = some e → e ∈ db.ledger := by
    intro e he
    exact mem_byPriority.1 (List.mem_reverse.1 (List.getElem?_mem he))
  rcases hcase with ⟨-, -, h⟩ | ⟨e, he, hf, -⟩ | ⟨e, he, -, hf, -⟩
  · exact ⟨o.state, ho.trans h⟩
  · have := hread e.name (List.mem_map_of_mem (·.name) (mem_byPriority.2 (hmem e he)))
    simp [hf] at this
  · have := hrun (revertScript env path e.name)
      (List.mem_map_of_mem (fun e => revertScript env path e.name) (hmem e he)) o.state.world
    simp [hf] at this

/-- Claim C2: when the ledger holds `(pending[i], i)` for the first `len(applied)` sorted file
names, with `rest` the files `pending[len(applied)..]` and their indices: a successful `up`
sends, for each file of `rest` in ascending order, its apply script and then its insert, and
nothing for the files before them; the scripts ran on the database one after the other, each
succeeding; and the ledger is left as `(pending[i], i)` for every `i < len(pending)`. When the
file names are distinct, every `up`, returning or not, has read, run and inserted the first `j`
files of `rest` and no other, and either returns with `j` all of them, or ends in `log.Fatal`
at the file `rest[j]`, which could not be read or whose apply script, the last statement sent,
the database rejected; and `up` returns when the files of `rest` can be read and their apply
scripts succeed. -/
theorem up_applies_pending_suffix (env : Env W) (path : String) (files : List (String × Bool))
    (db : DB W) (hdir : env.readDir path = some files)
    (hrows : byPriority db.ledger = rowsOf (((fileNames files).take db.ledger.length).enum)) :
    (fileNames files).Sorted strLe ∧
    (∀ d, up env path db = .done d →
      d.sent = db.sent ++ applyStmts env path
        (((fileNames files).drop db.ledger.length).enumFrom db.ledger.length) ∧
      runScripts env (applyScripts env path
        (((fileNames files).drop db.ledger.length).enumFrom db.ledger.length)) db.world
        = some d.world ∧
      byPriority d.ledger = rowsOf (fileNames files).enum) ∧
    ((fileNames files).Nodup →
      (∃ j t, AppliedUpTo env path
        (((fileNames files).drop db.ledger.length).enumFrom db.ledger.length) db
        (up env path db) j t) ∧
      (Readable env path ((fileNames files).drop db.ledger.length) →
        ScriptsRun env (applyScripts env path
          (((fileNames files).drop db.ledger.length).enumFrom db.ledger.length)) →
        ∃ d, up env path db = .done d)) := by
  refine ⟨sorted_fileNames files, ?_, ?_⟩
  · intro d hok
    obtain ⟨hsaved, hlen⟩ := retrieve_of_rows db _ hrows
    rw [up_done_iff env path files db d hdir, hsaved] at hok
    obtain ⟨hl, hs⟩ := upLoop_done _ _ _ _ _ _ _ _ hok
    have hw := upLoop_world _ _ _ _ _ _ _ _ hok
    have hu := unskipped_of_agree _ _ (agree_take (fileNames files) db.ledger.length)
    simp only [List.length_take, Nat.min_eq_left hlen] at hu
    rw [hu] at hl hs hw
    refine ⟨hs, hw, ?_⟩
    rw [hl, byPriority_append_rows, hrows]
    · exact rowsOf_take_drop _ _ hlen
    intro e he
    have he' : e ∈ byPriority db.ledger := mem_byPriority.2 he
    rw [hrows] at he'
    have := (mem_rowsOf_enumFrom he').2
    simp only [List.length_take] at this
    omega
  · intro hnd
    obtain ⟨j, t, h⟩ := up_outcome_of_rows env path files db hdir hrows hnd
    refine ⟨⟨j, t, h⟩, fun hread hrun => ?_⟩
    have := appliedUpTo_done env path _ db _ j t h
      (by rw [List.enumFrom_map_snd]; exact hread) hrun
    exact ⟨_, this.2.2⟩

/-- Claim C2, witness: on the database of tables with `users` applied and recorded at
position 0, `up` sends the apply script of `posts` and its insert at position 1 and nothing
for `users`, whose table exists; when the table of `posts` exists as well, the database
rejects that script and `up` ends in `log.Fatal` with no insert sent. -/
theorem up_applies_pending_suffix_witness :
    up tableEnv "migrations" usersApplied = .done postsApplied ∧
    postsApplied.sent = [.script "create table posts(id int);", .insert postsFile 1] ∧
    runScripts tableEnv ["create table posts(id int);"] usersApplied.world
      = some postsApplied.world ∧
    byPriority postsApplied.ledger = [⟨usersFile, 0⟩, ⟨postsFile, 1⟩] ∧
    up tableEnv "migrations" ⟨[⟨usersFile, 0⟩], ["users", "posts"], []⟩
      = .fatal ⟨[⟨usersFile, 0⟩], ["users", "posts"],
          [.script "create table posts(id int);"]⟩ :=
  have hup : up tableEnv "migrations" usersApplied = .done postsApplied := by decide
  have h := (up_applies_pending_suffix tableEnv "migrations" scenarioDir usersApplied
    (by decide) (by decide)).2.1 postsApplied hup
  ⟨hup, h.1.trans (by decide),
    (congrArg (fun qs => runScripts tableEnv qs usersApplied.world)
      (by decide : ["create table posts(id int);"] = applyScripts tableEnv "migrations"
        (((fileNames scenarioDir).drop usersApplied.ledger.length).enumFrom
          usersApplied.ledger.length))).trans h.2.1,
    h.2.2.trans (by decide), by decide⟩

/-- Claim C8: on a ledger with the priorities `0, .., N - 1`: a successful `down` sends, for the
ledger rows in descending order of priority (`N - 1` first, `0` last), the revert script of the
row and right after it the delete of its priority; the revert scripts ran on the database one
after the other in that order, each succeeding; and the ledger ends empty. Every `down`,
returning or not, has run the revert scripts of the `j` rows of highest priority, each
succeeding, and deleted exactly those rows, each right after its script; it either returns
with `j = N`, or ends in `log.Fatal` at the next row, whose file could not be read or whose
revert script, the last statement sent, the database rejected, and that row is not deleted. -/
theorem down_reverts_descending (env : Env W) (path : String) (db : DB W)
    (hdense : Dense db.ledger) :
    (byPriority db.ledger).map (·.priority) = (List.range db.ledger.length).map Int.ofNat ∧
    (∀ d, down env path db = .done d →
      d.sent = db.sent ++ revertStmts env path (byPriority db.ledger).reverse ∧
      runScripts env (revertScripts env path (byPriority db.ledger).reverse) db.world
        = some d.world ∧
      d.ledger = []) ∧
    (∃ o j t, down env path db = o ∧ j ≤ db.ledger.length ∧
      o.state.ledger
        = db.ledger.filter (fun e => decide (e.priority < ((db.ledger.length - j : Nat) : Int))) ∧
      runScripts env (revertScripts env path ((byPriority db.ledger).reverse.take j)) db.world
        = some o.state.world ∧
      o.state.sent
        = db.sent ++ revertStmts env path ((byPriority db.ledger).reverse.take j) ++ t ∧
      ((j = db.ledger.length ∧ t = [] ∧ o = .done o.state) ∨
       (∃ e, (byPriority db.ledger).reverse[j]? = some e ∧
          readFile env.file (path ++ "/" ++ e.name) = none ∧ t = [] ∧ o = .fatal o.state) ∨
       (∃ e, (byPriority db.ledger).reverse[j]? = some e ∧
          t = [.script (revertScript env path e.name)] ∧
          env.run (revertScript env path e.name) o.state.world = none ∧
          o = .fatal o.state))) :=
  ⟨hdense.priorities,
    fun d hok => ⟨(down_done_dense env path db d hdense hok).2.1,
      down_world_dense env path db d hdense hok,
      (down_done_dense env path db d hdense hok).2.2⟩,
    down_outcome_dense env path db hdense⟩

/-- Claim C8, witness: `down` on the database of tables with the ledger of the scenario drops
`posts`, then `users`, and leaves no table and no row; when the table of `users` is missing,
the database rejects its revert script and `down` ends in `log.Fatal` with the row of `users`
still in the ledger. -/
theorem down_reverts_descending_witness :
    Dense scenarioLedger ∧
    down tableEnv "migrations" tablesLedger = .done tablesDropped ∧
    tablesDropped.sent = [.script "drop table posts;", .delete 1,
      .script "drop table users;", .delete 0] ∧
    runScripts tableEnv ["drop table posts;", "drop table users;"] tablesLedger.world
      = some tablesDropped.world ∧
    tablesDropped.ledger = [] ∧
    down tableEnv "migrations" ⟨scenarioLedger, ["posts"], []⟩
      = .fatal ⟨[⟨usersFile, 0⟩], [],
          [.script "drop table posts;", .delete 1, .script "drop table users;"]⟩ :=
  have hd : Dense scenarioLedger := List.Perm.refl _
  have hdown : down tableEnv "migrations" tablesLedger = .done tablesDropped := by decide
  have h := (down_reverts_descending tableEnv "migrations" tablesLedger hd).2.1
    tablesDropped hdown
  ⟨hd, hdown, h.1.trans (by decide),
    (congrArg (fun qs => runScripts tableEnv qs tablesLedger.world)
      (by decide : ["drop table posts;", "drop table users;"]
        = revertScripts tableEnv "migrations" (byPriority tablesLedger.ledger).reverse)).trans
      h.2.1,
    h.2.2, by decide⟩

/-- Claim C6: for a directory of files with distinct names and from the empty ledger, when `up`
returns and the following `down` returns (so every script they ran succeeded): `up` has run
the apply script of every file, in the order of the sorted names, and left the rows
`(names[i], i)`, whose names are distinct; `down` has run the revert script of every one of
these rows, once each, in descending order of priority, and left the ledger empty. Whatever
the outcome of `up`, it has applied the first `j` sorted files and no other, and a `down` that
returns after it has run the revert scripts of exactly these `j` rows and left the ledger
empty. Both return when `readFile` can read every file and the apply and revert scripts of the
files succeed. -/
theorem up_then_down_empties (env : Env W) (path : String) (files : List (String × Bool))
    (db : DB W) (hdir : env.readDir path = some files)
    (hnodup : ((files.filter (fun f => !f.2)).map (·.1)).Nodup) (hempty : db.ledger = []) :
    (∀ d1 d2, up env path db = .done d1 → down env path d1 = .done d2 →
      d1.ledger = rowsOf (fileNames files).enum ∧
      (d1.ledger.map (·.name)).Nodup ∧
      d1.sent = db.sent ++ applyStmts env path (fileNames files).enum ∧
      runScripts env (applyScripts env path (fileNames files).enum) db.world = some d1.world ∧
      d2.ledger = [] ∧
      d2.sent = d1.sent ++ revertStmts env path (rowsOf (fileNames files).enum).reverse ∧
      runScripts env (revertScripts env path (rowsOf (fileNames files).enum).reverse) d1.world
        = some d2.world) ∧
    (∃ j t, AppliedUpTo env path (fileNames files).enum db (up env path db) j t ∧
      ∀ d2, down env path (up env path db).state = .done d2 →
        d2.ledger = [] ∧
        d2.sent = (up env path db).state.sent ++
          revertStmts env path (rowsOf ((fileNames files).enum.take j)).reverse ∧
        runScripts env (revertScripts env path (rowsOf ((fileNames files).enum.take j)).reverse)
          (up env path db).state.world = some d2.world) ∧
    (Readable env path (fileNames files) →
      ScriptsRun env (applyScripts env path (fileNames files).enum) →
      ScriptsRun env (revertScripts env path (rowsOf (fileNames files).enum)) →
      ∃ d1 d2, up env path db = .done d1 ∧ down env path d1 = .done d2) := by
  have hnd : (fileNames files).Nodup := (perm_fileNames files).nodup_iff.2 hnodup
  have hrows : byPriority db.ledger
      = rowsOf (((fileNames files).take db.ledger.length).enum) := by
    simp [hempty, byPriority, rowsOf]
  obtain ⟨j, t, hout⟩ := up_outcome_of_rows env path files db hdir hrows hnd
  simp only [hempty, List.length_nil, List.drop_zero] at hout
  have hafter : ∀ (d1 : DB W) (names : List String), d1.ledger = rowsOf names.enum →
      ∀ d2, down env path d1 = .done d2 →
        d2.ledger = [] ∧
        d2.sent = d1.sent ++ revertStmts env path (rowsOf names.enum).reverse ∧
        runScripts env (revertScripts env path (rowsOf names.enum).reverse) d1.world
          = some d2.world := by
    intro d1 names hl d2 hdown
    have hd1 : Dense d1.ledger := by rw [hl]; exact dense_rows _
    obtain ⟨-, hs2, hl2⟩ := down_done_dense env path d1 d2 hd1 hdown
    have hw2 := down_world_dense env path d1 d2 hd1 hdown
    rw [hl, List.enum, byPriority_rowsOf_enumFrom] at hs2 hw2
    exact ⟨hl2, hs2, hw2⟩
  refine ⟨?_, ⟨j, t, hout, ?_⟩, ?_⟩
  · intro d1 d2 hup hdown
    obtain ⟨j1, t1, h1⟩ : ∃ j1 t1, AppliedUpTo env path (fileNames files).enum db
        (.done d1) j1 t1 := ⟨j, t, hup ▸ hout⟩
    obtain ⟨-, -, hl, hw, hs, hcase⟩ := h1
    have hj : j1 = (fileNames files).enum.length ∧ t1 = [] := by
      rcases hcase with ⟨h1, h2, -⟩ | ⟨p, -, -, -, h⟩ | ⟨p, -, -, -, h⟩
      · exact ⟨h1, h2⟩
      · cases h
      · cases h
    obtain ⟨rfl, rfl⟩ := hj
    simp only [Outcome.state, hempty, List.nil_append, List.take_length,
      List.append_nil] at hl hw hs
    obtain ⟨h2l, h2s, h2w⟩ := hafter d1 _ hl d2 hdown
    refine ⟨hl, ?_, hs, hw, h2l, h2s, h2w⟩
    rw [hl, List.enum, rowsOf_map_name]
    exact hnd
  · intro d2 hdown
    have hl := hout.2.2.1
    rw [hempty, List.nil_append, take_enumFrom] at hl
    have := hafter _ _ hl d2 hdown
    rw [List.enum, take_enumFrom]
    exact this
  · intro hread hrunA hrunR
    obtain ⟨hj, -, ho⟩ := appliedUpTo_done env path _ db _ j t hout
      (by rw [List.enumFrom_map_snd]; exact hread) hrunA
    have hl := hout.2.2.1
    rw [hempty, List.nil_append, hj, List.take_length] at hl
    obtain ⟨d2, h2⟩ := down_returns_dense env path (up env path db).state
      (by rw [hl]; exact dense_rows _)
      (by rw [retrieve_rows _ _ hl]; exact hread)
      (by rw [hl]; exact hrunR)
    exact ⟨_, d2, ho, h2⟩

/-- Claim C6, witness: `up` and then `down` in the scenario on the database of tables, which
rejects a script whenever the table is not in the state the script needs: the two tables are
created in the order of the file names and dropped in the reverse order, and no row is
left. -/
theorem up_then_down_empties_witness :
    ((scenarioDir.filter (fun f => !f.2)).map (·.1)).Nodup ∧
    up tableEnv "migrations" ⟨[], [], []⟩ = .done tablesApplied ∧
    down tableEnv "migrations" tablesApplied = .done tablesReverted ∧
    tablesApplied.ledger = [⟨usersFile, 0⟩, ⟨postsFile, 1⟩] ∧
    runScripts tableEnv ["create table users(id int);", "create table posts(id int);"] []
      = some tablesApplied.world ∧
    tablesReverted.ledger = [] ∧
    tablesReverted.sent = tablesApplied.sent ++
      [.script "drop table posts;", .delete 1, .script "drop table users;", .delete 0] ∧
    runScripts tableEnv ["drop table posts;", "drop table users;"] tablesApplied.world
      = some tablesReverted.world :=
  have hup : up tableEnv "migrations" ⟨[], [], []⟩ = .done tablesApplied := by decide
  have hdown : down tableEnv "migrations" tablesApplied = .done tablesReverted := by decide
  have h := (up_then_down_empties tableEnv "migrations" scenarioDir ⟨[], [], []⟩ (by decide)
    (by decide) rfl).1 tablesApplied tablesReverted hup hdown
  ⟨by decide, hup, hdown, h.1.trans (by decide),
    (congrArg (fun qs => runScripts tableEnv qs [])
      (by decide : ["create table users(id int);", "create table posts(id int);"]
        = applyScripts tableEnv "migrations" (fileNames scenarioDir).enum)).trans h.2.2.2.1,
    h.2.2.2.2.1,
    h.2.2.2.2.2.1.trans (by decide),
    (congrArg (fun qs => runScripts tableEnv qs tablesApplied.world)
      (by decide : ["drop table posts;", "drop table users;"]
        = revertScripts tableEnv "migrations" (rowsOf (fileNames scenarioDir).enum).reverse)).trans
      h.2.2.2.2.2.2⟩

theorem Atoi_values :
    Atoi "99999999999999999999x" = 2 ^ 63 - 1 ∧ Atoi "-99999999999999999999" = -(2 ^ 63) ∧
    Atoi "12x" = 0 ∧ Atoi "+7" = 7 ∧ Atoi "-5" = -5 ∧ Atoi "" = 0 := by
  decide

end Amigo
